import Mathlib

/-!
Verification of the stepping-stone transportation solver
(`marche_pied.py`, `cyclique.py`, `potentiels.py`, `connexite.py`,
`transport_problem.py`) against its natural-language specification.

The Python source is shallowly embedded over exact rationals (`ℚ` models the
source's floats; all tolerances such as `1e-9` and `1e-6` appear verbatim as
rational literals).  Matrices are `List (List ℚ)`, indexed with a defaulting
getter (`getc`), mirroring the source's list-of-lists.  The source's unbounded
`while` loops are embedded with explicit fuel; where fuel matters to a claim,
its sufficiency is proved.  Randomised branches of the source (the
`random.sample` paths taken only for `n ≥ 5000` in the entering-cell search and
`n ≥ 1000` in connectivity repair) are not modelled; each embedded definition
documents the deterministic regime it is faithful to, and every theorem stays
inside that regime.
-/

namespace StepStone

/-- A cell `(i, j)` of the transportation tableau: row `i`, column `j`. -/
abbrev Cell := ℕ × ℕ

/-- A matrix as in the source: a list of row lists. -/
abbrev Matrix := List (List ℚ)

/-- `allocation[i][j]` with Python's in-bounds reads modelled by a default of
`0` (all theorems below stay within bounds where it matters). -/
def getc (A : Matrix) (i j : ℕ) : ℚ := (A.getD i []).getD j 0

/-- `allocation[i][j] = x` (out-of-bounds writes are no-ops, matching that the
source never performs one). -/
def setc (A : Matrix) (i j : ℕ) (x : ℚ) : Matrix := A.set i ((A.getD i []).set j x)

/-- The structural tolerance `1e-9` used throughout the source. -/
def tol9 : ℚ := 1 / 1000000000

/-- The connectivity-repair / degenerate-pivot epsilon `1e-6`. -/
def eps6 : ℚ := 1 / 1000000

/-- `cyclique.tester_acyclique`'s list `cellules` (also
`potentiels.calculer_potentiels`'s `aretes_basiques`): all cells with
`allocation[i][j] > 0`, in row-major order, with `n = len(allocation)` and
`m = len(allocation[0])`. -/
def cellulesOf (A : Matrix) : List Cell :=
  (List.range A.length).flatMap fun i =>
    (List.range (A.headD []).length).filterMap fun j =>
      if getc A i j > 0 then some (i, j) else none

/-- Number of basic cells (used as a termination measure for the source's
detect-and-resolve loop). -/
def countBasic (A : Matrix) : ℕ := (cellulesOf A).length

/-- `cyclique.est_cycle_transport_valide`: a transport cycle must have at least
4 cells, consecutive cells must share a row or a column, and (for indices below
`len - 1`) the previous and next cells must not lie in the same line as the
current one. -/
def est_cycle_transport_valide (cycle : List Cell) : Bool :=
  if cycle.length < 4 then false
  else
    (List.range cycle.length).all fun idx =>
      let curr := cycle.getD idx (0, 0)
      let next := cycle.getD ((idx + 1) % cycle.length) (0, 0)
      (curr.1 == next.1 || curr.2 == next.2) &&
      (if idx < cycle.length - 1 then
        let prev := if idx > 0 then cycle.getD (idx - 1) (0, 0)
                    else cycle.getD (cycle.length - 1) (0, 0)
        !(prev.1 == curr.1 && next.1 == curr.1) &&
        !(prev.2 == curr.2 && next.2 == curr.2)
      else true)

/-- `parent.get(x)` of `cyclique.tester_acyclique`'s BFS: the parent map binds
each visited cell to `some` parent (or `none` for a BFS root); a missing key
also reads as `none`, exactly like Python's `dict.get`. -/
def parentGet (p : List (Cell × Option Cell)) (c : Cell) : Option Cell :=
  match p.lookup c with
  | some o => o
  | none => none

/-- The ancestor chain `while x is not None: chemin.append(x); x = parent.get(x)`
of `cyclique.reconstruire_cycle`, with fuel for the source's unbounded loop
(`reconstruire_cycle` passes fuel exceeding the chain length). -/
def chemin (p : List (Cell × Option Cell)) : ℕ → Cell → List Cell
  | 0, _ => []
  | fuel + 1, x =>
    x :: (match parentGet p x with
          | none => []
          | some y => chemin p fuel y)

/-- The walk `while x != lca: cycle.append(x); x = parent.get(x); if x is None:
break` of `cyclique.reconstruire_cycle`. -/
def walkToLca (p : List (Cell × Option Cell)) (lca : Cell) : ℕ → Cell → List Cell
  | 0, _ => []
  | fuel + 1, x =>
    if x = lca then []
    else x :: (match parentGet p x with
               | none => []
               | some y => walkToLca p lca fuel y)

/-- `cyclique.reconstruire_cycle`: walk both ancestor chains, find the lowest
common ancestor (first node of `u`'s chain appearing in `v`'s chain), and
return `u`'s walk ++ [lca] ++ reverse of `v`'s walk (or `[u, v]` if no LCA). -/
def reconstruire_cycle (u v : Cell) (p : List (Cell × Option Cell)) : List Cell :=
  let fuel := p.length + 1
  let cheminU := chemin p fuel u
  let cheminV := chemin p fuel v
  match cheminU.find? (fun c => c ∈ cheminV) with
  | none => [u, v]
  | some lca => walkToLca p lca fuel u ++ [lca] ++ (walkToLca p lca fuel v).reverse

/-- Row/column neighbours of a basic cell, as built by `tester_acyclique` from
`cellules_par_ligne` and `cellules_par_colonne` (row neighbours first, column
neighbours second, both in row-major discovery order). -/
def adjOf (A : Matrix) (c : Cell) : List Cell :=
  ((cellulesOf A).filter fun d => d.1 == c.1 && d.2 != c.2) ++
  ((cellulesOf A).filter fun d => d.2 == c.2 && d.1 != c.1)

/-- The BFS state of `tester_acyclique`: `visite` (in insertion order),
`parent`, and the FIFO `queue`. -/
structure BfsSt where
  visite : List Cell
  parent : List (Cell × Option Cell)
  queue : List Cell
deriving Repr, DecidableEq

/-- The `for v in adj[u]` body of `tester_acyclique`'s BFS: fresh neighbours are
visited and enqueued; a visited neighbour other than `u`'s parent triggers
cycle reconstruction, returned (`Sum.inl`) only if the cycle is transport-valid. -/
def bfsNbrs (u : Cell) : List Cell → BfsSt → List Cell ⊕ BfsSt
  | [], st => Sum.inr st
  | v :: vs, st =>
    if v ∈ st.visite then
      if parentGet st.parent u ≠ some v then
        let cyc := reconstruire_cycle u v st.parent
        if est_cycle_transport_valide cyc then Sum.inl cyc
        else bfsNbrs u vs st
      else bfsNbrs u vs st
    else
      bfsNbrs u vs
        { visite := st.visite ++ [v]
          parent := (v, some u) :: st.parent
          queue := st.queue ++ [v] }

/-- The `while queue` loop of `tester_acyclique`'s BFS (fuel bounds the
source's unbounded loop; `tester_acyclique` passes fuel proved sufficient in
`bfsLoop_no_fuel_exhaustion` below). -/
def bfsLoop (A : Matrix) : ℕ → BfsSt → List Cell ⊕ BfsSt
  | _, ⟨vis, par, []⟩ => Sum.inr ⟨vis, par, []⟩
  | 0, st => Sum.inr st
  | fuel + 1, ⟨vis, par, u :: qs⟩ =>
    match bfsNbrs u (adjOf A u) ⟨vis, par, qs⟩ with
    | Sum.inl cyc => Sum.inl cyc
    | Sum.inr st' => bfsLoop A fuel st'

/-- The `for start in cellules` loop of `tester_acyclique`. -/
def bfsStarts (A : Matrix) : List Cell → BfsSt → List Cell ⊕ BfsSt
  | [], st => Sum.inr st
  | s :: ss, st =>
    if s ∈ st.visite then bfsStarts A ss st
    else
      match bfsLoop A (2 * (cellulesOf A).length + 1)
          ⟨st.visite ++ [s], (s, none) :: st.parent, [s]⟩ with
      | Sum.inl cyc => Sum.inl cyc
      | Sum.inr st' => bfsStarts A ss st'

/-- `cyclique.tester_acyclique`: `(True, [])` if the basic-cell graph is
acyclic, otherwise `(False, cycle)` for the first transport-valid cycle found
by BFS. -/
def tester_acyclique (A : Matrix) : Bool × List Cell :=
  if cellulesOf A = [] then (true, [])
  else
    match bfsStarts A (cellulesOf A) ⟨[], [], []⟩ with
    | Sum.inl cyc => (false, cyc)
    | Sum.inr _ => (true, [])

/-- Well-formedness of the BFS parent map of `tester_acyclique`: each cell is
bound at most once and every `some` parent is bound strictly later in the list
(bindings are consed at the front and point to already-visited cells), so
parent chains cannot loop. -/
def parentWF : List (Cell × Option Cell) → Prop
  | [] => True
  | (v, o) :: p =>
    (∀ u, o = some u → u ∈ p.map Prod.fst) ∧ v ∉ p.map Prod.fst ∧ parentWF p

/-- Position of a cell's binding in the parent map (most recent binding
first); parent pointers strictly increase this rank. -/
def keyRank : List (Cell × Option Cell) → Cell → ℕ
  | [], _ => 0
  | e :: p, x => if e.1 = x then 0 else keyRank p x + 1

/-- Invariant of `tester_acyclique`'s BFS state: the parent map is
well-formed, its keys are exactly the visited cells, every visited cell is
basic, and the queue holds visited cells. -/
def BfsInv (A : Matrix) (st : BfsSt) : Prop :=
  parentWF st.parent ∧
  (∀ x : Cell, x ∈ st.visite ↔ x ∈ st.parent.map Prod.fst) ∧
  (∀ x ∈ st.visite, x ∈ cellulesOf A) ∧
  (∀ x ∈ st.queue, x ∈ st.visite)

/-- The even-indexed (`+`-signed) cells of a cycle
(`cyclique.maximiser_sur_cycle`'s `plus_cases`). -/
def plusCases (cycle : List Cell) : List Cell :=
  (cycle.enum.filter fun p => p.1 % 2 == 0).map Prod.snd

/-- The odd-indexed (`−`-signed) cells of a cycle (`moins_cases`). -/
def moinsCases (cycle : List Cell) : List Cell :=
  (cycle.enum.filter fun p => p.1 % 2 == 1).map Prod.snd

/-- `delta = min(allocation[i][j] for (i,j) in moins_cases)`. -/
def deltaOf (A : Matrix) (cycle : List Cell) : ℚ :=
  match moinsCases cycle with
  | [] => 0
  | c :: cs => cs.foldl (fun acc d => min acc (getc A d.1 d.2)) (getc A c.1 c.2)

/-- `cyclique.maximiser_sur_cycle` (returns the updated allocation — the source
mutates it in place — together with the returned delta).  Cycles shorter than
4, empty `moins_cases`, or `delta ≤ 1e-9` leave the allocation untouched and
return `0.0`; otherwise delta is added to `+` cells, subtracted from `−` cells,
and `−` cells landing within `1e-9` of zero are set to exactly `0`. -/
def maximiser_sur_cycle (A : Matrix) (cycle : List Cell) : Matrix × ℚ :=
  if cycle.length < 4 then (A, 0)
  else if moinsCases cycle = [] then (A, 0)
  else
    let delta := deltaOf A cycle
    if delta ≤ tol9 then (A, 0)
    else
      let A1 := (plusCases cycle).foldl
        (fun B c => setc B c.1 c.2 (getc B c.1 c.2 + delta)) A
      let A2 := (moinsCases cycle).foldl
        (fun B c =>
          let w := getc B c.1 c.2 - delta
          setc B c.1 c.2 (if |w| < tol9 then 0 else w)) A1
      (A2, delta)

/-- One iteration of the detect-and-resolve loop at the top of
`marche_pied.methode_marche_pied` (Étape 1): test for a cycle, resolve it, and
when the returned delta is `≤ 1e-9` force the first cell of the cycle to
exactly zero. -/
def repairOnce (A : Matrix) : Matrix :=
  let t := tester_acyclique A
  if t.1 then A
  else
    let M := maximiser_sur_cycle A t.2
    if M.2 ≤ tol9 then
      match t.2 with
      | [] => M.1
      | c :: _ => setc M.1 c.1 c.2 0
    else M.1

/-- The full `while True` detect-and-resolve loop, with fuel
(`methode_marche_pied` passes `countBasic A + 1`, proved sufficient below: each
pass removes at least one basic cell). -/
def repairAcyclic : ℕ → Matrix → Matrix
  | 0, A => A
  | fuel + 1, A =>
    if (tester_acyclique A).1 then A else repairAcyclic fuel (repairOnce A)

/-- A node of `connexite.py`'s bipartite graph: `P i` is the string node
`"P{i}"` (supplier row `i`), `C j` is `"C{j}"` (customer column `j`). -/
inductive TNode
  | P (i : ℕ)
  | C (j : ℕ)
deriving DecidableEq, Repr

/-- The graph of `connexite.build_graph_from_transport`: an adjacency
association list whose key order is Python-`defaultdict` insertion order. -/
abbrev Graph := List (TNode × List TNode)

/-- `graph[a].append(b)` on a `defaultdict(list)`: appends to the existing
adjacency list, or creates the key at the end. -/
def addNbr (g : Graph) (a b : TNode) : Graph :=
  if g.lookup a |>.isSome then
    g.map fun kv => if kv.1 = a then (kv.1, kv.2 ++ [b]) else kv
  else g ++ [(a, [b])]

/-- `graph[a]` read on a `defaultdict(list)` for its key-creating side effect
(the ensure-all-nodes loops of `build_graph_from_transport`). -/
def ensureKey (g : Graph) (a : TNode) : Graph :=
  if g.lookup a |>.isSome then g else g ++ [(a, [])]

/-- `connexite.build_graph_from_transport`: an edge `P i — C j` for every cell
with `transport[i][j] > 0` (row-major), then all `P`-nodes and `C`-nodes are
ensured to exist. -/
def build_graph_from_transport (A : Matrix) : Graph :=
  let n := A.length
  let m := (A.headD []).length
  let g1 := (List.range n).foldl (fun g i =>
    (List.range m).foldl (fun g j =>
      if getc A i j > 0 then addNbr (addNbr g (TNode.P i) (TNode.C j)) (TNode.C j) (TNode.P i)
      else g) g) []
  let g2 := (List.range n).foldl (fun g i => ensureKey g (TNode.P i)) g1
  (List.range m).foldl (fun g j => ensureKey g (TNode.C j)) g2

/-- Adjacency lookup `graph[node]` (a read during BFS never creates keys the
graph does not already have, since both endpoints of every edge are keys). -/
def nbrsOf (g : Graph) (a : TNode) : List TNode := (g.lookup a).getD []

/-- The `while queue` loop of `connexite.bfs_component`; returns the component
(in discovery order) and the updated `visited`.  Fuel bounds the source's
unbounded loop; `bfs_component` passes fuel sufficient for any run. -/
def bfsCompLoop (g : Graph) : ℕ → List TNode → List TNode → List TNode →
    List TNode × List TNode
  | _, [], visited, comp => (comp, visited)
  | 0, _, visited, comp => (comp, visited)
  | fuel + 1, node :: qs, visited, comp =>
    let (q', v', c') := (nbrsOf g node).foldl
      (fun (st : List TNode × List TNode × List TNode) nb =>
        let (q, v, c) := st
        if nb ∈ v then (q, v, c) else (q ++ [nb], v ++ [nb], c ++ [nb]))
      (qs, visited, comp)
    bfsCompLoop g fuel q' v' c'

/-- `connexite.bfs_component`: BFS from `start`, returning the discovered
component and the enlarged `visited` set. -/
def bfs_component (g : Graph) (start : TNode) (visited : List TNode) :
    List TNode × List TNode :=
  bfsCompLoop g (2 * g.length + 2) [start] (visited ++ [start]) [start]

/-- `connexite.connected_components`: BFS from every not-yet-visited key, in
key order. -/
def connected_components (g : Graph) : List (List TNode) :=
  (g.map Prod.fst).foldl
    (fun (st : List (List TNode) × List TNode) node =>
      let (comps, visited) := st
      if node ∈ visited then (comps, visited)
      else
        let (comp, v') := bfs_component g node visited
        (comps ++ [comp], v'))
    ([], []) |>.1

/-- `connexite.is_connected_transport`. -/
def is_connected_transport (A : Matrix) : Bool × List (List TNode) :=
  let comps := connected_components (build_graph_from_transport A)
  (comps.length == 1, comps)

/-- State of the best-edge scan in `marche_pied.rendre_connexe`:
`meilleure_arete` (`none` plays `float('inf')` for `meilleur_cout`). -/
def scanBetter (best : Option (Cell × ℚ)) (c : ℚ) : Bool :=
  match best with
  | none => true
  | some (_, bc) => c < bc

/-- The row-side scan of `rendre_connexe` (`for i in rows0: for j in
cols_to_check: ...`), returning the updated best edge and the `trouve_min`
early-exit flag. -/
def scanRows (A costs : Matrix) (cols0 : List ℕ) (colsToCheck : List ℕ) :
    List ℕ → Option (Cell × ℚ) → Option (Cell × ℚ) × Bool
  | [], best => (best, false)
  | i :: is_, best =>
    let rec go : List ℕ → Option (Cell × ℚ) → Option (Cell × ℚ) × Bool
      | [], b => (b, false)
      | j :: js, b =>
        if j ∉ cols0 ∧ getc A i j = 0 then
          let c := getc costs i j
          if scanBetter b c then
            if c ≤ 1 then (some ((i, j), c), true)
            else go js (some ((i, j), c))
          else go js b
        else go js b
    match go colsToCheck best with
    | (b, true) => (b, true)
    | (b, false) => scanRows A costs cols0 colsToCheck is_ b

/-- The column-side scan of `rendre_connexe` (`for j in cols0: for i in
rows_to_check: ...`). -/
def scanCols (A costs : Matrix) (rows0 : List ℕ) (rowsToCheck : List ℕ) :
    List ℕ → Option (Cell × ℚ) → Option (Cell × ℚ) × Bool
  | [], best => (best, false)
  | j :: js, best =>
    let rec go : List ℕ → Option (Cell × ℚ) → Option (Cell × ℚ) × Bool
      | [], b => (b, false)
      | i :: is_, b =>
        if i ∉ rows0 ∧ getc A i j = 0 then
          let c := getc costs i j
          if scanBetter b c then
            if c ≤ 1 then (some ((i, j), c), true)
            else go is_ (some ((i, j), c))
          else go is_ b
        else go is_ b
    match go rowsToCheck best with
    | (b, true) => (b, true)
    | (b, false) => scanCols A costs rows0 rowsToCheck js b

/-- One pass of `rendre_connexe`'s `while len(composantes) > 1` loop body:
split the first component into row and column indices, scan for the cheapest
zero-allocation edge leaving it (rows of `comp0` against columns up to
`min(limite_recherche, m)`, then — exactly as in the source — columns of
`comp0` against rows up to `min(limite_recherche, n)`), and return the chosen
edge.  The source iterates the Python sets `rows0`/`cols0`; we iterate them in
ascending index order.  The `random.sample` paths (taken only when `n ≥ 1000`)
are not modelled: this is the `n < 1000` deterministic scan. -/
def rendreConnexeScan (A costs : Matrix) (comp0 : List TNode) : Option Cell :=
  let n := A.length
  let m := (A.headD []).length
  let rows0 := (List.range n).filter fun i => TNode.P i ∈ comp0
  let cols0 := (List.range m).filter fun j => TNode.C j ∈ comp0
  let limite := if n ≥ 1000 then 1000 else m
  let colsToCheck := List.range (min limite m)
  let rowsToCheck := List.range (min limite n)
  match scanRows A costs cols0 colsToCheck rows0 none with
  | (best, true) => best.map Prod.fst
  | (best, false) => (scanCols A costs rows0 rowsToCheck cols0 best).1.map Prod.fst

/-- The `while len(composantes) > 1` loop of `rendre_connexe` (fuel bounds the
source's unbounded loop; each productive pass turns a zero cell into `1e-6`,
so `methode_marche_pied` passes ample fuel). -/
def rendreConnexeLoop (costs : Matrix) : ℕ → Matrix → List (List TNode) →
    List Cell → Matrix × List Cell
  | 0, A, _, acc => (A, acc)
  | fuel + 1, A, comps, acc =>
    if comps.length > 1 then
      match rendreConnexeScan A costs (comps.headD []) with
      | some (i, j) =>
        let A' := setc A i j eps6
        rendreConnexeLoop costs fuel A' (is_connected_transport A').2 (acc ++ [(i, j)])
      | none => (A, acc)
    else (A, acc)

/-- `marche_pied.rendre_connexe` (the supplies and demands arguments are
accepted and ignored, as in the source).  Returns the repaired allocation (the
source mutates it in place) together with the list of added edges. -/
def rendre_connexe (costs A : Matrix) (_supplies _demands : List ℚ) :
    Matrix × List Cell :=
  let (est, comps) := is_connected_transport A
  if est then (A, [])
  else rendreConnexeLoop costs (A.length * (A.headD []).length + 1) A comps []

/-- A node of the potential-propagation queue in
`potentiels.calculer_potentiels`: `('client', j)` or `('fournisseur', i)`. -/
inductive PNode
  | client (j : ℕ)
  | fournisseur (i : ℕ)
deriving DecidableEq, Repr

/-- The inner `for` loop of one `calculer_potentiels` propagation step: for
every basic edge whose `keyIdx`-side equals the popped node `k` and whose
`tgtIdx`-side potential is still unknown, assign that potential to
`val (tgtIdx c)` and enqueue the node.  Instantiated twice by `potLoop`, once
per direction, exactly as written out in the source. -/
def assignFold (aretes : List Cell) (keyIdx tgtIdx : Cell → ℕ)
    (mk : ℕ → PNode) (val : ℕ → ℚ) (k : ℕ)
    (st : List (Option ℚ) × List PNode) : List (Option ℚ) × List PNode :=
  aretes.foldl (fun st c =>
    if keyIdx c = k ∧ st.1.getD (tgtIdx c) none = none then
      (st.1.set (tgtIdx c) (some (val (tgtIdx c))), st.2 ++ [mk (tgtIdx c)])
    else st) st

/-- The `while queue` propagation loop of `calculer_potentiels`: popping a
client `j` solves `u[i] = c[i][j] - v[j]` for every basic edge `(i, j)` with
`u[i]` still unknown; popping a supplier `i` solves `v[j] = c[i][j] - u[i]`
symmetrically.  Fuel bounds the source's unbounded loop;
`calculer_potentiels` passes fuel proved sufficient below. -/
def potLoop (costs : Matrix) (aretes : List Cell) :
    ℕ → List PNode → List (Option ℚ) → List (Option ℚ) →
    List (Option ℚ) × List (Option ℚ)
  | _, [], u, v => (u, v)
  | 0, _, u, v => (u, v)
  | fuel + 1, node :: qs, u, v =>
    match node with
    | PNode.client j =>
      let st := assignFold aretes (fun c => c.2) (fun c => c.1)
        PNode.fournisseur (fun i => getc costs i j - (v.getD j none).getD 0)
        j (u, qs)
      potLoop costs aretes fuel st.2 st.1 v
    | PNode.fournisseur i =>
      let st := assignFold aretes (fun c => c.1) (fun c => c.2)
        PNode.client (fun j => getc costs i j - (u.getD i none).getD 0)
        i (v, qs)
      potLoop costs aretes fuel st.2 u st.1

/-- The seeding loop of `calculer_potentiels`: for every basic edge `(0, j)`
(and with `u[0]` known), set `v[j] = c[0][j] - u[0]` — unconditionally, as in
the source — and enqueue client `j`. -/
def initFold (costs : Matrix) (aretes : List Cell) (u0 : List (Option ℚ))
    (st : List (Option ℚ) × List PNode) : List (Option ℚ) × List PNode :=
  aretes.foldl (fun st c =>
    if c.1 = 0 ∧ (u0.getD 0 none).isSome then
      (st.1.set c.2 (some (getc costs 0 c.2 - (u0.getD 0 none).getD 0)),
       st.2 ++ [PNode.client c.2])
    else st) st

/-- `potentiels.calculer_potentiels`: fix `u[0] = 0`, seed `v[j]` from every
basic edge in row `0`, propagate by BFS, and default every still-unknown
potential to `0`. -/
def calculer_potentiels (costs A : Matrix) : List ℚ × List ℚ :=
  let n := A.length
  let m := (A.headD []).length
  let aretes := cellulesOf A
  if aretes = [] then (List.replicate n 0, List.replicate m 0)
  else
    let u0 : List (Option ℚ) := (List.replicate n (none : Option ℚ)).set 0 (some 0)
    let st1 := initFold costs aretes u0 (List.replicate m (none : Option ℚ), [])
    let uv := potLoop costs aretes (aretes.length + 2 * (n + m) + 2) st1.2 u0 st1.1
    (uv.1.map fun o => o.getD 0, uv.2.map fun o => o.getD 0)

/-- Reachability from supply node 0 through basic cells, the propagation
relation of `calculer_potentiels`: row node `P i` and column node `C j` are
connected whenever `(i, j)` is a basic edge. -/
inductive PotReach (aretes : List Cell) : TNode → Prop
  | root : PotReach aretes (TNode.P 0)
  | toC {i j : ℕ} : PotReach aretes (TNode.P i) → (i, j) ∈ aretes →
      PotReach aretes (TNode.C j)
  | toP {i j : ℕ} : PotReach aretes (TNode.C j) → (i, j) ∈ aretes →
      PotReach aretes (TNode.P i)

/-- Number of still-unknown potentials (the propagation-loop termination
measure). -/
def countNone (l : List (Option ℚ)) : ℕ := l.countP fun o => o.isNone

/-- Invariant of `calculer_potentiels`'s propagation loop relative to a
consistent dual solution `(ustar, vstar)`: known potentials agree with that
solution and belong to nodes reachable from supply node 0; queued nodes are
known; and every known node is either still queued or has all its basic-edge
neighbours known. -/
def PotInv (aretes : List Cell) (ustar vstar : ℕ → ℚ) (n m : ℕ)
    (u v : List (Option ℚ)) (q : List PNode) : Prop :=
  u.length = n ∧ v.length = m ∧
  u.getD 0 none = some 0 ∧
  (∀ i w, u.getD i none = some w → w = ustar i ∧ PotReach aretes (TNode.P i)) ∧
  (∀ j w, v.getD j none = some w → w = vstar j ∧ PotReach aretes (TNode.C j)) ∧
  (∀ j, PNode.client j ∈ q → v.getD j none ≠ none) ∧
  (∀ i, PNode.fournisseur i ∈ q → u.getD i none ≠ none) ∧
  (∀ i, u.getD i none ≠ none → PNode.fournisseur i ∈ q ∨
    ∀ c ∈ aretes, c.1 = i → v.getD c.2 none ≠ none) ∧
  (∀ j, v.getD j none ≠ none → PNode.client j ∈ q ∨
    ∀ c ∈ aretes, c.2 = j → u.getD c.1 none ≠ none)

/-- `potentiels.calculer_couts_marginaux`: `c[i][j] - (u[i] + v[j])` for every
cell. -/
def calculer_couts_marginaux (costs : Matrix) (u v : List ℚ) : Matrix :=
  (List.range u.length).map fun i =>
    (List.range v.length).map fun j => getc costs i j - (u.getD i 0 + v.getD j 0)

/-- The entering-cell selection strategy: the source passes the strings
`"first"` or `"best"` (any other string behaves exactly like `"best"`, so two
constructors are faithful). -/
inductive Strategy
  | first
  | best
deriving DecidableEq, Repr

/-- The common non-basic-cell scan of `potentiels.detecter_arete_ameliorante`
and `detecter_arete_ameliorante_rapide`: `marg i j` is the marginal cost read
(from the precomputed table, resp. computed on the fly — the two sources are
otherwise line-for-line identical), non-basic means `allocation[i][j] == 0`,
`"first"` returns the first cell with marginal `< -1e-9`, and the running best
starts at `-1e-9` so only strictly better cells are recorded. -/
def scanRowMarg (marg : ℕ → ℕ → ℚ) (A : Matrix) (strategy : Strategy)
    (i : ℕ) : List ℕ → Option Cell → ℚ → (ℕ × ℕ × ℚ) ⊕ (Option Cell × ℚ)
  | [], b, m => Sum.inr (b, m)
  | j :: js, b, m =>
    if getc A i j = 0 then
      let marginal := marg i j
      if strategy = Strategy.first ∧ marginal < -tol9 then
        Sum.inl (i, j, marginal)
      else if marginal < m then scanRowMarg marg A strategy i js (some (i, j)) marginal
      else scanRowMarg marg A strategy i js b m
    else scanRowMarg marg A strategy i js b m

/-- The outer `for i in indices_i` loop of the two entering-cell searches. -/
def scanMarginals (marg : ℕ → ℕ → ℚ) (A : Matrix) (strategy : Strategy) :
    List ℕ → List ℕ → Option Cell → ℚ → Option (ℕ × ℕ × ℚ)
  | [], _, best, bm =>
    match best with
    | some (i, j) => some (i, j, bm)
    | none => none
  | i :: is_, js, best, bm =>
    match scanRowMarg marg A strategy i js best bm with
    | Sum.inl r => some r
    | Sum.inr (b, m) => scanMarginals marg A strategy is_ js b m

/-- `potentiels.detecter_arete_ameliorante` (full scan of a precomputed
marginal-cost table; dimensions are read off `marginals` as in the source). -/
def detecter_arete_ameliorante (marginals A : Matrix) (strategy : Strategy) :
    Option (ℕ × ℕ × ℚ) :=
  let n := marginals.length
  let m := (marginals.headD []).length
  scanMarginals (fun i j => getc marginals i j) A strategy
    (List.range n) (List.range m) none (-tol9)

/-- `potentiels.detecter_arete_ameliorante_rapide`: marginal costs computed on
the fly; for `1000 ≤ n < 5000` the scan is truncated to the first
`min(2000, n)` rows and `min(2000, m)` columns, exactly as in the source.  The
`n ≥ 5000` branch draws a `random.sample` of rows and columns and is not
modelled (this embedding returns `none` there; every theorem below restricts
to `n < 5000`). -/
def detecter_arete_ameliorante_rapide (costs : Matrix) (u v : List ℚ)
    (A : Matrix) (strategy : Strategy) : Option (ℕ × ℕ × ℚ) :=
  let n := costs.length
  let m := (costs.headD []).length
  if 5000 ≤ n then none
  else
    let indices_i := if 1000 ≤ n then List.range (min 2000 n) else List.range n
    let indices_j := if 1000 ≤ n then List.range (min 2000 m) else List.range m
    scanMarginals (fun i j => getc costs i j - (u.getD i 0 + v.getD j 0))
      A strategy indices_i indices_j none (-tol9)

/-- A node of `marche_pied.trouver_cycle_avec_arete`'s bipartite path graph:
`("r", i)` or `("c", j)`. -/
inductive BNode
  | r (i : ℕ)
  | c (j : ℕ)
deriving DecidableEq, Repr

/-- The adjacency structure of `trouver_cycle_avec_arete` — for each node the
list of `(neighbour, cell)` pairs in `add_edge` insertion order. -/
abbrev BGraph := List (BNode × List (BNode × Cell))

/-- `add_edge(node_a, node_b, cell)` via `adj.setdefault(...).append(...)`. -/
def addBEdge (g : BGraph) (a b : BNode) (cell : Cell) : BGraph :=
  let g1 :=
    if g.lookup a |>.isSome then
      g.map fun kv => if kv.1 = a then (kv.1, kv.2 ++ [(b, cell)]) else kv
    else g ++ [(a, [(b, cell)])]
  if g1.lookup b |>.isSome then
    g1.map fun kv => if kv.1 = b then (kv.1, kv.2 ++ [(a, cell)]) else kv
  else g1 ++ [(b, [(a, cell)])]

/-- The graph built by `trouver_cycle_avec_arete`: all basic cells except the
added edge, in row-major order.  The source restricts the construction to a
radius around the added edge when `n ≥ 1000`; this embedding is the full
`n < 1000` construction. -/
def buildBGraph (A : Matrix) (iA jA : ℕ) : BGraph :=
  (List.range A.length).foldl (fun g i =>
    (List.range (A.headD []).length).foldl (fun g j =>
      if getc A i j > 0 ∧ ¬(i = iA ∧ j = jA) then
        addBEdge g (BNode.r i) (BNode.c j) (i, j)
      else g) g) []

/-- The BFS of `trouver_cycle_avec_arete` searching a path from `("r", i)` to
`("c", j)`; returns the parent map and whether the target was reached (the
target test happens on dequeue, as in the source). -/
def bPathLoop (g : BGraph) (target : BNode) :
    ℕ → List BNode → List BNode → List (BNode × (BNode × Cell)) →
    Bool × List (BNode × (BNode × Cell))
  | _, [], _, parent => (false, parent)
  | 0, _, _, parent => (false, parent)
  | fuel + 1, node :: qs, visited, parent =>
    if node = target then (true, parent)
    else
      let (q', v', p') := ((g.lookup node).getD []).foldl
        (fun (st : List BNode × List BNode × List (BNode × (BNode × Cell))) nb =>
          let (q, v, p) := st
          if nb.1 ∈ v then (q, v, p)
          else (q ++ [nb.1], v ++ [nb.1], p ++ [(nb.1, (node, nb.2))]))
        (qs, visited, parent)
      bPathLoop g target fuel q' v' p'

/-- The path reconstruction `while current != start` of
`trouver_cycle_avec_arete` (collecting the cells used, root to target order
after the final `reverse`). -/
def bPathCells (parent : List (BNode × (BNode × Cell))) (start : BNode) :
    ℕ → BNode → List Cell
  | 0, _ => []
  | fuel + 1, cur =>
    if cur = start then []
    else
      match parent.lookup cur with
      | none => []
      | some (prev, cell) => bPathCells parent start fuel prev ++ [cell]

/-- `marche_pied.trouver_cycle_avec_arete`: the cycle closed by the entering
cell `(i_ajout, j_ajout)` is the entering cell followed by the unique basic
path from its row node to its column node; degenerate outcomes return the
trivial `[(i_ajout, j_ajout)]`. -/
def trouver_cycle_avec_arete (A : Matrix) (iA jA : ℕ) : List Cell :=
  let n := A.length
  let m := (A.headD []).length
  if n = 0 ∨ m = 0 then [(iA, jA)]
  else
    let g := buildBGraph A iA jA
    let start := BNode.r iA
    let target := BNode.c jA
    let (found, parent) :=
      bPathLoop g target (2 * g.length + 2) [start] [start] []
    if found then
      let cells := bPathCells parent start (parent.length + 1) target
      let cycle := (iA, jA) :: cells
      if cycle.length < 4 then [(iA, jA)] else cycle
    else [(iA, jA)]

/-- `transport_problem.compute_total_cost`: `none` models the `ValueError`
raised on mismatched dimensions (row counts first, then — when nonempty —
the lengths of the first rows); otherwise the sum over the `n × m` grid of
`cost[i][j] * allocation[i][j]`. -/
def compute_total_cost (costs allocation : Matrix) : Option ℚ :=
  if costs.length ≠ allocation.length then none
  else if costs.length = 0 then some 0
  else if (costs.headD []).length ≠ (allocation.headD []).length then none
  else
    some ((List.range costs.length).foldl (fun acc i =>
      (List.range (costs.headD []).length).foldl (fun acc j =>
        acc + getc costs i j * getc allocation i j) acc) 0)

/-- The `while i < n and j < m` loop of
`transport_problem.northwest_corner_method`, instrumented with the number of
allocation steps taken; the third component is `true` iff the loop exited by
its own guard (the fuel passed by `northwest_corner_method` is proved
sufficient below).  Each step allocates
`min(remaining_supplies[i], remaining_demands[j])`, decrements both, then
advances `i` when the remaining supply fell below `1e-9` and otherwise `j`
when the remaining demand did (neither advancing would re-run the same cell,
exactly as in the source). -/
def nwGo (n m : ℕ) : ℕ → ℕ → ℕ → List ℚ → List ℚ → Matrix → ℕ →
    Matrix × ℕ × Bool
  | 0, i, j, _, _, A, steps => (A, steps, ¬(i < n ∧ j < m))
  | fuel + 1, i, j, rs, rd, A, steps =>
    if i < n ∧ j < m then
      let x := min (rs.getD i 0) (rd.getD j 0)
      let A' := setc A i j x
      let rs' := rs.set i (rs.getD i 0 - x)
      let rd' := rd.set j (rd.getD j 0 - x)
      if rs'.getD i 0 < tol9 then nwGo n m fuel (i + 1) j rs' rd' A' (steps + 1)
      else if rd'.getD j 0 < tol9 then nwGo n m fuel i (j + 1) rs' rd' A' (steps + 1)
      else nwGo n m fuel i j rs' rd' A' (steps + 1)
    else (A, steps, true)

/-- `transport_problem.northwest_corner_method`. -/
def northwest_corner_method (supplies demands : List ℚ) : Matrix :=
  let n := supplies.length
  let m := demands.length
  (nwGo n m (n + m + 1) 0 0 supplies demands
    (List.replicate n (List.replicate m 0)) 0).1

/-- One iteration of `marche_pied.methode_marche_pied`'s main loop (Étapes
1–7): repair acyclicity, repair connectivity, compute potentials, select an
entering cell (`"first"` for `n ≥ 500`, else `"best"`); on `none` stop
(optimal); otherwise place the temporary value `1.0` on the entering cell,
find its cycle, redistribute, and on a degenerate (`delta ≤ 1e-9`) pivot zero
the connectivity-repair edges and keep the entering cell at `1e-6`. -/
def solveStep (costs : Matrix) (supplies demands : List ℚ) (n : ℕ)
    (A : Matrix) : Matrix ⊕ Matrix :=
  let A1 := repairAcyclic (countBasic A + 1) A
  let (est, _) := is_connected_transport A1
  let (A2, edges) :=
    if est then (A1, []) else rendre_connexe costs A1 supplies demands
  let (u, v) := calculer_potentiels costs A2
  let strategy := if 500 ≤ n then Strategy.first else Strategy.best
  match detecter_arete_ameliorante_rapide costs u v A2 strategy with
  | none => Sum.inl A2
  | some (i, j, _) =>
    let A3 := setc A2 i j 1
    let cycle := trouver_cycle_avec_arete A3 i j
    let (A4, delta) := maximiser_sur_cycle A3 cycle
    if delta ≤ tol9 then
      let A4' := edges.foldl (fun B e => setc B e.1 e.2 0) A4
      Sum.inr (setc A4' i j eps6)
    else Sum.inr A4

/-- The `while nb_iterations < max_iterations` loop of `methode_marche_pied`:
`rem` is the remaining iteration budget, `Sum.inl` from `solveStep` is the
optimal `break`. -/
def solveLoop (costs : Matrix) (supplies demands : List ℚ) (n : ℕ) :
    ℕ → Matrix → ℕ → Matrix × ℕ
  | 0, A, nb => (A, nb)
  | rem + 1, A, nb =>
    match solveStep costs supplies demands n A with
    | Sum.inl A2 => (A2, nb + 1)
    | Sum.inr A' => solveLoop costs supplies demands n rem A' (nb + 1)

/-- `marche_pied.methode_marche_pied`: copy the initial allocation (the copy
of pure row values is the identity here; the heap-level model below captures
the aliasing content of `[row.copy() for row in allocation_initiale]`), run up
to `max_iterations = 1000` improvement iterations, and return the final
allocation, its total cost (`none` would model a dimension-mismatch error in
`compute_total_cost`), and the iteration count. -/
def methode_marche_pied (costs : Matrix) (supplies demands : List ℚ)
    (allocation_initiale : Matrix) : Matrix × Option ℚ × ℕ :=
  let allocation := allocation_initiale
  let n := allocation.length
  let R := solveLoop costs supplies demands n 1000 allocation 0
  (R.1, compute_total_cost costs R.1, R.2)

/-- A heap of Python list objects (each a row of rationals or a flat vector),
used to model call-by-object-reference for the frame claim: a matrix object is
a list of references to row objects. -/
abbrev Heap := List (List ℚ)

/-- Dereference a matrix object: read each row object. -/
def readMat (h : Heap) (refs : List ℕ) : Matrix := refs.map fun r => h.getD r []

/-- Write a matrix value through a matrix object's row references. -/
def writeMat (h : Heap) (refs : List ℕ) (A : Matrix) : Heap :=
  (refs.zip A).foldl (fun h rv => h.set rv.1 rv.2) h

/-- The heap-level rendering of `methode_marche_pied`'s mutation behaviour:
the four argument objects are dereferenced, `[row.copy() for row in
allocation_initiale]` allocates fresh row objects at the end of the heap, the
solver's in-place updates (all of which target its local `allocation` — the
sub-calls `rendre_connexe` and `maximiser_sur_cycle` mutate only the
allocation passed to them, and every other sub-call is read-only) are written
through the fresh references, and the fresh matrix object is returned. -/
def methode_marche_pied_heap (h : Heap) (costsRefs : List ℕ)
    (suppliesRef demandsRef : ℕ) (allocInitRefs : List ℕ) :
    Heap × List ℕ × Option ℚ × ℕ :=
  let rows := readMat h allocInitRefs
  let base := h.length
  let h1 := h ++ rows
  let allocRefs := (List.range rows.length).map (base + ·)
  let costs := readMat h costsRefs
  let supplies := h.getD suppliesRef []
  let demands := h.getD demandsRef []
  let R := methode_marche_pied costs supplies demands (readMat h1 allocRefs)
  (writeMat h1 allocRefs R.1, allocRefs, R.2.1, R.2.2)

/-! ## Theorems -/

/-- `getD` after `set` at the same in-bounds index. -/
theorem getD_set_eq {α : Type _} (l : List α) (i : ℕ) (x d : α)
    (h : i < l.length) : (l.set i x).getD i d = x := by
  rw [List.getD_eq_getElem?_getD, List.getElem?_set_self h]; rfl

/-- `getD` after `set` at a different index. -/
theorem getD_set_ne {α : Type _} (l : List α) {i k : ℕ} (x d : α)
    (h : i ≠ k) : (l.set i x).getD k d = l.getD k d := by
  rw [List.getD_eq_getElem?_getD, List.getElem?_set_ne h,
    ← List.getD_eq_getElem?_getD]

/-- `getc` after `setc` at the same in-bounds cell. -/
theorem getc_setc_eq (A : Matrix) {i j : ℕ} (x : ℚ) (hi : i < A.length)
    (hj : j < (A.getD i []).length) : getc (setc A i j x) i j = x := by
  unfold getc setc
  rw [getD_set_eq _ _ _ _ hi, getD_set_eq _ _ _ _ hj]

/-- `getc` after `setc` at any other cell. -/
theorem getc_setc_ne (A : Matrix) {i j k l : ℕ} (x : ℚ)
    (h : ¬(i = k ∧ j = l)) : getc (setc A i j x) k l = getc A k l := by
  unfold getc setc
  by_cases hik : i = k
  · subst hik
    have hjl : j ≠ l := fun hj => h ⟨rfl, hj⟩
    rcases Nat.lt_or_ge i A.length with hi | hi
    · rw [getD_set_eq _ _ _ _ hi, getD_set_ne _ _ _ hjl]
    · rw [List.set_eq_of_length_le hi]
  · rw [getD_set_ne _ _ _ hik]

/-- `setc` preserves the number of rows. -/
theorem setc_length (A : Matrix) (i j : ℕ) (x : ℚ) :
    (setc A i j x).length = A.length := List.length_set ..

/-- `setc` preserves every row length. -/
theorem setc_row_length (A : Matrix) (i j k : ℕ) (x : ℚ) :
    ((setc A i j x).getD k []).length = (A.getD k []).length := by
  unfold setc
  by_cases hik : i = k
  · subst hik
    rcases Nat.lt_or_ge i A.length with hi | hi
    · rw [getD_set_eq _ _ _ _ hi, List.length_set]
    · rw [List.set_eq_of_length_le hi]
  · rw [getD_set_ne _ _ _ hik]

/-- A nonzero `getc` read is in bounds (out-of-bounds reads default to `0`). -/
theorem getc_ne_zero_bounds (A : Matrix) {i j : ℕ} (h : getc A i j ≠ 0) :
    i < A.length ∧ j < (A.getD i []).length := by
  constructor
  · by_contra hi
    have hrow : A.getD i [] = [] := by
      rw [List.getD_eq_getElem?_getD, List.getElem?_eq_none (by omega)]; rfl
    exact h (by unfold getc; rw [hrow]; rfl)
  · by_contra hj
    exact h (by unfold getc; rw [List.getD_eq_getElem?_getD (A.getD i []),
      List.getElem?_eq_none (by omega)]; rfl)

/-- Setting an index at or beyond `t` does not change the first `t` elements. -/
theorem take_set_of_le {α : Type _} : ∀ (l : List α) (k t : ℕ) (x : α), t ≤ k →
    (l.set k x).take t = l.take t
  | [], _, _, _, _ => by simp
  | _ :: _, _, 0, _, _ => by simp
  | _ :: _, 0, _ + 1, _, h => absurd h (by omega)
  | a :: as, k + 1, t + 1, x, h => by
    simp only [List.set, List.take, List.cons.injEq, true_and]
    exact take_set_of_le as k t x (by omega)

/-- A fold of writes at references at or beyond `t` preserves the first `t`
heap entries. -/
theorem foldl_set_take (t : ℕ) : ∀ (ps : List (ℕ × List ℚ)) (hh : Heap),
    (∀ p ∈ ps, t ≤ p.1) →
    (ps.foldl (fun h rv => h.set rv.1 rv.2) hh).take t = hh.take t
  | [], hh, _ => rfl
  | p :: ps, hh, hmem => by
    rw [List.foldl_cons, foldl_set_take t ps _ (fun q hq => hmem q (by simp [hq]))]
    exact take_set_of_le hh p.1 t p.2 (hmem p (by simp))

/-- C7: the cycle detector reports no cycle for the diagonal allocation
`[[150,0,0],[0,150,0],[0,0,150]]`; for the square block
`[[50,50,0],[50,50,0],[0,0,150]]` it returns a 4-cell cycle, and resolving
that cycle applies `delta = 50`, leaving the block's main diagonal pair at `0`
and its anti-diagonal pair at `100`. -/
theorem cycle_detector_concrete_examples :
    tester_acyclique [[150, 0, 0], [0, 150, 0], [0, 0, 150]] = (true, []) ∧
    tester_acyclique [[50, 50, 0], [50, 50, 0], [0, 0, 150]] =
      (false, [(1, 0), (0, 0), (0, 1), (1, 1)]) ∧
    ([(1, 0), (0, 0), (0, 1), (1, 1)] : List Cell).length = 4 ∧
    deltaOf [[50, 50, 0], [50, 50, 0], [0, 0, 150]]
      [(1, 0), (0, 0), (0, 1), (1, 1)] = 50 ∧
    maximiser_sur_cycle [[50, 50, 0], [50, 50, 0], [0, 0, 150]]
      [(1, 0), (0, 0), (0, 1), (1, 1)] =
      ([[0, 100, 0], [100, 0, 0], [0, 0, 150]], 50) := by
  refine ⟨?_, ?_, ?_, ?_, ?_⟩ <;> with_unfolding_all rfl

/-- C1: on the balanced instance with costs `[[2,1],[1,2]]`, supplies `[1,1]`,
demands `[1,1]` and the Northwest-Corner initial allocation `[[1,0],[0,1]]`,
the solver's returned allocation has second-row sum `2`, violating
`row-sum = supply[1] = 1` by `1`, far beyond the `1e-6` tolerance: the
temporary value `1.0` placed on the entering cell is never removed before the
cycle redistribution adds `delta` on top of it. -/
theorem methode_marche_pied_breaks_feasibility :
    ([1, 1] : List ℚ).sum = ([1, 1] : List ℚ).sum ∧
    northwest_corner_method [1, 1] [1, 1] = [[1, 0], [0, 1]] ∧
    methode_marche_pied [[2, 1], [1, 2]] [1, 1] [1, 1] [[1, 0], [0, 1]] =
      ([[1 / 1000000, 1000001 / 1000000], [2, 0]],
        some (3000003 / 1000000), 2) ∧
    ((methode_marche_pied [[2, 1], [1, 2]] [1, 1] [1, 1]
        [[1, 0], [0, 1]]).1.getD 1 []).sum = 2 ∧
    eps6 < |((methode_marche_pied [[2, 1], [1, 2]] [1, 1] [1, 1]
        [[1, 0], [0, 1]]).1.getD 1 []).sum - ([1, 1] : List ℚ).getD 1 0| := by
  refine ⟨rfl, by with_unfolding_all rfl, by with_unfolding_all rfl,
    by with_unfolding_all rfl, ?_⟩
  have h : ((methode_marche_pied [[2, 1], [1, 2]] [1, 1] [1, 1]
      [[1, 0], [0, 1]]).1.getD 1 []).sum = 2 := by with_unfolding_all rfl
  rw [h]
  norm_num [eps6]

/-- C6: the claim fails on the disconnected allocation `[[5],[5],[0]]`
(`n = 3`, `m = 1`): the column-side scan of `rendre_connexe` bounds its row
range by `min(limite_recherche, n)` where `limite_recherche = m = 1`, so row 2
is never examined, no connecting edge is found, and repair returns with the
graph still split into two components — contradicting the specified
postcondition (a single connected component) even though the connecting cells
`(2, 0)` exists. -/
theorem rendre_connexe_gives_up :
    (is_connected_transport [[5], [5], [0]]).1 = false ∧
    rendre_connexe [[1], [1], [1]] [[5], [5], [0]] [5, 5, 0] [10] =
      ([[5], [5], [0]], []) ∧
    (is_connected_transport
      (rendre_connexe [[1], [1], [1]] [[5], [5], [0]] [5, 5, 0] [10]).1).1 =
      false ∧
    getc [[5], [5], [0]] 2 0 = 0 := by
  refine ⟨?_, ?_, ?_, ?_⟩ <;> with_unfolding_all rfl

/-- C5 (counterexample): on the allocation `[[1e-10,100],[100,100]]` with unit
costs, the detected cycle `[(1,0),(0,0),(0,1),(1,1)]` is degenerate
(`delta = 1e-10 ≤ 1e-9`), `maximiser_sur_cycle` indeed changes nothing and
returns `0.0`, and the repair loop then forces the first cell `(1,0)` — whose
allocation is `100` — to zero: the total cost drops by `100`, so the claimed
"without changing the total cost" is false. -/
theorem degenerate_cycle_break_changes_cost :
    tester_acyclique [[1 / 10000000000, 100], [100, 100]] =
      (false, [(1, 0), (0, 0), (0, 1), (1, 1)]) ∧
    deltaOf [[1 / 10000000000, 100], [100, 100]]
      [(1, 0), (0, 0), (0, 1), (1, 1)] ≤ tol9 ∧
    maximiser_sur_cycle [[1 / 10000000000, 100], [100, 100]]
      [(1, 0), (0, 0), (0, 1), (1, 1)] =
      ([[1 / 10000000000, 100], [100, 100]], 0) ∧
    repairOnce [[1 / 10000000000, 100], [100, 100]] =
      [[1 / 10000000000, 100], [0, 100]] ∧
    compute_total_cost [[1, 1], [1, 1]]
        (repairOnce [[1 / 10000000000, 100], [100, 100]]) ≠
      compute_total_cost [[1, 1], [1, 1]] [[1 / 10000000000, 100], [100, 100]] := by
  refine ⟨by with_unfolding_all rfl, by with_unfolding_all rfl,
    by with_unfolding_all rfl, by with_unfolding_all rfl, ?_⟩
  have h1 : compute_total_cost [[1, 1], [1, 1]]
      (repairOnce [[1 / 10000000000, 100], [100, 100]]) =
      some (2000000000001 / 10000000000) := by with_unfolding_all rfl
  have h2 : compute_total_cost [[1, 1], [1, 1]]
      [[1 / 10000000000, 100], [100, 100]] =
      some (3000000000001 / 10000000000) := by with_unfolding_all rfl
  rw [h1, h2]
  intro h
  have := Option.some.inj h
  norm_num at this

/-- C4 (counterexample): on costs `[[0,0],[0,1]]` with the everywhere-positive
allocation `[[1,1],[1,1]]` (whose basic-cell graph contains a cycle with an
inconsistent cost sum), `calculer_potentiels` returns `u = [0,0]`,
`v = [0,0]`; the basic cell `(1,1)` has both its row node and column node
reachable from supply node 0 through basic cells, yet
`u[1] + v[1] = 0 ≠ 1 = cost[1][1]`. -/
theorem calculer_potentiels_cyclic_counterexample :
    calculer_potentiels [[0, 0], [0, 1]] [[1, 1], [1, 1]] = ([0, 0], [0, 0]) ∧
    (1, 1) ∈ cellulesOf [[1, 1], [1, 1]] ∧
    PotReach (cellulesOf [[1, 1], [1, 1]]) (TNode.P 1) ∧
    PotReach (cellulesOf [[1, 1], [1, 1]]) (TNode.C 1) ∧
    (calculer_potentiels [[0, 0], [0, 1]] [[1, 1], [1, 1]]).1.getD 1 0 +
      (calculer_potentiels [[0, 0], [0, 1]] [[1, 1], [1, 1]]).2.getD 1 0 ≠
      getc [[0, 0], [0, 1]] 1 1 := by
  have hA : cellulesOf [[1, 1], [1, 1]] = [(0, 0), (0, 1), (1, 0), (1, 1)] := by
    with_unfolding_all rfl
  have h00 : ((0, 0) : Cell) ∈ cellulesOf [[1, 1], [1, 1]] := by rw [hA]; simp
  have h10 : ((1, 0) : Cell) ∈ cellulesOf [[1, 1], [1, 1]] := by rw [hA]; simp
  have h11 : ((1, 1) : Cell) ∈ cellulesOf [[1, 1], [1, 1]] := by rw [hA]; simp
  have hP1 : PotReach (cellulesOf [[1, 1], [1, 1]]) (TNode.P 1) :=
    PotReach.toP (PotReach.toC PotReach.root h00) h10
  refine ⟨by with_unfolding_all rfl, h11, hP1, PotReach.toC hP1 h11, ?_⟩
  have h1 : (calculer_potentiels [[0, 0], [0, 1]] [[1, 1], [1, 1]]).1.getD 1 0 +
      (calculer_potentiels [[0, 0], [0, 1]] [[1, 1], [1, 1]]).2.getD 1 0 = 0 := by
    with_unfolding_all rfl
  have h2 : getc [[0, 0], [0, 1]] 1 1 = 1 := by with_unfolding_all rfl
  rw [h1, h2]
  norm_num

/-- With a failed loop guard and positive fuel, `nwGo` exits at once. -/
theorem nwGo_exit (n m fuel i j : ℕ) (rs rd : List ℚ) (A : Matrix) (s : ℕ)
    (hg : ¬(i < n ∧ j < m)) : nwGo n m (fuel + 1) i j rs rd A s = (A, s, true) := by
  unfold nwGo
  rw [if_neg hg]

/-- The Northwest-Corner loop always advances a cursor, finishes, and takes at
most `(n - i) + (m - j) - 1` further steps from an in-bounds cursor. -/
theorem nwGo_run : ∀ (fuel : ℕ) {n m : ℕ} (i j : ℕ) (rs rd : List ℚ)
    (A : Matrix) (s : ℕ), i < n → j < m → rs.length = n → rd.length = m →
    (n - i) + (m - j) + 1 ≤ fuel →
    (nwGo n m fuel i j rs rd A s).2.2 = true ∧
    (nwGo n m fuel i j rs rd A s).2.1 ≤ s + ((n - i) + (m - j)) - 1 := by
  intro fuel
  induction fuel with
  | zero => intro n m i j rs rd A s hi hj _ _ hf; omega
  | succ fuel ih =>
    intro n m i j rs rd A s hi hj hrs hrd hf
    have hX2 : 2 ≤ (n - i) + (m - j) := by omega
    unfold nwGo
    rw [if_pos ⟨hi, hj⟩]
    set x := min (rs.getD i 0) (rd.getD j 0) with hx
    have hrs' : (rs.set i (rs.getD i 0 - x)).length = n := by
      rw [List.length_set]; exact hrs
    have hrd' : (rd.set j (rd.getD j 0 - x)).length = m := by
      rw [List.length_set]; exact hrd
    have hgrs : (rs.set i (rs.getD i 0 - x)).getD i 0 = rs.getD i 0 - x :=
      getD_set_eq _ _ _ _ (by omega)
    have hgrd : (rd.set j (rd.getD j 0 - x)).getD j 0 = rd.getD j 0 - x :=
      getD_set_eq _ _ _ _ (by omega)
    by_cases h1 : (rs.set i (rs.getD i 0 - x)).getD i 0 < tol9
    · rw [if_pos h1]
      by_cases hin : i + 1 < n
      · have := ih (i + 1) j _ _ (setc A i j x) (s + 1) hin hj hrs' hrd'
          (by omega)
        refine ⟨this.1, ?_⟩
        have := this.2
        omega
      · obtain ⟨f, rfl⟩ : ∃ f, fuel = f + 1 := ⟨fuel - 1, by omega⟩
        rw [nwGo_exit _ _ _ _ _ _ _ _ _ (by omega)]
        exact ⟨rfl, by simp; omega⟩
    · rw [if_neg h1]
      by_cases h2 : (rd.set j (rd.getD j 0 - x)).getD j 0 < tol9
      · rw [if_pos h2]
        by_cases hjm : j + 1 < m
        · have := ih i (j + 1) _ _ (setc A i j x) (s + 1) hi hjm hrs' hrd'
            (by omega)
          refine ⟨this.1, ?_⟩
          have := this.2
          omega
        · obtain ⟨f, rfl⟩ : ∃ f, fuel = f + 1 := ⟨fuel - 1, by omega⟩
          rw [nwGo_exit _ _ _ _ _ _ _ _ _ (by omega)]
          exact ⟨rfl, by simp; omega⟩
      · exfalso
        rcases le_total (rs.getD i 0) (rd.getD j 0) with hle | hle
        · apply h1
          rw [hgrs, hx, min_eq_left hle]
          simp [tol9]
        · apply h2
          rw [hgrd, hx, min_eq_right hle]
          simp [tol9]

/-- C8: the Northwest-Corner builder starts at `(0, 0)`, at each step
allocates `min(remaining_supply[i], remaining_demand[j])`, decrements both
remaining vectors, advances the row index when the supply is exhausted and
otherwise the column index when the demand is exhausted (these rules are the
definition of `nwGo`); for every balanced instance the loop exits by its own
guard after at most `n + m - 1` allocation steps. -/
theorem northwest_corner_terminates (supplies demands : List ℚ)
    (hbal : supplies.sum = demands.sum) :
    northwest_corner_method supplies demands =
      (nwGo supplies.length demands.length
        (supplies.length + demands.length + 1) 0 0 supplies demands
        (List.replicate supplies.length (List.replicate demands.length 0)) 0).1 ∧
    (nwGo supplies.length demands.length
        (supplies.length + demands.length + 1) 0 0 supplies demands
        (List.replicate supplies.length (List.replicate demands.length 0)) 0).2.2
      = true ∧
    (nwGo supplies.length demands.length
        (supplies.length + demands.length + 1) 0 0 supplies demands
        (List.replicate supplies.length (List.replicate demands.length 0)) 0).2.1
      ≤ supplies.length + demands.length - 1 := by
  refine ⟨rfl, ?_⟩
  by_cases hn : 0 < supplies.length ∧ 0 < demands.length
  · have := nwGo_run (supplies.length + demands.length + 1) 0 0 supplies demands
      (List.replicate supplies.length (List.replicate demands.length 0)) 0
      hn.1 hn.2 rfl rfl (by omega)
    exact ⟨this.1, by have := this.2; omega⟩
  · rw [nwGo_exit _ _ _ _ _ _ _ _ _ (by omega)]
    exact ⟨rfl, by simp⟩

/-- Witness for `northwest_corner_terminates` at the balanced instance
`supplies = demands = [1, 1]`. -/
theorem northwest_corner_terminates_witness :
    ([1, 1] : List ℚ).sum = ([1, 1] : List ℚ).sum ∧
    (northwest_corner_method [1, 1] [1, 1] =
      (nwGo 2 2 5 0 0 [1, 1] [1, 1]
        (List.replicate 2 (List.replicate 2 0)) 0).1 ∧
    (nwGo 2 2 5 0 0 [1, 1] [1, 1]
        (List.replicate 2 (List.replicate 2 0)) 0).2.2 = true ∧
    (nwGo 2 2 5 0 0 [1, 1] [1, 1]
        (List.replicate 2 (List.replicate 2 0)) 0).2.1 ≤ 3) :=
  ⟨rfl, northwest_corner_terminates [1, 1] [1, 1] rfl⟩

/-- A left fold accumulating `+ f i` over `range k` adds `∑ f`. -/
theorem foldl_add_range (f : ℕ → ℚ) : ∀ (k : ℕ) (init : ℚ),
    (List.range k).foldl (fun acc i => acc + f i) init =
      init + ∑ i ∈ Finset.range k, f i
  | 0, init => by simp
  | k + 1, init => by
    rw [List.range_succ, List.foldl_append, foldl_add_range f k init,
      Finset.sum_range_succ]
    simp [add_assoc]

/-- The nested accumulation loop of `compute_total_cost` computes the double
sum. -/
theorem foldl_add_range2 (g : ℕ → ℕ → ℚ) (M : ℕ) : ∀ (k : ℕ) (init : ℚ),
    (List.range k).foldl
        (fun acc i => (List.range M).foldl (fun a j => a + g i j) acc) init =
      init + ∑ i ∈ Finset.range k, ∑ j ∈ Finset.range M, g i j
  | 0, init => by simp
  | k + 1, init => by
    rw [List.range_succ, List.foldl_append, foldl_add_range2 g M k init]
    simp only [List.foldl_cons, List.foldl_nil]
    rw [foldl_add_range (fun j => g k j) M, Finset.sum_range_succ]
    ring

/-- C9: on rectangular inputs (`costs` is `n × m`, `allocation` is `n' × m'`),
`compute_total_cost` fails (modelled by `none`, standing for the source's
`ValueError`) exactly when the dimensions mismatch, and otherwise returns the
sum over all cells of `cost[i][j] * allocation[i][j]`.  (Two empty matrices
carry no column count, whence the `n = 0` disjunct.) -/
theorem compute_total_cost_spec (costs allocation : Matrix) (n m n' m' : ℕ)
    (hc : costs.length = n) (hcr : ∀ row ∈ costs, row.length = m)
    (ha : allocation.length = n') (har : ∀ row ∈ allocation, row.length = m') :
    (compute_total_cost costs allocation = none ↔
      ¬(n = n' ∧ (n = 0 ∨ m = m'))) ∧
    ((n = n' ∧ (n = 0 ∨ m = m')) →
      compute_total_cost costs allocation =
        some (∑ i ∈ Finset.range n, ∑ j ∈ Finset.range m,
          getc costs i j * getc allocation i j)) := by
  unfold compute_total_cost
  by_cases hnn : costs.length = allocation.length
  · rw [if_neg (by omega)]
    by_cases hz : costs.length = 0
    · rw [if_pos hz]
      constructor
      · simp only [reduceCtorEq, false_iff]
        intro hcontra
        exact hcontra ⟨by omega, Or.inl (by omega)⟩
      · intro _
        have hn0 : n = 0 := by omega
        subst hn0
        simp
    · rw [if_neg hz]
      obtain ⟨cr, crs, rfl⟩ : ∃ r rs, costs = r :: rs := by
        cases costs with
        | nil => simp at hz
        | cons r rs => exact ⟨r, rs, rfl⟩
      obtain ⟨ar, ars, rfl⟩ : ∃ r rs, allocation = r :: rs := by
        cases allocation with
        | nil => simp at hnn
        | cons r rs => exact ⟨r, rs, rfl⟩
      have hm : cr.length = m := hcr cr (by simp)
      have hm' : ar.length = m' := har ar (by simp)
      simp only [List.headD_cons]
      by_cases hmm : cr.length = ar.length
      · rw [if_neg (by omega)]
        constructor
        · simp only [reduceCtorEq, false_iff]
          intro hcontra
          exact hcontra ⟨by omega, Or.inr (by omega)⟩
        · intro _
          rw [foldl_add_range2
            (fun i j => getc (cr :: crs) i j * getc (ar :: ars) i j)]
          simp only [zero_add]
          rw [show (cr :: crs).length = n from hc, show cr.length = m from hm]
      · rw [if_pos (by omega)]
        constructor
        · simp only [true_iff]
          intro hcontra
          rcases hcontra.2 with h0 | hmeq
          · omega
          · omega
        · intro hcontra
          rcases hcontra.2 with h0 | hmeq
          · omega
          · omega
  · rw [if_pos hnn]
    constructor
    · simp only [true_iff]
      intro hcontra
      exact hnn (by omega)
    · intro hcontra
      exact absurd (show costs.length = allocation.length by omega) hnn

/-- Witness for `compute_total_cost_spec` at `costs = [[1,2]]`,
`allocation = [[3,4]]`. -/
theorem compute_total_cost_spec_witness :
    (compute_total_cost [[1, 2]] [[3, 4]] = none ↔
      ¬((1 : ℕ) = 1 ∧ ((1 : ℕ) = 0 ∨ (2 : ℕ) = 2))) ∧
    (((1 : ℕ) = 1 ∧ ((1 : ℕ) = 0 ∨ (2 : ℕ) = 2)) →
      compute_total_cost [[1, 2]] [[3, 4]] =
        some (∑ i ∈ Finset.range 1, ∑ j ∈ Finset.range 2,
          getc [[1, 2]] i j * getc [[3, 4]] i j)) :=
  compute_total_cost_spec [[1, 2]] [[3, 4]] 1 2 1 2 rfl
    (by intro row hr; rw [List.mem_singleton] at hr; subst hr; rfl) rfl
    (by intro row hr; rw [List.mem_singleton] at hr; subst hr; rfl)

/-- Every cycle returned (`Sum.inl`) by the neighbour scan passed the
transport-validity check. -/
theorem bfsNbrs_inl_valid (u : Cell) : ∀ (vs : List Cell) (st : BfsSt)
    (cyc : List Cell), bfsNbrs u vs st = Sum.inl cyc →
    est_cycle_transport_valide cyc = true := by
  intro vs
  induction vs with
  | nil => intro st cyc h; exact absurd h (by simp [bfsNbrs])
  | cons v vs ih =>
    intro st cyc h
    unfold bfsNbrs at h
    by_cases hv : v ∈ st.visite
    · rw [if_pos hv] at h
      by_cases hp : parentGet st.parent u ≠ some v
      · rw [if_pos hp] at h
        by_cases hval : est_cycle_transport_valide (reconstruire_cycle u v st.parent) = true
        · rw [if_pos hval] at h
          cases h
          exact hval
        · rw [if_neg hval] at h
          exact ih st cyc h
      · rw [if_neg hp] at h
        exact ih st cyc h
    · rw [if_neg hv] at h
      exact ih _ cyc h

/-- Every cycle returned by the BFS queue loop passed the validity check. -/
theorem bfsLoop_inl_valid (A : Matrix) : ∀ (fuel : ℕ) (st : BfsSt)
    (cyc : List Cell), bfsLoop A fuel st = Sum.inl cyc →
    est_cycle_transport_valide cyc = true := by
  intro fuel
  induction fuel with
  | zero =>
    intro st cyc h
    rcases st with ⟨vis, par, q⟩
    cases q <;> simp [bfsLoop] at h
  | succ fuel ih =>
    intro st cyc h
    rcases st with ⟨vis, par, q⟩
    cases q with
    | nil => simp [bfsLoop] at h
    | cons u qs =>
      unfold bfsLoop at h
      rcases hn : bfsNbrs u (adjOf A u) ⟨vis, par, qs⟩ with cyc' | st'
      · rw [hn] at h
        cases h
        exact bfsNbrs_inl_valid u _ _ _ hn
      · rw [hn] at h
        exact ih st' cyc h

/-- Every cycle returned by the start loop passed the validity check. -/
theorem bfsStarts_inl_valid (A : Matrix) : ∀ (ss : List Cell) (st : BfsSt)
    (cyc : List Cell), bfsStarts A ss st = Sum.inl cyc →
    est_cycle_transport_valide cyc = true := by
  intro ss
  induction ss with
  | nil => intro st cyc h; simp [bfsStarts] at h
  | cons s ss ih =>
    intro st cyc h
    unfold bfsStarts at h
    by_cases hs : s ∈ st.visite
    · rw [if_pos hs] at h
      exact ih st cyc h
    · rw [if_neg hs] at h
      rcases hl : bfsLoop A (2 * (cellulesOf A).length + 1)
          ⟨st.visite ++ [s], (s, none) :: st.parent, [s]⟩ with cyc' | st'
      · rw [hl] at h
        cases h
        exact bfsLoop_inl_valid A _ _ _ hl
      · rw [hl] at h
        exact ih st' cyc h

/-- A cycle reported by `tester_acyclique` passed
`est_cycle_transport_valide`; in particular it has at least 4 cells. -/
theorem tester_acyclique_false_valid (A : Matrix) (C : List Cell)
    (h : tester_acyclique A = (false, C)) :
    est_cycle_transport_valide C = true ∧ 4 ≤ C.length := by
  unfold tester_acyclique at h
  by_cases hc : cellulesOf A = []
  · rw [if_pos hc] at h
    cases h
  · rw [if_neg hc] at h
    rcases hs : bfsStarts A (cellulesOf A) ⟨[], [], []⟩ with cyc | st
    · rw [hs] at h
      have hC : cyc = C := by
        cases h
        rfl
      subst hC
      have hval := bfsStarts_inl_valid A _ _ _ hs
      refine ⟨hval, ?_⟩
      by_contra hlen
      unfold est_cycle_transport_valide at hval
      rw [if_pos (by omega)] at hval
      cases hval
    · rw [hs] at h
      cases h

/-- Forcing a cell to zero leaves a zero at that cell regardless of bounds. -/
theorem getc_setc_zero (A : Matrix) (i j : ℕ) : getc (setc A i j 0) i j = 0 := by
  rcases Nat.lt_or_ge i A.length with hi | hi
  · rcases Nat.lt_or_ge j (A.getD i []).length with hj | hj
    · exact getc_setc_eq A 0 hi hj
    · unfold getc setc
      rw [getD_set_eq _ _ _ _ hi, List.set_eq_of_length_le hj,
        List.getD_eq_getElem?_getD (A.getD i []) j 0,
        List.getElem?_eq_none (by omega)]
      rfl
  · unfold getc setc
    rw [List.set_eq_of_length_le (by simpa using hi)]
    have hrow : A.getD i [] = [] := by
      rw [List.getD_eq_getElem?_getD, List.getElem?_eq_none (by omega)]
      rfl
    rw [hrow]
    rfl

/-- C5 (amended): for every cycle reported by the detector whose delta (the
minimum allocation over the `−`-signed cells, signs alternating from the first
cell) is `≤ 1e-9`, `maximiser_sur_cycle` redistributes no flow, leaves the
allocation completely unchanged and returns `0.0`; the enclosing
acyclicity-repair loop then forces the first cell of the cycle to exactly
zero, removing it from the basic cells (the total cost, however, may change by
that cell's allocation times its unit cost — see the counterexample). -/
theorem degenerate_cycle_no_flow (A : Matrix) (C : List Cell)
    (htest : tester_acyclique A = (false, C))
    (hdelta : deltaOf A C ≤ tol9) :
    maximiser_sur_cycle A C = (A, 0) ∧
    4 ≤ C.length ∧
    repairOnce A = setc A (C.headD (0, 0)).1 (C.headD (0, 0)).2 0 ∧
    getc (repairOnce A) (C.headD (0, 0)).1 (C.headD (0, 0)).2 = 0 := by
  have hlen := (tester_acyclique_false_valid A C htest).2
  have hmax : maximiser_sur_cycle A C = (A, 0) := by
    unfold maximiser_sur_cycle
    by_cases h4 : C.length < 4
    · rw [if_pos h4]
    · rw [if_neg h4]
      by_cases hm : moinsCases C = []
      · rw [if_pos hm]
      · rw [if_neg hm, if_pos hdelta]
  obtain ⟨c, cs, rfl⟩ : ∃ c cs, C = c :: cs := by
    cases C with
    | nil => simp at hlen
    | cons c cs => exact ⟨c, cs, rfl⟩
  have hrep : repairOnce A = setc A c.1 c.2 0 := by
    unfold repairOnce
    rw [htest]
    simp only [Bool.false_eq_true, if_false, hmax]
    have h0 : (0 : ℚ) ≤ tol9 := by norm_num [tol9]
    rw [if_pos h0]
  refine ⟨hmax, hlen, ?_, ?_⟩
  · simpa using hrep
  · rw [hrep]
    simpa using getc_setc_zero A c.1 c.2

/-- Witness for `degenerate_cycle_no_flow` at the degenerate instance
`[[1e-10, 100], [100, 100]]`. -/
theorem degenerate_cycle_no_flow_witness :
    (tester_acyclique [[1 / 10000000000, 100], [100, 100]] =
      (false, [(1, 0), (0, 0), (0, 1), (1, 1)]) ∧
     deltaOf [[1 / 10000000000, 100], [100, 100]]
      [(1, 0), (0, 0), (0, 1), (1, 1)] ≤ tol9) ∧
    (maximiser_sur_cycle [[1 / 10000000000, 100], [100, 100]]
        [(1, 0), (0, 0), (0, 1), (1, 1)] =
        ([[1 / 10000000000, 100], [100, 100]], 0) ∧
      4 ≤ ([(1, 0), (0, 0), (0, 1), (1, 1)] : List Cell).length ∧
      repairOnce [[1 / 10000000000, 100], [100, 100]] =
        setc [[1 / 10000000000, 100], [100, 100]] 1 0 0 ∧
      getc (repairOnce [[1 / 10000000000, 100], [100, 100]]) 1 0 = 0) :=
  ⟨⟨by with_unfolding_all rfl, by with_unfolding_all rfl⟩,
    degenerate_cycle_no_flow [[1 / 10000000000, 100], [100, 100]]
      [(1, 0), (0, 0), (0, 1), (1, 1)] (by with_unfolding_all rfl)
      (by with_unfolding_all rfl)⟩

/-- Once a best cell is recorded, the row scan never forgets it. -/
theorem scanRowMarg_some (marg : ℕ → ℕ → ℚ) (A : Matrix) (st : Strategy)
    (i : ℕ) : ∀ (js : List ℕ) (c : Cell) (m : ℚ) (r : Option Cell × ℚ),
    scanRowMarg marg A st i js (some c) m = Sum.inr r → r.1.isSome := by
  intro js
  induction js with
  | nil =>
    intro c m r h
    unfold scanRowMarg at h
    cases h
    rfl
  | cons j js ih =>
    intro c m r h
    unfold scanRowMarg at h
    by_cases h0 : getc A i j = 0
    · rw [if_pos h0] at h
      by_cases hf : st = Strategy.first ∧ marg i j < -tol9
      · rw [if_pos hf] at h
        cases h
      · rw [if_neg hf] at h
        by_cases hm : marg i j < m
        · rw [if_pos hm] at h
          exact ih (i, j) _ r h
        · rw [if_neg hm] at h
          exact ih c m r h
    · rw [if_neg h0] at h
      exact ih c m r h

/-- Once a best cell is recorded, the full scan returns `some`. -/
theorem scanMarginals_some (marg : ℕ → ℕ → ℚ) (A : Matrix) (st : Strategy) :
    ∀ (is_ js : List ℕ) (c : Cell) (m : ℚ),
    scanMarginals marg A st is_ js (some c) m ≠ none := by
  intro is_
  induction is_ with
  | nil =>
    intro js c m h
    unfold scanMarginals at h
    cases h
  | cons i is_ ih =>
    intro js c m h
    unfold scanMarginals at h
    rcases hrow : scanRowMarg marg A st i js (some c) m with r | ⟨b, m'⟩
    · rw [hrow] at h
      cases h
    · rw [hrow] at h
      have hb := scanRowMarg_some marg A st i js c m (b, m') hrow
      rcases b with - | c'
      · cases hb
      · exact ih js c' m' h

/-- A row scan that starts with no recorded best and ends with none keeps its
threshold unchanged. -/
theorem scanRowMarg_none_thresh (marg : ℕ → ℕ → ℚ) (A : Matrix) (st : Strategy)
    (i : ℕ) : ∀ (js : List ℕ) (m m' : ℚ),
    scanRowMarg marg A st i js none m = Sum.inr (none, m') → m' = m := by
  intro js
  induction js with
  | nil =>
    intro m m' h
    unfold scanRowMarg at h
    cases h
    rfl
  | cons j js ih =>
    intro m m' h
    unfold scanRowMarg at h
    by_cases h0 : getc A i j = 0
    · rw [if_pos h0] at h
      by_cases hf : st = Strategy.first ∧ marg i j < -tol9
      · rw [if_pos hf] at h
        cases h
      · rw [if_neg hf] at h
        by_cases hm : marg i j < m
        · rw [if_pos hm] at h
          have := scanRowMarg_some marg A st i js (i, j) (marg i j) _ h
          cases this
        · rw [if_neg hm] at h
          exact ih m m' h
    · rw [if_neg h0] at h
      exact ih m m' h

/-- A row whose every non-basic cell has marginal cost `≥ -1e-9` leaves the
clean scan state untouched. -/
theorem scanRowMarg_clean (marg : ℕ → ℕ → ℚ) (A : Matrix) (st : Strategy)
    (i : ℕ) : ∀ (js : List ℕ),
    (∀ j ∈ js, getc A i j = 0 → ¬(marg i j < -tol9)) →
    scanRowMarg marg A st i js none (-tol9) = Sum.inr (none, -tol9) := by
  intro js
  induction js with
  | nil => intro _; rfl
  | cons j js ih =>
    intro hgood
    unfold scanRowMarg
    by_cases h0 : getc A i j = 0
    · rw [if_pos h0]
      have hnotlt : ¬(marg i j < -tol9) := hgood j (by simp) h0
      rw [if_neg (by tauto), if_neg hnotlt]
      exact ih fun j' hj' => hgood j' (by simp [hj'])
    · rw [if_neg h0]
      exact ih fun j' hj' => hgood j' (by simp [hj'])

/-- A row containing a non-basic cell with marginal cost `< -1e-9` never
returns the clean state. -/
theorem scanRowMarg_bad (marg : ℕ → ℕ → ℚ) (A : Matrix) (st : Strategy)
    (i : ℕ) : ∀ (js : List ℕ),
    (∃ j ∈ js, getc A i j = 0 ∧ marg i j < -tol9) →
    ∀ (r : Option Cell × ℚ),
    scanRowMarg marg A st i js none (-tol9) = Sum.inr r → r.1.isSome := by
  intro js
  induction js with
  | nil =>
    intro hbad
    simp at hbad
  | cons j js ih =>
    intro hbad r h
    unfold scanRowMarg at h
    by_cases h0 : getc A i j = 0
    · rw [if_pos h0] at h
      by_cases hf : st = Strategy.first ∧ marg i j < -tol9
      · rw [if_pos hf] at h
        cases h
      · rw [if_neg hf] at h
        by_cases hm : marg i j < -tol9
        · rw [if_pos hm] at h
          exact scanRowMarg_some marg A st i js (i, j) (marg i j) r h
        · rw [if_neg hm] at h
          rcases hbad with ⟨j0, hj0, hz0, hlt0⟩
          rcases List.mem_cons.mp hj0 with rfl | hj0tail
          · exact absurd hlt0 hm
          · exact ih ⟨j0, hj0tail, hz0, hlt0⟩ r h
    · rw [if_neg h0] at h
      rcases hbad with ⟨j0, hj0, hz0, hlt0⟩
      rcases List.mem_cons.mp hj0 with rfl | hj0tail
      · exact absurd hz0 h0
      · exact ih ⟨j0, hj0tail, hz0, hlt0⟩ r h

/-- The entering-cell scan returns `none` exactly when no scanned non-basic
cell has marginal cost strictly below `-1e-9`. -/
theorem scanMarginals_none_iff (marg : ℕ → ℕ → ℚ) (A : Matrix) (st : Strategy) :
    ∀ (is_ js : List ℕ),
    (scanMarginals marg A st is_ js none (-tol9) = none ↔
      ∀ i ∈ is_, ∀ j ∈ js, getc A i j = 0 → ¬(marg i j < -tol9)) := by
  intro is_
  induction is_ with
  | nil =>
    intro js
    constructor
    · intro _ i hi
      simp at hi
    · intro _
      rfl
  | cons i is_ ih =>
    intro js
    constructor
    · intro h
      rcases hrow : scanRowMarg marg A st i js none (-tol9) with r | ⟨b, m'⟩
      · unfold scanMarginals at h
        rw [hrow] at h
        cases h
      · unfold scanMarginals at h
        rw [hrow] at h
        rcases b with - | c
        · have hm' := scanRowMarg_none_thresh marg A st i js _ _ hrow
          subst hm'
          intro i' hi' j hj hz
          rcases List.mem_cons.mp hi' with rfl | hi'tail
          · intro hlt
            have := scanRowMarg_bad marg A st i' js ⟨j, hj, hz, hlt⟩ _ hrow
            cases this
          · exact (ih js).mp h i' hi'tail j hj hz
        · exact absurd h (scanMarginals_some marg A st is_ js c m')
    · intro hgood
      unfold scanMarginals
      rw [scanRowMarg_clean marg A st i js
        (fun j hj => hgood i (by simp) j hj)]
      exact (ih js).mpr fun i' hi' => hgood i' (by simp [hi'])

/-- `getD` on a mapped range. -/
theorem getD_map_range {α : Type _} (f : ℕ → α) (n i : ℕ) (d : α)
    (h : i < n) : ((List.range n).map f).getD i d = f i := by
  rw [List.getD_eq_getElem?_getD, List.getElem?_map, List.getElem?_range h]
  rfl

/-- `getD` on a replicated list. -/
theorem getD_replicate' {α : Type _} (k i : ℕ) (x d : α) (h : i < k) :
    (List.replicate k x).getD i d = x := by
  rw [List.getD_eq_getElem?_getD, List.getElem?_replicate]
  simp [h]

/-- `getD` past an appended prefix. -/
theorem getD_append_right' {α : Type _} (l l' : List α) (d : α) (k : ℕ)
    (h : l.length ≤ k) : (l ++ l').getD k d = l'.getD (k - l.length) d := by
  rw [List.getD_eq_getElem?_getD, List.getElem?_append_right h,
    ← List.getD_eq_getElem?_getD]

/-- The marginal-cost table holds `c[i][j] - (u[i] + v[j])` at every in-bounds
cell. -/
theorem getc_calculer_couts_marginaux (costs : Matrix) (u v : List ℚ)
    {i j : ℕ} (hi : i < u.length) (hj : j < v.length) :
    getc (calculer_couts_marginaux costs u v) i j =
      getc costs i j - (u.getD i 0 + v.getD j 0) := by
  unfold calculer_couts_marginaux getc
  rw [getD_map_range _ _ _ _ hi, getD_map_range _ _ _ _ hj]

/-- Dimensions of the marginal-cost table. -/
theorem calculer_couts_marginaux_dims (costs : Matrix) (u v : List ℚ) :
    (calculer_couts_marginaux costs u v).length = u.length ∧
    (0 < u.length →
      ((calculer_couts_marginaux costs u v).headD []).length = v.length) := by
  constructor
  · simp [calculer_couts_marginaux]
  · intro h
    unfold calculer_couts_marginaux
    obtain ⟨k, hk⟩ : ∃ k, u.length = k + 1 := ⟨u.length - 1, by omega⟩
    rw [hk, List.range_succ_eq_map]
    simp

/-- C2 (amended): below the truncation threshold (`n < 1000`, the regime in
which the source scans every cell), `detecter_arete_ameliorante_rapide`
returns `None` if and only if no non-basic cell (`allocation[i][j] == 0`) has
marginal cost `cost[i][j] - (u[i] + v[j])` strictly below `-1e-9`; the
table-driven `detecter_arete_ameliorante` run on `calculer_couts_marginaux
costs u v` satisfies the same equivalence; consequently, whenever the `None`
signal fires in this regime every non-basic cell's marginal cost is
`≥ -1e-6`.  (For `n ≥ 1000` the rapid search is truncated or sampled and the
equivalence fails — see the counterexample.) -/
theorem detecter_arete_ameliorante_none_iff (costs : Matrix) (u v : List ℚ)
    (A : Matrix) (strategy : Strategy) (hn : costs.length < 1000)
    (hu : u.length = costs.length) (hv : v.length = (costs.headD []).length) :
    (detecter_arete_ameliorante_rapide costs u v A strategy = none ↔
      ∀ i < costs.length, ∀ j < (costs.headD []).length,
        getc A i j = 0 →
          -tol9 ≤ getc costs i j - (u.getD i 0 + v.getD j 0)) ∧
    (detecter_arete_ameliorante (calculer_couts_marginaux costs u v) A
        strategy = none ↔
      ∀ i < costs.length, ∀ j < (costs.headD []).length,
        getc A i j = 0 →
          -tol9 ≤ getc costs i j - (u.getD i 0 + v.getD j 0)) ∧
    (detecter_arete_ameliorante_rapide costs u v A strategy = none →
      ∀ i < costs.length, ∀ j < (costs.headD []).length,
        getc A i j = 0 →
          -eps6 ≤ getc costs i j - (u.getD i 0 + v.getD j 0)) := by
  have hrap : detecter_arete_ameliorante_rapide costs u v A strategy =
      scanMarginals (fun i j => getc costs i j - (u.getD i 0 + v.getD j 0))
        A strategy (List.range costs.length)
        (List.range (costs.headD []).length) none (-tol9) := by
    simp only [detecter_arete_ameliorante_rapide]
    rw [if_neg (by omega), if_neg (by omega), if_neg (by omega)]
  have part1 : detecter_arete_ameliorante_rapide costs u v A strategy = none ↔
      ∀ i < costs.length, ∀ j < (costs.headD []).length,
        getc A i j = 0 →
          -tol9 ≤ getc costs i j - (u.getD i 0 + v.getD j 0) := by
    rw [hrap]
    refine (scanMarginals_none_iff _ A strategy _ _).trans
      ⟨fun h i hi j hj hz => ?_, fun h i hi j hj hz => ?_⟩
    · exact not_lt.mp (h i (List.mem_range.mpr hi) j (List.mem_range.mpr hj) hz)
    · exact not_lt.mpr (h i (List.mem_range.mp hi) j (List.mem_range.mp hj) hz)
  refine ⟨part1, ?_, ?_⟩
  · have hplain : detecter_arete_ameliorante
        (calculer_couts_marginaux costs u v) A strategy =
        scanMarginals (fun i j => getc (calculer_couts_marginaux costs u v) i j)
          A strategy (List.range (calculer_couts_marginaux costs u v).length)
          (List.range
            (((calculer_couts_marginaux costs u v).headD []).length))
          none (-tol9) := by
      simp only [detecter_arete_ameliorante]
    rw [hplain, (calculer_couts_marginaux_dims costs u v).1]
    by_cases h0 : u.length = 0
    · rw [h0]
      constructor
      · intro _ i hi
        omega
      · intro _
        rfl
    · rw [(calculer_couts_marginaux_dims costs u v).2 (by omega)]
      refine (scanMarginals_none_iff _ A strategy _ _).trans
        ⟨fun h i hi j hj hz => ?_, fun h i hi j hj hz => ?_⟩
      · have := h i (List.mem_range.mpr (by omega)) j
          (List.mem_range.mpr (by omega)) hz
        rw [getc_calculer_couts_marginaux costs u v
          (show i < u.length by omega) (show j < v.length by omega)] at this
        exact not_lt.mp this
      · have hi' := List.mem_range.mp hi
        have hj' := List.mem_range.mp hj
        rw [getc_calculer_couts_marginaux costs u v hi' hj']
        exact not_lt.mpr (h i (by omega) j (by omega) hz)
  · intro hnone i hi j hj hz
    have := part1.mp hnone i hi j hj hz
    have heps : -eps6 ≤ -tol9 := by norm_num [eps6, tol9]
    linarith

/-- Witness for `detecter_arete_ameliorante_none_iff` at the 1×1 instance
`costs = [[0]]`, `u = v = [0]`, `allocation = [[1]]`. -/
theorem detecter_arete_ameliorante_none_iff_witness :
    ([[(0 : ℚ)]] : Matrix).length < 1000 ∧
    ((detecter_arete_ameliorante_rapide [[0]] [0] [0] [[1]] Strategy.best =
        none ↔
      ∀ i < ([[(0 : ℚ)]] : Matrix).length,
        ∀ j < (([[(0 : ℚ)]] : Matrix).headD []).length,
        getc [[1]] i j = 0 →
          -tol9 ≤ getc [[0]] i j -
            (([0] : List ℚ).getD i 0 + ([0] : List ℚ).getD j 0)) ∧
    (detecter_arete_ameliorante (calculer_couts_marginaux [[0]] [0] [0])
        [[1]] Strategy.best = none ↔
      ∀ i < ([[(0 : ℚ)]] : Matrix).length,
        ∀ j < (([[(0 : ℚ)]] : Matrix).headD []).length,
        getc [[1]] i j = 0 →
          -tol9 ≤ getc [[0]] i j -
            (([0] : List ℚ).getD i 0 + ([0] : List ℚ).getD j 0)) ∧
    (detecter_arete_ameliorante_rapide [[0]] [0] [0] [[1]] Strategy.best =
        none →
      ∀ i < ([[(0 : ℚ)]] : Matrix).length,
        ∀ j < (([[(0 : ℚ)]] : Matrix).headD []).length,
        getc [[1]] i j = 0 →
          -eps6 ≤ getc [[0]] i j -
            (([0] : List ℚ).getD i 0 + ([0] : List ℚ).getD j 0))) :=
  ⟨by norm_num,
    detecter_arete_ameliorante_none_iff [[0]] [0] [0] [[1]] Strategy.best
      (by norm_num) rfl rfl⟩

/-- C2 (counterexample): at `n = 2001`, `m = 1` the rapid search scans only
the first `min(2000, n) = 2000` rows; on the instance where rows `0..1999`
are basic and row `2000` holds the non-basic cell `(2000, 0)` with marginal
cost `-1 < -1e-9`, the search returns `None` even though an improving
non-basic cell exists — the claimed equivalence (and hence the claimed
optimality of the `None` exit) is false as stated. -/
theorem detecter_rapide_truncation_counterexample :
    detecter_arete_ameliorante_rapide (List.replicate 2001 [(0 : ℚ)])
        (List.replicate 2000 (0 : ℚ) ++ [1]) [0]
        (List.replicate 2000 [(1 : ℚ)] ++ [[0]]) Strategy.first = none ∧
    (List.replicate 2001 [(0 : ℚ)]).length = 2001 ∧
    ((List.replicate 2001 [(0 : ℚ)]).headD []).length = 1 ∧
    getc (List.replicate 2000 [(1 : ℚ)] ++ [[0]]) 2000 0 = 0 ∧
    getc (List.replicate 2001 [(0 : ℚ)]) 2000 0 -
        ((List.replicate 2000 (0 : ℚ) ++ [1]).getD 2000 0 +
          ([0] : List ℚ).getD 0 0) < -tol9 := by
  have hlen : (List.replicate 2001 [(0 : ℚ)]).length = 2001 :=
    List.length_replicate ..
  have hhead2 : (List.replicate 2001 [(0 : ℚ)]).headD [] = [0] := by
    rw [show (2001 : ℕ) = 2000 + 1 by norm_num, List.replicate_succ]
    rfl
  have hhead : ((List.replicate 2001 [(0 : ℚ)]).headD []).length = 1 := by
    rw [hhead2]
    rfl
  refine ⟨?_, hlen, hhead, ?_, ?_⟩
  · have hred : detecter_arete_ameliorante_rapide (List.replicate 2001 [(0 : ℚ)])
        (List.replicate 2000 (0 : ℚ) ++ [1]) [0]
        (List.replicate 2000 [(1 : ℚ)] ++ [[0]]) Strategy.first =
        scanMarginals
          (fun i j => getc (List.replicate 2001 [(0 : ℚ)]) i j -
            ((List.replicate 2000 (0 : ℚ) ++ [1]).getD i 0 +
              ([0] : List ℚ).getD j 0))
          (List.replicate 2000 [(1 : ℚ)] ++ [[0]]) Strategy.first
          (List.range 2000) (List.range 1) none (-tol9) := by
      simp only [detecter_arete_ameliorante_rapide]
      rw [hlen, hhead, if_neg (by omega), if_pos (by omega), if_pos (by omega),
        show (2000 ⊓ 2001 : ℕ) = 2000 by norm_num,
        show (2000 ⊓ 1 : ℕ) = 1 by norm_num]
    rw [hred]
    refine (scanMarginals_none_iff _ _ _ _ _).mpr ?_
    intro i hi j hj hz
    exfalso
    have hi' : i < 2000 := List.mem_range.mp hi
    have hj' : j = 0 := by have := List.mem_range.mp hj; omega
    subst hj'
    have : getc (List.replicate 2000 [(1 : ℚ)] ++ [[0]]) i 0 = 1 := by
      unfold getc
      rw [List.getD_append _ _ _ _ (by rw [List.length_replicate]; exact hi'),
        getD_replicate' 2000 i [(1 : ℚ)] [] hi']
      rfl
    rw [this] at hz
    norm_num at hz
  · unfold getc
    rw [getD_append_right' _ _ _ 2000 (by rw [List.length_replicate]),
      show 2000 - (List.replicate 2000 [(1 : ℚ)]).length = 0 by
        rw [List.length_replicate]]
    rfl
  · have hc : getc (List.replicate 2001 [(0 : ℚ)]) 2000 0 = 0 := by
      unfold getc
      rw [getD_replicate' 2001 2000 [(0 : ℚ)] [] (by omega)]
      rfl
    have hu : (List.replicate 2000 (0 : ℚ) ++ [1]).getD 2000 0 = 1 := by
      rw [getD_append_right' _ _ _ 2000 (by rw [List.length_replicate]),
        show 2000 - (List.replicate 2000 (0 : ℚ)).length = 0 by
          rw [List.length_replicate]]
      rfl
    rw [hc, hu]
    norm_num [tol9]

/-- Unfolding one step of `assignFold`. -/
theorem assignFold_cons (ar : List Cell) (c : Cell) (key tgt : Cell → ℕ)
    (mk : ℕ → PNode) (val : ℕ → ℚ) (k : ℕ)
    (st : List (Option ℚ) × List PNode) :
    assignFold (c :: ar) key tgt mk val k st =
      assignFold ar key tgt mk val k
        (if key c = k ∧ st.1.getD (tgt c) none = none then
          (st.1.set (tgt c) (some (val (tgt c))), st.2 ++ [mk (tgt c)])
        else st) := rfl

/-- `assignFold` preserves the potential-vector length. -/
theorem assignFold_length (key tgt : Cell → ℕ) (mk : ℕ → PNode) (val : ℕ → ℚ)
    (k : ℕ) : ∀ (ar : List Cell) (st : List (Option ℚ) × List PNode),
    (assignFold ar key tgt mk val k st).1.length = st.1.length
  | [], _ => rfl
  | c :: cs, st => by
    rw [assignFold_cons]
    by_cases hc : key c = k ∧ st.1.getD (tgt c) none = none
    · rw [if_pos hc, assignFold_length key tgt mk val k cs, List.length_set]
    · rw [if_neg hc, assignFold_length key tgt mk val k cs]

/-- `assignFold` never unsets or changes an already-known potential. -/
theorem assignFold_preserve (key tgt : Cell → ℕ) (mk : ℕ → PNode)
    (val : ℕ → ℚ) (k : ℕ) :
    ∀ (ar : List Cell) (st : List (Option ℚ) × List PNode) (t : ℕ),
    st.1.getD t none ≠ none →
    (assignFold ar key tgt mk val k st).1.getD t none = st.1.getD t none
  | [], _, _, _ => rfl
  | c :: cs, st, t, h => by
    rw [assignFold_cons]
    by_cases hc : key c = k ∧ st.1.getD (tgt c) none = none
    · rw [if_pos hc]
      have hne : tgt c ≠ t := fun he => h (he ▸ hc.2)
      have hpr : (st.1.set (tgt c) (some (val (tgt c)))).getD t none =
          st.1.getD t none := getD_set_ne _ _ _ hne
      rw [assignFold_preserve key tgt mk val k cs _ t (by rw [hpr]; exact h)]
      exact hpr
    · rw [if_neg hc]
      exact assignFold_preserve key tgt mk val k cs st t h

/-- A potential freshly assigned by `assignFold` carries the propagated value
and comes from a matching basic edge. -/
theorem assignFold_fresh (key tgt : Cell → ℕ) (mk : ℕ → PNode)
    (val : ℕ → ℚ) (k : ℕ) :
    ∀ (ar : List Cell) (st : List (Option ℚ) × List PNode) (t : ℕ),
    st.1.getD t none = none →
    (assignFold ar key tgt mk val k st).1.getD t none ≠ none →
    (assignFold ar key tgt mk val k st).1.getD t none = some (val t) ∧
      ∃ c ∈ ar, key c = k ∧ tgt c = t
  | [], st, t, h0, hne => absurd h0 hne
  | c :: cs, st, t, h0, hne => by
    rw [assignFold_cons] at hne ⊢
    by_cases hc : key c = k ∧ st.1.getD (tgt c) none = none
    · rw [if_pos hc] at hne ⊢
      by_cases ht : tgt c = t
      · subst ht
        by_cases hb : tgt c < st.1.length
        · have hset : (st.1.set (tgt c) (some (val (tgt c)))).getD (tgt c)
              none = some (val (tgt c)) := getD_set_eq _ _ _ _ hb
          rw [assignFold_preserve key tgt mk val k cs _ _
            (by rw [hset]; exact fun h => by cases h), hset]
          exact ⟨rfl, c, by simp, hc.1, rfl⟩
        · rw [List.set_eq_of_length_le (by omega)] at hne ⊢
          obtain ⟨hv, c', hc', hk', ht'⟩ :=
            assignFold_fresh key tgt mk val k cs
              (st.1, st.2 ++ [mk (tgt c)]) (tgt c) h0 hne
          exact ⟨hv, c', by simp [hc'], hk', ht'⟩
      · have hpr : (st.1.set (tgt c) (some (val (tgt c)))).getD t none =
            st.1.getD t none := getD_set_ne _ _ _ ht
        obtain ⟨hv, c', hc', hk', ht'⟩ := assignFold_fresh key tgt mk val k cs
          (st.1.set (tgt c) (some (val (tgt c))), st.2 ++ [mk (tgt c)]) t
          (by rw [hpr]; exact h0) hne
        exact ⟨hv, c', by simp [hc'], hk', ht'⟩
    · rw [if_neg hc] at hne ⊢
      obtain ⟨hv, c', hc', hk', ht'⟩ :=
        assignFold_fresh key tgt mk val k cs st t h0 hne
      exact ⟨hv, c', by simp [hc'], hk', ht'⟩

/-- After `assignFold`, every matching in-bounds basic edge has its target
potential known. -/
theorem assignFold_closure (key tgt : Cell → ℕ) (mk : ℕ → PNode)
    (val : ℕ → ℚ) (k : ℕ) :
    ∀ (ar : List Cell) (st : List (Option ℚ) × List PNode),
    ∀ c ∈ ar, key c = k → tgt c < st.1.length →
    (assignFold ar key tgt mk val k st).1.getD (tgt c) none ≠ none
  | [], _, c, hc, _, _ => by simp at hc
  | c0 :: cs, st, c, hc, hk, hb => by
    rw [assignFold_cons]
    rcases List.mem_cons.mp hc with rfl | htail
    · by_cases hc0 : key c = k ∧ st.1.getD (tgt c) none = none
      · rw [if_pos hc0]
        have h1 : (st.1.set (tgt c) (some (val (tgt c)))).getD (tgt c) none =
            some (val (tgt c)) := getD_set_eq _ _ _ _ hb
        have h2 := assignFold_preserve key tgt mk val k cs
          (st.1.set (tgt c) (some (val (tgt c))), st.2 ++ [mk (tgt c)]) (tgt c)
          (by show (st.1.set (tgt c) (some (val (tgt c)))).getD (tgt c) none ≠
                none
              rw [h1]
              exact fun h => by cases h)
        rw [h2]
        show (st.1.set (tgt c) (some (val (tgt c)))).getD (tgt c) none ≠ none
        rw [h1]
        exact fun h => by cases h
      · rw [if_neg hc0]
        have hne : st.1.getD (tgt c) none ≠ none := fun h => hc0 ⟨hk, h⟩
        rw [assignFold_preserve key tgt mk val k cs st (tgt c) hne]
        exact hne
    · by_cases hc0 : key c0 = k ∧ st.1.getD (tgt c0) none = none
      · rw [if_pos hc0]
        exact assignFold_closure key tgt mk val k cs _ c htail hk
          (by rw [List.length_set]; exact hb)
      · rw [if_neg hc0]
        exact assignFold_closure key tgt mk val k cs st c htail hk hb

/-- The `assignFold` queue only grows. -/
theorem assignFold_queue_ext (key tgt : Cell → ℕ) (mk : ℕ → PNode)
    (val : ℕ → ℚ) (k : ℕ) :
    ∀ (ar : List Cell) (st : List (Option ℚ) × List PNode),
    ∃ ext, (assignFold ar key tgt mk val k st).2 = st.2 ++ ext
  | [], st => ⟨[], by simp [assignFold]⟩
  | c :: cs, st => by
    rw [assignFold_cons]
    by_cases hc : key c = k ∧ st.1.getD (tgt c) none = none
    · rw [if_pos hc]
      obtain ⟨ext, hext⟩ := assignFold_queue_ext key tgt mk val k cs
        (st.1.set (tgt c) (some (val (tgt c))), st.2 ++ [mk (tgt c)])
      exact ⟨mk (tgt c) :: ext, by simp [hext]⟩
    · rw [if_neg hc]
      exact assignFold_queue_ext key tgt mk val k cs st

/-- Every node `assignFold` enqueues has its potential known afterwards. -/
theorem assignFold_queue_assigned (key tgt : Cell → ℕ) (mk : ℕ → PNode)
    (val : ℕ → ℚ) (k : ℕ) :
    ∀ (ar : List Cell) (st : List (Option ℚ) × List PNode),
    (∀ c ∈ ar, tgt c < st.1.length) →
    ∀ x ∈ (assignFold ar key tgt mk val k st).2, x ∈ st.2 ∨
      ∃ t, x = mk t ∧ (assignFold ar key tgt mk val k st).1.getD t none ≠ none
  | [], st, _, x, hx => Or.inl hx
  | c :: cs, st, hbnd, x, hx => by
    rw [assignFold_cons] at hx ⊢
    by_cases hc : key c = k ∧ st.1.getD (tgt c) none = none
    · rw [if_pos hc] at hx ⊢
      have hb : tgt c < st.1.length := hbnd c (by simp)
      rcases assignFold_queue_assigned key tgt mk val k cs _
          (fun c' hc' => by rw [List.length_set]; exact hbnd c' (by simp [hc']))
          x hx with hx' | ⟨t, rfl, ht⟩
      · rcases List.mem_append.mp hx' with hx'' | hx''
        · exact Or.inl hx''
        · refine Or.inr ⟨tgt c, List.mem_singleton.mp hx'', ?_⟩
          have h1 : (st.1.set (tgt c) (some (val (tgt c)))).getD (tgt c) none =
              some (val (tgt c)) := getD_set_eq _ _ _ _ hb
          have h2 := assignFold_preserve key tgt mk val k cs
            (st.1.set (tgt c) (some (val (tgt c))), st.2 ++ [mk (tgt c)])
            (tgt c)
            (by show (st.1.set (tgt c) (some (val (tgt c)))).getD (tgt c)
                  none ≠ none
                rw [h1]
                exact fun h => by cases h)
          rw [h2]
          show (st.1.set (tgt c) (some (val (tgt c)))).getD (tgt c) none ≠ none
          rw [h1]
          exact fun h => by cases h
      · exact Or.inr ⟨t, rfl, ht⟩
    · rw [if_neg hc] at hx ⊢
      exact assignFold_queue_assigned key tgt mk val k cs st
        (fun c' hc' => hbnd c' (by simp [hc'])) x hx

/-- A node whose potential `assignFold` freshly assigns is enqueued. -/
theorem assignFold_enqueues (key tgt : Cell → ℕ) (mk : ℕ → PNode)
    (val : ℕ → ℚ) (k : ℕ) :
    ∀ (ar : List Cell) (st : List (Option ℚ) × List PNode) (t : ℕ),
    st.1.getD t none = none →
    (assignFold ar key tgt mk val k st).1.getD t none ≠ none →
    mk t ∈ (assignFold ar key tgt mk val k st).2
  | [], st, t, h0, hne => absurd h0 hne
  | c :: cs, st, t, h0, hne => by
    rw [assignFold_cons] at hne ⊢
    by_cases hc : key c = k ∧ st.1.getD (tgt c) none = none
    · rw [if_pos hc] at hne ⊢
      by_cases ht : tgt c = t
      · subst ht
        obtain ⟨ext, hext⟩ := assignFold_queue_ext key tgt mk val k cs
          (st.1.set (tgt c) (some (val (tgt c))), st.2 ++ [mk (tgt c)])
        rw [hext]
        simp
      · have hpr : (st.1.set (tgt c) (some (val (tgt c)))).getD t none =
            st.1.getD t none := getD_set_ne _ _ _ ht
        exact assignFold_enqueues key tgt mk val k cs _ t
          (by rw [hpr]; exact h0) hne
    · rw [if_neg hc] at hne ⊢
      exact assignFold_enqueues key tgt mk val k cs st t h0 hne

/-- Setting a `none` entry to `some` lowers the unknown count by one. -/
theorem countNone_set : ∀ (w : List (Option ℚ)) (t : ℕ) (x : ℚ),
    t < w.length → w.getD t none = none →
    countNone (w.set t (some x)) + 1 = countNone w
  | [], t, x, h, _ => absurd h (by simp)
  | o :: w, 0, x, _, h0 => by
    have : o = none := by simpa using h0
    subst this
    simp [countNone, List.countP_cons]
  | o :: w, t + 1, x, h, h0 => by
    have := countNone_set w t x (by simpa using h) (by simpa using h0)
    simp only [List.set, countNone, List.countP_cons] at this ⊢
    omega

/-- `assignFold` keeps `queue length + unknown count` constant: every push is
paired with a fresh assignment. -/
theorem assignFold_measure (key tgt : Cell → ℕ) (mk : ℕ → PNode)
    (val : ℕ → ℚ) (k : ℕ) :
    ∀ (ar : List Cell) (st : List (Option ℚ) × List PNode),
    (∀ c ∈ ar, tgt c < st.1.length) →
    (assignFold ar key tgt mk val k st).2.length +
      countNone (assignFold ar key tgt mk val k st).1 =
    st.2.length + countNone st.1
  | [], _, _ => rfl
  | c :: cs, st, hbnd => by
    rw [assignFold_cons]
    by_cases hc : key c = k ∧ st.1.getD (tgt c) none = none
    · rw [if_pos hc]
      have hb : tgt c < st.1.length := hbnd c (by simp)
      have := assignFold_measure key tgt mk val k cs
        (st.1.set (tgt c) (some (val (tgt c))), st.2 ++ [mk (tgt c)])
        (fun c' hc' => by rw [List.length_set]; exact hbnd c' (by simp [hc']))
      rw [this]
      have hcnt := countNone_set st.1 (tgt c) (val (tgt c)) hb hc.2
      simp only [List.length_append, List.length_singleton]
      omega
    · rw [if_neg hc]
      exact assignFold_measure key tgt mk val k cs st
        (fun c' hc' => hbnd c' (by simp [hc']))

/-- Popping a client node preserves the propagation invariant and trades the
popped node for the fresh assignments it causes. -/
theorem potInv_step_client (costs : Matrix) (aretes : List Cell)
    (ustar vstar : ℕ → ℚ) (n m : ℕ)
    (hb1 : ∀ c ∈ aretes, c.1 < n)
    (hcons : ∀ c ∈ aretes, ustar c.1 + vstar c.2 = getc costs c.1 c.2)
    (j : ℕ) (qs : List PNode) (u v : List (Option ℚ))
    (hinv : PotInv aretes ustar vstar n m u v (PNode.client j :: qs)) :
    PotInv aretes ustar vstar n m
      (assignFold aretes (fun c => c.2) (fun c => c.1) PNode.fournisseur
        (fun i => getc costs i j - (v.getD j none).getD 0) j (u, qs)).1
      v
      (assignFold aretes (fun c => c.2) (fun c => c.1) PNode.fournisseur
        (fun i => getc costs i j - (v.getD j none).getD 0) j (u, qs)).2 ∧
    (assignFold aretes (fun c => c.2) (fun c => c.1) PNode.fournisseur
        (fun i => getc costs i j - (v.getD j none).getD 0) j (u, qs)).2.length
      + countNone (assignFold aretes (fun c => c.2) (fun c => c.1)
        PNode.fournisseur
        (fun i => getc costs i j - (v.getD j none).getD 0) j (u, qs)).1 =
      qs.length + countNone u := by
  obtain ⟨hlu, hlv, hu0, huval, hvval, hqc, hqf, hclou, hclov⟩ := hinv
  have hvj : v.getD j none ≠ none := hqc j (by simp)
  obtain ⟨wv, hwv⟩ : ∃ w, v.getD j none = some w := by
    cases hvda : v.getD j none with
    | none => exact absurd hvda hvj
    | some w => exact ⟨w, rfl⟩
  have hwval := hvval j wv hwv
  set valf := fun i => getc costs i j - (v.getD j none).getD 0 with hvalf
  have hvalstar : ∀ c ∈ aretes, c.2 = j → valf c.1 = ustar c.1 := by
    intro c hc hcj
    have h1 := hcons c hc
    rw [hvalf]
    simp only [hwv, Option.getD_some]
    rw [hwval.1, ← hcj]
    linarith
  have hbnd : ∀ c ∈ aretes, c.1 < u.length := by
    intro c hc
    rw [hlu]
    exact hb1 c hc
  set F := assignFold aretes (fun c => c.2) (fun c => c.1) PNode.fournisseur
    valf j (u, qs) with hFdef
  have hlen : F.1.length = u.length :=
    assignFold_length _ _ _ _ _ aretes (u, qs)
  have hpres : ∀ t, u.getD t none ≠ none → F.1.getD t none = u.getD t none :=
    fun t h => assignFold_preserve _ _ _ _ _ aretes (u, qs) t h
  have hfresh : ∀ t, u.getD t none = none → F.1.getD t none ≠ none →
      F.1.getD t none = some (valf t) ∧ ∃ c ∈ aretes, c.2 = j ∧ c.1 = t :=
    fun t h0 hne => assignFold_fresh _ _ _ _ _ aretes (u, qs) t h0 hne
  have hclo : ∀ c ∈ aretes, c.2 = j → F.1.getD c.1 none ≠ none :=
    fun c hc hk => assignFold_closure _ _ _ _ _ aretes (u, qs) c hc hk
      (hbnd c hc)
  have hqext : ∃ ext, F.2 = qs ++ ext :=
    assignFold_queue_ext _ _ _ _ _ aretes (u, qs)
  have hqass : ∀ x ∈ F.2, x ∈ qs ∨
      ∃ t, x = PNode.fournisseur t ∧ F.1.getD t none ≠ none :=
    fun x hx => assignFold_queue_assigned _ _ _ _ _ aretes (u, qs)
      (fun c hc => hbnd c hc) x hx
  have henq : ∀ t, u.getD t none = none → F.1.getD t none ≠ none →
      PNode.fournisseur t ∈ F.2 :=
    fun t h0 hne => assignFold_enqueues _ _ _ _ _ aretes (u, qs) t h0 hne
  have hmeas : F.2.length + countNone F.1 = qs.length + countNone u :=
    assignFold_measure _ _ _ _ _ aretes (u, qs) (fun c hc => hbnd c hc)
  have hmemqs : ∀ x : PNode, x ∈ qs → x ∈ F.2 := by
    intro x hx
    obtain ⟨ext, hext⟩ := hqext
    rw [hext]
    exact List.mem_append.mpr (Or.inl hx)
  refine ⟨⟨by rw [hlen, hlu], hlv, ?_, ?_, hvval, ?_, ?_, ?_, ?_⟩, hmeas⟩
  · rw [hpres 0 (by rw [hu0]; exact fun h => by cases h)]
    exact hu0
  · intro i w hw
    by_cases h0 : u.getD i none = none
    · have hne : F.1.getD i none ≠ none := by rw [hw]; exact fun h => by cases h
      obtain ⟨hv', c, hc, hcj, hci⟩ := hfresh i h0 hne
      rw [hw] at hv'
      have hwval' : w = valf i := by
        injection hv'
      have hcell : ((i, j) : Cell) ∈ aretes := by
        have : c = (i, j) := by
          rcases c with ⟨c1, c2⟩
          simp only at hcj hci
          rw [hci, hcj]
        rw [← this]
        exact hc
      constructor
      · rw [hwval']
        have := hvalstar (i, j) hcell rfl
        simpa using this
      · exact PotReach.toP hwval.2 hcell
    · rw [hpres i h0] at hw
      exact huval i w hw
  · intro j' hj'
    rcases hqass _ hj' with hx | ⟨t, ht, -⟩
    · exact hqc j' (by simp [hx])
    · cases ht
  · intro i hi
    rcases hqass _ hi with hx | ⟨t, ht, hta⟩
    · have h0 : u.getD i none ≠ none := hqf i (by simp [hx])
      rw [hpres i h0]
      exact h0
    · have : t = i := by
        injection ht.symm
      rw [← this]
      exact hta
  · intro i hi
    by_cases h0 : u.getD i none = none
    · exact Or.inl (henq i h0 hi)
    · rcases hclou i h0 with hq | hcl
      · rcases List.mem_cons.mp hq with hhd | htl
        · cases hhd
        · exact Or.inl (hmemqs _ htl)
      · exact Or.inr hcl
  · intro j' hj'
    by_cases hjj : j' = j
    · subst hjj
      exact Or.inr fun c hc hcj => hclo c hc hcj
    · rcases hclov j' hj' with hq | hcl
      · rcases List.mem_cons.mp hq with hhd | htl
        · exact absurd (by injection hhd) hjj
        · exact Or.inl (hmemqs _ htl)
      · exact Or.inr fun c hc hcj => by
          by_cases h0 : u.getD c.1 none = none
          · exact absurd h0 (hcl c hc hcj)
          · rw [hpres c.1 h0]
            exact h0

/-- Popping a supplier node preserves the propagation invariant (mirror of
`potInv_step_client`). -/
theorem potInv_step_fournisseur (costs : Matrix) (aretes : List Cell)
    (ustar vstar : ℕ → ℚ) (n m : ℕ)
    (hb2 : ∀ c ∈ aretes, c.2 < m)
    (hcons : ∀ c ∈ aretes, ustar c.1 + vstar c.2 = getc costs c.1 c.2)
    (i : ℕ) (qs : List PNode) (u v : List (Option ℚ))
    (hinv : PotInv aretes ustar vstar n m u v (PNode.fournisseur i :: qs)) :
    PotInv aretes ustar vstar n m
      u
      (assignFold aretes (fun c => c.1) (fun c => c.2) PNode.client
        (fun j => getc costs i j - (u.getD i none).getD 0) i (v, qs)).1
      (assignFold aretes (fun c => c.1) (fun c => c.2) PNode.client
        (fun j => getc costs i j - (u.getD i none).getD 0) i (v, qs)).2 ∧
    (assignFold aretes (fun c => c.1) (fun c => c.2) PNode.client
        (fun j => getc costs i j - (u.getD i none).getD 0) i (v, qs)).2.length
      + countNone (assignFold aretes (fun c => c.1) (fun c => c.2)
        PNode.client
        (fun j => getc costs i j - (u.getD i none).getD 0) i (v, qs)).1 =
      qs.length + countNone v := by
  obtain ⟨hlu, hlv, hu0, huval, hvval, hqc, hqf, hclou, hclov⟩ := hinv
  have hui : u.getD i none ≠ none := hqf i (by simp)
  obtain ⟨wu, hwu⟩ : ∃ w, u.getD i none = some w := by
    cases huda : u.getD i none with
    | none => exact absurd huda hui
    | some w => exact ⟨w, rfl⟩
  have hwval := huval i wu hwu
  set valf := fun j => getc costs i j - (u.getD i none).getD 0 with hvalf
  have hvalstar : ∀ c ∈ aretes, c.1 = i → valf c.2 = vstar c.2 := by
    intro c hc hci
    have h1 := hcons c hc
    rw [hvalf]
    simp only [hwu, Option.getD_some]
    rw [hwval.1, ← hci]
    linarith
  have hbnd : ∀ c ∈ aretes, c.2 < v.length := by
    intro c hc
    rw [hlv]
    exact hb2 c hc
  set F := assignFold aretes (fun c => c.1) (fun c => c.2) PNode.client
    valf i (v, qs) with hFdef
  have hlen : F.1.length = v.length :=
    assignFold_length _ _ _ _ _ aretes (v, qs)
  have hpres : ∀ t, v.getD t none ≠ none → F.1.getD t none = v.getD t none :=
    fun t h => assignFold_preserve _ _ _ _ _ aretes (v, qs) t h
  have hfresh : ∀ t, v.getD t none = none → F.1.getD t none ≠ none →
      F.1.getD t none = some (valf t) ∧ ∃ c ∈ aretes, c.1 = i ∧ c.2 = t :=
    fun t h0 hne => assignFold_fresh _ _ _ _ _ aretes (v, qs) t h0 hne
  have hclo : ∀ c ∈ aretes, c.1 = i → F.1.getD c.2 none ≠ none :=
    fun c hc hk => assignFold_closure _ _ _ _ _ aretes (v, qs) c hc hk
      (hbnd c hc)
  have hqext : ∃ ext, F.2 = qs ++ ext :=
    assignFold_queue_ext _ _ _ _ _ aretes (v, qs)
  have hqass : ∀ x ∈ F.2, x ∈ qs ∨
      ∃ t, x = PNode.client t ∧ F.1.getD t none ≠ none :=
    fun x hx => assignFold_queue_assigned _ _ _ _ _ aretes (v, qs)
      (fun c hc => hbnd c hc) x hx
  have henq : ∀ t, v.getD t none = none → F.1.getD t none ≠ none →
      PNode.client t ∈ F.2 :=
    fun t h0 hne => assignFold_enqueues _ _ _ _ _ aretes (v, qs) t h0 hne
  have hmeas : F.2.length + countNone F.1 = qs.length + countNone v :=
    assignFold_measure _ _ _ _ _ aretes (v, qs) (fun c hc => hbnd c hc)
  have hmemqs : ∀ x : PNode, x ∈ qs → x ∈ F.2 := by
    intro x hx
    obtain ⟨ext, hext⟩ := hqext
    rw [hext]
    exact List.mem_append.mpr (Or.inl hx)
  refine ⟨⟨hlu, by rw [hlen, hlv], hu0, huval, ?_, ?_, ?_, ?_, ?_⟩, hmeas⟩
  · intro j w hw
    by_cases h0 : v.getD j none = none
    · have hne : F.1.getD j none ≠ none := by rw [hw]; exact fun h => by cases h
      obtain ⟨hv', c, hc, hci, hcj⟩ := hfresh j h0 hne
      rw [hw] at hv'
      have hwval' : w = valf j := by
        injection hv'
      have hcell : ((i, j) : Cell) ∈ aretes := by
        have : c = (i, j) := by
          rcases c with ⟨c1, c2⟩
          simp only at hci hcj
          rw [hci, hcj]
        rw [← this]
        exact hc
      constructor
      · rw [hwval']
        have := hvalstar (i, j) hcell rfl
        simpa using this
      · exact PotReach.toC hwval.2 hcell
    · rw [hpres j h0] at hw
      exact hvval j w hw
  · intro j' hj'
    rcases hqass _ hj' with hx | ⟨t, ht, hta⟩
    · have h0 : v.getD j' none ≠ none := hqc j' (by simp [hx])
      rw [hpres j' h0]
      exact h0
    · have : t = j' := by
        injection ht.symm
      rw [← this]
      exact hta
  · intro i' hi'
    rcases hqass _ hi' with hx | ⟨t, ht, -⟩
    · exact hqf i' (by simp [hx])
    · cases ht
  · intro i' hi'
    by_cases hii : i' = i
    · subst hii
      exact Or.inr fun c hc hci => hclo c hc hci
    · rcases hclou i' hi' with hq | hcl
      · rcases List.mem_cons.mp hq with hhd | htl
        · exact absurd (by injection hhd) hii
        · exact Or.inl (hmemqs _ htl)
      · exact Or.inr fun c hc hci => by
          by_cases h0 : v.getD c.2 none = none
          · exact absurd h0 (hcl c hc hci)
          · rw [hpres c.2 h0]
            exact h0
  · intro j' hj'
    by_cases h0 : v.getD j' none = none
    · exact Or.inl (henq j' h0 hj')
    · rcases hclov j' h0 with hq | hcl
      · rcases List.mem_cons.mp hq with hhd | htl
        · cases hhd
        · exact Or.inl (hmemqs _ htl)
      · exact Or.inr hcl

/-- Running the propagation loop from an invariant state with enough fuel
drains the queue while preserving the invariant. -/
theorem potLoop_final (costs : Matrix) (aretes : List Cell)
    (ustar vstar : ℕ → ℚ) (n m : ℕ)
    (hb1 : ∀ c ∈ aretes, c.1 < n) (hb2 : ∀ c ∈ aretes, c.2 < m)
    (hcons : ∀ c ∈ aretes, ustar c.1 + vstar c.2 = getc costs c.1 c.2) :
    ∀ (fuel : ℕ) (q : List PNode) (u v : List (Option ℚ)),
    PotInv aretes ustar vstar n m u v q →
    q.length + countNone u + countNone v ≤ fuel →
    PotInv aretes ustar vstar n m
      (potLoop costs aretes fuel q u v).1
      (potLoop costs aretes fuel q u v).2 [] := by
  intro fuel
  induction fuel with
  | zero =>
    intro q u v hinv hm
    obtain rfl : q = [] := by
      cases q with
      | nil => rfl
      | cons a as => simp at hm
    exact hinv
  | succ fuel ih =>
    intro q u v hinv hm
    rcases q with - | ⟨node, qs⟩
    · exact hinv
    rcases node with j | i
    · obtain ⟨hstep, hmeas⟩ := potInv_step_client costs aretes ustar vstar n m
        hb1 hcons j qs u v hinv
      have hred : potLoop costs aretes (fuel + 1) (PNode.client j :: qs) u v =
          potLoop costs aretes fuel
            (assignFold aretes (fun c => c.2) (fun c => c.1)
              PNode.fournisseur
              (fun i => getc costs i j - (v.getD j none).getD 0) j (u, qs)).2
            (assignFold aretes (fun c => c.2) (fun c => c.1)
              PNode.fournisseur
              (fun i => getc costs i j - (v.getD j none).getD 0) j (u, qs)).1
            v := rfl
      rw [hred]
      apply ih _ _ _ hstep
      simp only [List.length_cons] at hm
      omega
    · obtain ⟨hstep, hmeas⟩ := potInv_step_fournisseur costs aretes ustar vstar
        n m hb2 hcons i qs u v hinv
      have hred : potLoop costs aretes (fuel + 1)
          (PNode.fournisseur i :: qs) u v =
          potLoop costs aretes fuel
            (assignFold aretes (fun c => c.1) (fun c => c.2) PNode.client
              (fun j => getc costs i j - (u.getD i none).getD 0) i (v, qs)).2
            u
            (assignFold aretes (fun c => c.1) (fun c => c.2) PNode.client
              (fun j => getc costs i j - (u.getD i none).getD 0) i (v, qs)).1
          := rfl
      rw [hred]
      apply ih _ _ _ hstep
      simp only [List.length_cons] at hm
      omega

/-- Basic cells are in bounds and positive. -/
theorem cellulesOf_bounds (A : Matrix) : ∀ c ∈ cellulesOf A,
    c.1 < A.length ∧ c.2 < (A.headD []).length ∧ 0 < getc A c.1 c.2 := by
  intro c hc
  unfold cellulesOf at hc
  simp only [List.mem_flatMap, List.mem_filterMap, List.mem_range] at hc
  obtain ⟨i, hi, j, hj, hcell⟩ := hc
  by_cases hpos : getc A i j > 0
  · rw [if_pos hpos] at hcell
    injection hcell with h
    subst h
    exact ⟨hi, hj, hpos⟩
  · rw [if_neg hpos] at hcell
    cases hcell

/-- An all-`none` list reads `none` everywhere. -/
theorem getD_replicate_none (k i : ℕ) :
    (List.replicate k (none : Option ℚ)).getD i none = none := by
  rcases Nat.lt_or_ge i k with h | h
  · exact getD_replicate' k i none none h
  · rw [List.getD_eq_getElem?_getD, List.getElem?_eq_none (by simp; omega)]
    rfl

/-- The unknown count never exceeds the list length. -/
theorem countNone_le_length : ∀ (l : List (Option ℚ)), countNone l ≤ l.length
  | [] => le_refl _
  | o :: l => by
    have := countNone_le_length l
    simp [countNone, List.countP_cons] at this ⊢
    cases o <;> simp <;> omega

/-- Reading defaults through the final `None → 0` fill of
`calculer_potentiels`. -/
theorem getD_map_optD (l : List (Option ℚ)) (i : ℕ) :
    (l.map fun o => o.getD 0).getD i 0 = (l.getD i none).getD 0 := by
  rcases Nat.lt_or_ge i l.length with h | h
  · rw [List.getD_eq_getElem?_getD, List.getElem?_map,
      List.getD_eq_getElem?_getD, List.getElem?_eq_getElem h]
    rfl
  · rw [List.getD_eq_getElem?_getD, List.getElem?_eq_none (by simp; omega),
      List.getD_eq_getElem?_getD, List.getElem?_eq_none (by omega)]
    rfl

/-- Unfolding one step of `initFold`. -/
theorem initFold_cons (costs : Matrix) (u0 : List (Option ℚ)) (c : Cell)
    (ar : List Cell) (st : List (Option ℚ) × List PNode) :
    initFold costs (c :: ar) u0 st =
      initFold costs ar u0
        (if c.1 = 0 ∧ (u0.getD 0 none).isSome then
          (st.1.set c.2 (some (getc costs 0 c.2 - (u0.getD 0 none).getD 0)),
           st.2 ++ [PNode.client c.2])
        else st) := rfl

/-- `initFold` preserves the potential-vector length. -/
theorem initFold_length (costs : Matrix) (u0 : List (Option ℚ)) :
    ∀ (ar : List Cell) (st : List (Option ℚ) × List PNode),
    (initFold costs ar u0 st).1.length = st.1.length
  | [], _ => rfl
  | c :: cs, st => by
    rw [initFold_cons]
    by_cases hc : c.1 = 0 ∧ (u0.getD 0 none).isSome
    · rw [if_pos hc, initFold_length costs u0 cs, List.length_set]
    · rw [if_neg hc, initFold_length costs u0 cs]

/-- `initFold` never unsets a known potential. -/
theorem initFold_mono (costs : Matrix) (u0 : List (Option ℚ)) :
    ∀ (ar : List Cell) (st : List (Option ℚ) × List PNode) (t : ℕ),
    st.1.getD t none ≠ none → (initFold costs ar u0 st).1.getD t none ≠ none
  | [], _, _, h => h
  | c :: cs, st, t, h => by
    rw [initFold_cons]
    by_cases hc : c.1 = 0 ∧ (u0.getD 0 none).isSome
    · rw [if_pos hc]
      apply initFold_mono costs u0 cs
      by_cases ht : c.2 = t
      · subst ht
        rcases Nat.lt_or_ge c.2 st.1.length with hb | hb
        · rw [getD_set_eq _ _ _ _ hb]
          exact fun hh => by cases hh
        · rw [List.set_eq_of_length_le (by omega)]
          exact h
      · rw [getD_set_ne _ _ _ ht]
        exact h
    · rw [if_neg hc]
      exact initFold_mono costs u0 cs st t h

/-- Every value set by `initFold` satisfies a property that holds of the
seeded assignments and of the initial state. -/
theorem initFold_val (costs : Matrix) (u0 : List (Option ℚ))
    (P : ℕ → ℚ → Prop) :
    ∀ (ar : List Cell) (st : List (Option ℚ) × List PNode),
    (∀ j w, st.1.getD j none = some w → P j w) →
    (∀ c ∈ ar, c.1 = 0 →
      P c.2 (getc costs 0 c.2 - (u0.getD 0 none).getD 0)) →
    ∀ j w, (initFold costs ar u0 st).1.getD j none = some w → P j w
  | [], st, hst, _, j, w, hw => hst j w hw
  | c :: cs, st, hst, hseed, j, w, hw => by
    rw [initFold_cons] at hw
    by_cases hc : c.1 = 0 ∧ (u0.getD 0 none).isSome
    · rw [if_pos hc] at hw
      refine initFold_val costs u0 P cs _ ?_
        (fun c' hc' => hseed c' (by simp [hc'])) j w hw
      intro j' w' hw'
      by_cases ht : c.2 = j'
      · subst ht
        rcases Nat.lt_or_ge c.2 st.1.length with hb | hb
        · rw [getD_set_eq _ _ _ _ hb] at hw'
          injection hw' with h
          rw [← h]
          exact hseed c (by simp) hc.1
        · rw [List.set_eq_of_length_le (by omega)] at hw'
          exact hst _ _ hw'
      · rw [getD_set_ne _ _ _ ht] at hw'
        exact hst _ _ hw'
    · rw [if_neg hc] at hw
      exact initFold_val costs u0 P cs st hst
        (fun c' hc' => hseed c' (by simp [hc'])) j w hw

/-- After `initFold`, every in-bounds basic edge of row 0 has its column
potential known (when `u[0]` is known). -/
theorem initFold_closure (costs : Matrix) (u0 : List (Option ℚ))
    (hsome : (u0.getD 0 none).isSome) :
    ∀ (ar : List Cell) (st : List (Option ℚ) × List PNode),
    ∀ c ∈ ar, c.1 = 0 → c.2 < st.1.length →
    (initFold costs ar u0 st).1.getD c.2 none ≠ none
  | [], _, c, hc, _, _ => by simp at hc
  | c0 :: cs, st, c, hc, h0, hb => by
    rw [initFold_cons]
    rcases List.mem_cons.mp hc with rfl | htail
    · rw [if_pos ⟨h0, hsome⟩]
      apply initFold_mono costs u0 cs
      show (st.1.set c.2 _).getD c.2 none ≠ none
      rw [getD_set_eq _ _ _ _ hb]
      exact fun hh => by cases hh
    · by_cases hc0 : c0.1 = 0 ∧ (u0.getD 0 none).isSome
      · rw [if_pos hc0]
        exact initFold_closure costs u0 hsome cs _ c htail h0
          (by rw [List.length_set]; exact hb)
      · rw [if_neg hc0]
        exact initFold_closure costs u0 hsome cs st c htail h0 hb

/-- Every node `initFold` leaves in the queue is a client node whose
potential is known. -/
theorem initFold_queue (costs : Matrix) (u0 : List (Option ℚ)) :
    ∀ (ar : List Cell) (st : List (Option ℚ) × List PNode),
    (∀ c ∈ ar, c.2 < st.1.length) →
    (∀ x ∈ st.2, ∃ j, x = PNode.client j ∧ st.1.getD j none ≠ none) →
    ∀ x ∈ (initFold costs ar u0 st).2,
      ∃ j, x = PNode.client j ∧ (initFold costs ar u0 st).1.getD j none ≠ none
  | [], _, _, hst, x, hx => hst x hx
  | c :: cs, st, hbnd, hst, x, hx => by
    rw [initFold_cons] at hx ⊢
    by_cases hc : c.1 = 0 ∧ (u0.getD 0 none).isSome
    · rw [if_pos hc] at hx ⊢
      have hb : c.2 < st.1.length := hbnd c (by simp)
      refine initFold_queue costs u0 cs _
        (fun c' hc' => by rw [List.length_set]; exact hbnd c' (by simp [hc']))
        ?_ x hx
      intro x' hx'
      rcases List.mem_append.mp hx' with hx'' | hx''
      · obtain ⟨j, hj, hass⟩ := hst x' hx''
        refine ⟨j, hj, ?_⟩
        by_cases ht : c.2 = j
        · subst ht
          rw [getD_set_eq _ _ _ _ hb]
          exact fun hh => by cases hh
        · rw [getD_set_ne _ _ _ ht]
          exact hass
      · refine ⟨c.2, List.mem_singleton.mp hx'', ?_⟩
        rw [getD_set_eq _ _ _ _ hb]
        exact fun hh => by cases hh
    · rw [if_neg hc] at hx ⊢
      exact initFold_queue costs u0 cs st
        (fun c' hc' => hbnd c' (by simp [hc'])) hst x hx

/-- Every potential `initFold` knows is queued. -/
theorem initFold_assigned_queued (costs : Matrix) (u0 : List (Option ℚ)) :
    ∀ (ar : List Cell) (st : List (Option ℚ) × List PNode),
    (∀ j, st.1.getD j none ≠ none → PNode.client j ∈ st.2) →
    ∀ j, (initFold costs ar u0 st).1.getD j none ≠ none →
      PNode.client j ∈ (initFold costs ar u0 st).2
  | [], _, hst, j, hj => hst j hj
  | c :: cs, st, hst, j, hj => by
    rw [initFold_cons] at hj ⊢
    by_cases hc : c.1 = 0 ∧ (u0.getD 0 none).isSome
    · rw [if_pos hc] at hj ⊢
      refine initFold_assigned_queued costs u0 cs _ ?_ j hj
      intro j' hj'
      by_cases ht : c.2 = j'
      · subst ht
        simp
      · rw [getD_set_ne _ _ _ ht] at hj'
        exact List.mem_append.mpr (Or.inl (hst j' hj'))
    · rw [if_neg hc] at hj ⊢
      exact initFold_assigned_queued costs u0 cs st hst j hj

/-- The `initFold` queue grows by at most one node per basic edge. -/
theorem initFold_queue_len (costs : Matrix) (u0 : List (Option ℚ)) :
    ∀ (ar : List Cell) (st : List (Option ℚ) × List PNode),
    (initFold costs ar u0 st).2.length ≤ st.2.length + ar.length
  | [], _ => by simp [initFold]
  | c :: cs, st => by
    rw [initFold_cons]
    by_cases hc : c.1 = 0 ∧ (u0.getD 0 none).isSome
    · rw [if_pos hc]
      have := initFold_queue_len costs u0 cs
        (st.1.set c.2 (some (getc costs 0 c.2 - (u0.getD 0 none).getD 0)),
         st.2 ++ [PNode.client c.2])
      simp at this ⊢
      omega
    · rw [if_neg hc]
      have := initFold_queue_len costs u0 cs st
      simp only [List.length_cons] at this ⊢
      omega

/-- With the queue drained, the invariant propagates knowledge to every node
reachable from supply node 0. -/
theorem potInv_complete (aretes : List Cell) (ustar vstar : ℕ → ℚ) (n m : ℕ)
    (u v : List (Option ℚ)) (hinv : PotInv aretes ustar vstar n m u v []) :
    ∀ x, PotReach aretes x →
      (∀ i, x = TNode.P i → u.getD i none ≠ none) ∧
      (∀ j, x = TNode.C j → v.getD j none ≠ none) := by
  obtain ⟨hlu, hlv, hu0, huval, hvval, hqc, hqf, hclou, hclov⟩ := hinv
  intro x hx
  induction hx with
  | root =>
    constructor
    · intro i hi
      injection hi with h
      rw [← h, hu0]
      exact fun hh => by cases hh
    · intro j hj
      cases hj
  | @toC i j hreach hmem ih =>
    constructor
    · intro i' hi'
      cases hi'
    · intro j' hj'
      injection hj' with h
      subst h
      have hui : u.getD i none ≠ none := ih.1 i rfl
      rcases hclou i hui with hq | hcl
      · simp at hq
      · exact hcl (i, j) hmem rfl
  | @toP i j hreach hmem ih =>
    constructor
    · intro i' hi'
      injection hi' with h
      subst h
      have hvj : v.getD j none ≠ none := ih.2 j rfl
      rcases hclov j hvj with hq | hcl
      · simp at hq
      · exact hcl (i, j) hmem rfl
    · intro j' hj'
      cases hj'

/-- The empty parent map reads `none` everywhere. -/
theorem parentGet_nil (x : Cell) : parentGet [] x = none := rfl

/-- Reading a parent map through one binding (Python `dict.get` on the insertion-ordered association list). -/
theorem parentGet_cons (w : Cell) (ow : Option Cell)
    (p : List (Cell × Option Cell)) (x : Cell) :
    parentGet ((w, ow) :: p) x = if w = x then ow else parentGet p x := by
  unfold parentGet
  by_cases h : w = x
  · subst h
    simp [List.lookup]
  · rw [if_neg h]
    have hb : (x == w) = false := by
      rw [beq_eq_false_iff_ne]
      exact fun e => h e.symm
    simp [List.lookup, hb]

/-- Shifting the enumeration start by one swaps the even-index and odd-index selections. -/
theorem enumFrom_parity : ∀ (l : List Cell) (n : ℕ),
    ((l.enumFrom (n + 1)).filter (fun p => p.1 % 2 == 0)).map Prod.snd =
      ((l.enumFrom n).filter (fun p => p.1 % 2 == 1)).map Prod.snd ∧
    ((l.enumFrom (n + 1)).filter (fun p => p.1 % 2 == 1)).map Prod.snd =
      ((l.enumFrom n).filter (fun p => p.1 % 2 == 0)).map Prod.snd := by
  intro l
  induction l with
  | nil => intro n; simp [List.enumFrom]
  | cons a l ih =>
    intro n
    have h2 := Nat.mod_two_eq_zero_or_one n
    rcases h2 with h | h
    · have h0 : ((n + 1) % 2 == 0) = false := by
        have : (n + 1) % 2 = 1 := by omega
        simp [this]
      have h1 : ((n + 1) % 2 == 1) = true := by
        have : (n + 1) % 2 = 1 := by omega
        simp [this]
      have g0 : (n % 2 == 0) = true := by simp [h]
      have g1 : (n % 2 == 1) = false := by simp [h]
      simp only [List.enumFrom, List.filter_cons, h0, h1, g0, g1,
        List.map_cons, if_true, if_false]
      refine ⟨(ih (n + 1)).1, ?_⟩
      rw [(ih (n + 1)).2]
    · have h0 : ((n + 1) % 2 == 0) = true := by
        have : (n + 1) % 2 = 0 := by omega
        simp [this]
      have h1 : ((n + 1) % 2 == 1) = false := by
        have : (n + 1) % 2 = 0 := by omega
        simp [this]
      have g0 : (n % 2 == 0) = false := by simp [h]
      have g1 : (n % 2 == 1) = true := by simp [h]
      simp only [List.enumFrom, List.filter_cons, h0, h1, g0, g1,
        List.map_cons, if_true, if_false]
      refine ⟨?_, (ih (n + 1)).2⟩
      rw [(ih (n + 1)).1]

/-- The empty cycle has no `+`-signed cells. -/
theorem plusCases_nil : plusCases [] = [] := rfl

/-- The empty cycle has no `−`-signed cells. -/
theorem moinsCases_nil : moinsCases [] = [] := rfl

/-- The `+`-signed cells of `c :: rest` are `c` followed by the `−`-signed cells of `rest`. -/
theorem plusCases_cons (a : Cell) (l : List Cell) :
    plusCases (a :: l) = a :: moinsCases l := by
  unfold plusCases moinsCases
  show (((a :: l).enumFrom 0).filter (fun p => p.1 % 2 == 0)).map Prod.snd = _
  simp only [List.enumFrom, List.filter_cons]
  norm_num
  all_goals exact (enumFrom_parity l 0).1

/-- The `−`-signed cells of `c :: rest` are the `+`-signed cells of `rest`. -/
theorem moinsCases_cons (a : Cell) (l : List Cell) :
    moinsCases (a :: l) = plusCases l := by
  unfold plusCases moinsCases
  show (((a :: l).enumFrom 0).filter (fun p => p.1 % 2 == 1)).map Prod.snd = _
  simp only [List.enumFrom, List.filter_cons]
  norm_num
  all_goals exact (enumFrom_parity l 0).2

/-- Both sign classes are cells of the cycle. -/
theorem plusMoins_subset : ∀ l : List Cell,
    (∀ z ∈ plusCases l, z ∈ l) ∧ (∀ z ∈ moinsCases l, z ∈ l) := by
  intro l
  induction l with
  | nil =>
    constructor
    · intro z hz
      rw [plusCases_nil] at hz
      cases hz
    · intro z hz
      rw [moinsCases_nil] at hz
      cases hz
  | cons a l ih =>
    rw [plusCases_cons, moinsCases_cons]
    constructor
    · intro z hz
      rcases List.mem_cons.mp hz with rfl | hz'
      · exact List.mem_cons_self _ _
      · exact List.mem_cons.mpr (Or.inr (ih.2 z hz'))
    · intro z hz
      exact List.mem_cons.mpr (Or.inr (ih.1 z hz))

/-- On a duplicate-free cycle the sign classes are duplicate-free and disjoint. -/
theorem plusMoins_nodup : ∀ l : List Cell, l.Nodup →
    (plusCases l).Nodup ∧ (moinsCases l).Nodup ∧
    ∀ z ∈ plusCases l, z ∉ moinsCases l := by
  intro l
  induction l with
  | nil =>
    intro _
    refine ⟨?_, ?_, ?_⟩
    · rw [plusCases_nil]
      exact List.nodup_nil
    · rw [moinsCases_nil]
      exact List.nodup_nil
    · intro z hz
      rw [plusCases_nil] at hz
      cases hz
  | cons a l ih =>
    intro hnod
    obtain ⟨ha, hl⟩ := List.nodup_cons.mp hnod
    obtain ⟨ihp, ihm, ihd⟩ := ih hl
    rw [plusCases_cons, moinsCases_cons]
    refine ⟨?_, ihp, ?_⟩
    · refine List.nodup_cons.mpr ⟨?_, ihm⟩
      intro hmem
      exact ha ((plusMoins_subset l).2 a hmem)
    · intro z hz hzp
      rcases List.mem_cons.mp hz with rfl | hz'
      · exact ha ((plusMoins_subset l).1 z hzp)
      · exact ihd z hzp hz'

/-- A cycle with at least two cells has a `−`-signed cell (its second cell). -/
theorem moinsCases_ne_nil (l : List Cell) (h : 2 ≤ l.length) :
    moinsCases l ≠ [] := by
  cases l with
  | nil => simp at h
  | cons a t =>
    cases t with
    | nil => simp at h
    | cons b t' =>
      rw [moinsCases_cons, plusCases_cons]
      simp

/-- A successful `find?` splits the list at the first match, with the predicate false on the prefix. -/
theorem find?_mem_split {α : Type _} (q : α → Bool) :
    ∀ (l : List α) (a : α), l.find? q = some a →
    ∃ l₁ l₂, l = l₁ ++ a :: l₂ ∧ (∀ b ∈ l₁, q b = false) ∧ q a = true := by
  intro l
  induction l with
  | nil => intro a h; simp [List.find?] at h
  | cons x xs ih =>
    intro a h
    rw [List.find?_cons] at h
    rcases hq : q x with _ | _
    · rw [hq] at h
      obtain ⟨l₁, l₂, rfl, hb, ha⟩ := ih a h
      exact ⟨x :: l₁, l₂, rfl, by
        intro b hb'
        rcases List.mem_cons.mp hb' with rfl | hb''
        · exact hq
        · exact hb b hb'', ha⟩
    · rw [hq] at h
      injection h with h
      subst h
      exact ⟨[], xs, rfl, by simp, hq⟩

/-- `takeWhile` over a list whose prefix satisfies the predicate and whose next element fails it returns exactly that prefix. -/
theorem takeWhile_append_of {α : Type _} (q : α → Bool) :
    ∀ (l₁ : List α) (a : α) (l₂ : List α), (∀ b ∈ l₁, q b = true) →
    q a = false → ((l₁ ++ a :: l₂).takeWhile q) = l₁ := by
  intro l₁
  induction l₁ with
  | nil => intro a l₂ _ ha; simp [List.takeWhile_cons, ha]
  | cons x xs ih =>
    intro a l₂ hb ha
    have hx : q x = true := hb x (by simp)
    simp only [List.cons_append, List.takeWhile_cons, hx, if_true]
    rw [ih a l₂ (fun b hb' => hb b (by simp [hb'])) ha]

/-- Every element of a `takeWhile` satisfies its predicate. -/
theorem mem_takeWhile_pred {α : Type _} (q : α → Bool) :
    ∀ (l : List α) (a : α), a ∈ l.takeWhile q → q a = true := by
  intro l
  induction l with
  | nil => intro a h; simp [List.takeWhile] at h
  | cons x xs ih =>
    intro a h
    rw [List.takeWhile_cons] at h
    by_cases hx : q x = true
    · rw [if_pos hx] at h
      rcases List.mem_cons.mp h with rfl | h'
      · exact hx
      · exact ih a h'
    · rw [if_neg hx] at h
      simp at h

/-- The length of a `filterMap` counts the inputs mapped to `some`. -/
theorem length_filterMap_isSome {α β : Type _} (f : α → Option β) :
    ∀ l : List α, (l.filterMap f).length = l.countP fun a => (f a).isSome := by
  intro l
  induction l with
  | nil => rfl
  | cons a l ih =>
    rw [List.filterMap_cons, List.countP_cons]
    rcases hf : f a with _ | b
    · simp [hf, ih]
    · simp [hf, ih]

/-- A pointwise-implied predicate with one strict witness has a strictly smaller count. -/
theorem countP_lt {α : Type _} (p q : α → Bool) :
    ∀ (l : List α), (∀ a ∈ l, p a = true → q a = true) →
    ∀ a₀ ∈ l, p a₀ = false → q a₀ = true → l.countP p < l.countP q := by
  intro l
  induction l with
  | nil => intro _ a₀ h; simp at h
  | cons a l ih =>
    intro himp a₀ ha₀ hp hq
    rw [List.countP_cons, List.countP_cons]
    have hmono : l.countP p ≤ l.countP q :=
      List.countP_mono_left fun b hb => himp b (by simp [hb])
    have i0 : (if (false = true) then (1 : ℕ) else 0) = 0 := rfl
    have i1 : (if (true = true) then (1 : ℕ) else 0) = 1 := rfl
    rcases List.mem_cons.mp ha₀ with rfl | hmem
    · rw [hp, hq, i0, i1]
      omega
    · have hlt := ih (fun b hb => himp b (by simp [hb])) a₀ hmem hp hq
      rcases hpa : p a with _ | _
      · rcases hqa : q a with _ | _
        · rw [i0]
          omega
        · rw [i0, i1]
          omega
      · rw [himp a (by simp) hpa, i1]
        omega

/-- The length of a `flatMap` is the sum of the piece lengths. -/
theorem length_flatMap' {α β : Type _} (f : α → List β) : ∀ l : List α,
    (l.flatMap f).length = (l.map fun a => (f a).length).sum := by
  intro l
  induction l with
  | nil => rfl
  | cons a l ih => simp [List.flatMap_cons, ih]

/-- Pointwise-dominated maps have dominated sums. -/
theorem map_sum_le (F G : ℕ → ℕ) : ∀ l : List ℕ, (∀ i ∈ l, F i ≤ G i) →
    (l.map F).sum ≤ (l.map G).sum := by
  intro l
  induction l with
  | nil => intro _; simp
  | cons a l ih =>
    intro h
    simp only [List.map_cons, List.sum_cons]
    have := ih fun i hi => h i (by simp [hi])
    have ha := h a (by simp)
    omega

/-- Pointwise domination with one strict witness gives a strictly smaller sum. -/
theorem map_sum_lt (F G : ℕ → ℕ) : ∀ l : List ℕ, (∀ i ∈ l, F i ≤ G i) →
    ∀ i₀ ∈ l, F i₀ < G i₀ → (l.map F).sum < (l.map G).sum := by
  intro l
  induction l with
  | nil => intro _ i₀ h; simp at h
  | cons a l ih =>
    intro h i₀ hi₀ hlt
    simp only [List.map_cons, List.sum_cons]
    rcases List.mem_cons.mp hi₀ with rfl | hmem
    · have := map_sum_le F G l fun i hi => h i (by simp [hi])
      omega
    · have := ih (fun i hi => h i (by simp [hi])) i₀ hmem hlt
      have ha := h a (by simp)
      omega

/-- An `if`-guarded `some` is defined exactly when the guard holds. -/
theorem isSome_ite {c : Prop} [Decidable c] {x : Cell} :
    (if c then some x else none).isSome = decide c := by
  by_cases h : c <;> simp [h]

/-- Cells agreeing in both coordinates are equal. -/
theorem pair_eq_of_parts {x c : Cell} (h1 : c.1 = x.1) (h2 : c.2 = x.2) :
    c = x := by
  rcases x with ⟨a, b⟩
  rcases c with ⟨a2, b2⟩
  simp only at h1 h2
  rw [h1, h2]

/-- The default head is the row read at index `0`. -/
theorem headD_eq_getD_zero (l : Matrix) : l.headD [] = l.getD 0 [] := by
  cases l <;> rfl

/-- A bound key's rank lies below the parent map's length. -/
theorem keyRank_lt_length : ∀ (p : List (Cell × Option Cell)) (x : Cell),
    x ∈ p.map Prod.fst → keyRank p x < p.length := by
  intro p
  induction p with
  | nil => intro x h; simp at h
  | cons e p ih =>
    intro x h
    unfold keyRank
    by_cases he : e.1 = x
    · rw [if_pos he]
      simp
    · rw [if_neg he]
      rw [List.map_cons, List.mem_cons] at h
      rcases h with h' | h'
      · exact absurd h'.symm he
      · have := ih x h'
        simp only [List.length_cons]
        omega

/-- In a well-formed parent map, following a parent pointer strictly increases the rank, so parent chains cannot loop. -/
theorem parentWF_rank_lt : ∀ (p : List (Cell × Option Cell)), parentWF p →
    ∀ (x y : Cell), parentGet p x = some y →
    x ∈ p.map Prod.fst ∧ y ∈ p.map Prod.fst ∧ keyRank p x < keyRank p y := by
  intro p
  induction p with
  | nil => intro _ x y h; rw [parentGet_nil] at h; cases h
  | cons e p ih =>
    rcases e with ⟨w, ow⟩
    intro hwf x y h
    obtain ⟨hpar, hw, hwf'⟩ := hwf
    rw [parentGet_cons] at h
    by_cases hwx : w = x
    · rw [if_pos hwx] at h
      have hy : y ∈ p.map Prod.fst := hpar y h
      have hwy : w ≠ y := fun e => hw (e ▸ hy)
      refine ⟨by simp [hwx], by simp [hy], ?_⟩
      unfold keyRank
      rw [if_pos hwx, if_neg hwy]
      omega
    · rw [if_neg hwx] at h
      obtain ⟨hx, hy, hr⟩ := ih hwf' x y h
      have hwy : w ≠ y := fun e => hw (e ▸ hy)
      refine ⟨by simp [hx], by simp [hy], ?_⟩
      unfold keyRank
      rw [if_neg hwx, if_neg hwy]
      omega

/-- An ancestor chain in a well-formed parent map stays within the bound keys, has monotone ranks, and repeats no cell. -/
theorem chemin_chain (p : List (Cell × Option Cell)) (hwf : parentWF p) :
    ∀ (fuel : ℕ) (x : Cell), x ∈ p.map Prod.fst →
    p.length - keyRank p x < fuel →
    (∀ z ∈ chemin p fuel x, z ∈ p.map Prod.fst ∧ keyRank p x ≤ keyRank p z) ∧
    (chemin p fuel x).Nodup := by
  intro fuel
  induction fuel with
  | zero =>
    intro x hx hf
    have := keyRank_lt_length p x hx
    omega
  | succ fuel ih =>
    intro x hx hf
    show (∀ z ∈ x :: _, _) ∧ List.Nodup (x :: _)
    rcases hpg : parentGet p x with _ | y
    · constructor
      · intro z hz
        rcases List.mem_cons.mp hz with rfl | hz'
        · exact ⟨hx, le_refl _⟩
        · simp at hz'
      · simp
    · obtain ⟨-, hy, hr⟩ := parentWF_rank_lt p hwf x y hpg
      have hylt := keyRank_lt_length p y hy
      have hxlt := keyRank_lt_length p x hx
      obtain ⟨hmem, hnod⟩ := ih y hy (by omega)
      constructor
      · intro z hz
        rcases List.mem_cons.mp hz with rfl | hz'
        · exact ⟨hx, le_refl _⟩
        · have hz'' : z ∈ chemin p fuel y := hz'
          obtain ⟨hz1, hz2⟩ := hmem z hz''
          exact ⟨hz1, by omega⟩
      · refine List.nodup_cons.mpr ⟨?_, hnod⟩
        intro hxin
        have hxin' : x ∈ chemin p fuel y := hxin
        obtain ⟨-, hz2⟩ := hmem x hxin'
        omega

/-- The walk-to-LCA is the ancestor chain truncated before the LCA. -/
theorem walkToLca_eq_takeWhile (p : List (Cell × Option Cell)) (lca : Cell) :
    ∀ (fuel : ℕ) (x : Cell),
    walkToLca p lca fuel x =
      (chemin p fuel x).takeWhile fun c => decide (c ≠ lca) := by
  intro fuel
  induction fuel with
  | zero => intro x; rfl
  | succ fuel ih =>
    intro x
    show (if x = lca then [] else _) = List.takeWhile _ (x :: _)
    rw [List.takeWhile_cons]
    by_cases hx : x = lca
    · rw [if_pos hx]
      have : decide (x ≠ lca) = false := by simp [hx]
      rw [this]
      simp
    · rw [if_neg hx]
      have : decide (x ≠ lca) = true := by simp [hx]
      rw [this]
      simp only [if_true]
      rcases hpg : parentGet p x with _ | y
      · rfl
      · show x :: walkToLca p lca fuel y =
          x :: List.takeWhile (fun c => decide (c ≠ lca)) (chemin p fuel y)
        rw [ih y]

/-- A transport-valid cycle reconstructed from a well-formed parent map repeats no cell and stays within the bound keys. -/
theorem reconstruire_cycle_nodup (p : List (Cell × Option Cell)) (u v : Cell)
    (hwf : parentWF p) (hu : u ∈ p.map Prod.fst) (hv : v ∈ p.map Prod.fst)
    (hval : est_cycle_transport_valide (reconstruire_cycle u v p) = true) :
    (reconstruire_cycle u v p).Nodup ∧
    ∀ z ∈ reconstruire_cycle u v p, z ∈ p.map Prod.fst := by
  have hfu : p.length - keyRank p u < p.length + 1 := by omega
  have hfv : p.length - keyRank p v < p.length + 1 := by omega
  obtain ⟨hmemU, hnodU⟩ := chemin_chain p hwf (p.length + 1) u hu hfu
  obtain ⟨hmemV, hnodV⟩ := chemin_chain p hwf (p.length + 1) v hv hfv
  simp only [reconstruire_cycle] at hval ⊢
  rcases hfind : (chemin p (p.length + 1) u).find?
      (fun c => decide (c ∈ chemin p (p.length + 1) v)) with _ | lca
  · exfalso
    rw [hfind] at hval
    have hval' : est_cycle_transport_valide [u, v] = true := hval
    unfold est_cycle_transport_valide at hval'
    rw [if_pos (by simp)] at hval'
    cases hval'
  · show (walkToLca p lca (p.length + 1) u ++ [lca] ++
        (walkToLca p lca (p.length + 1) v).reverse).Nodup ∧
      ∀ z ∈ walkToLca p lca (p.length + 1) u ++ [lca] ++
        (walkToLca p lca (p.length + 1) v).reverse, z ∈ p.map Prod.fst
    obtain ⟨l₁, l₂, hsplit, hf, hq⟩ := find?_mem_split _ _ _ hfind
    have hlcaV : lca ∈ chemin p (p.length + 1) v := of_decide_eq_true hq
    have hnotV : ∀ b ∈ l₁, b ∉ chemin p (p.length + 1) v := fun b hb =>
      of_decide_eq_false (hf b hb)
    have hnodU' := hnodU
    rw [hsplit, List.nodup_append] at hnodU'
    obtain ⟨hnodl₁, hnodrest, hdisj⟩ := hnodU'
    have hlca_nl₁ : lca ∉ l₁ := fun hmem => hdisj hmem (List.mem_cons_self _ _)
    have hwU : walkToLca p lca (p.length + 1) u = l₁ := by
      rw [walkToLca_eq_takeWhile, hsplit]
      refine takeWhile_append_of _ l₁ lca l₂ ?_ ?_
      · intro b hb
        have hne : b ≠ lca := fun e => hlca_nl₁ (e ▸ hb)
        simp [hne]
      · simp
    have hwVtw : walkToLca p lca (p.length + 1) v =
        (chemin p (p.length + 1) v).takeWhile (fun c => decide (c ≠ lca)) :=
      walkToLca_eq_takeWhile p lca (p.length + 1) v
    have hsubV : ∀ z ∈ walkToLca p lca (p.length + 1) v,
        z ∈ chemin p (p.length + 1) v ∧ z ≠ lca := by
      intro z hz
      rw [hwVtw] at hz
      have hpz := mem_takeWhile_pred (fun c => decide (c ≠ lca)) _ z hz
      exact ⟨(List.takeWhile_sublist _).subset hz, of_decide_eq_true hpz⟩
    have hnodV' : (walkToLca p lca (p.length + 1) v).Nodup := by
      rw [hwVtw]
      exact hnodV.sublist (List.takeWhile_sublist _)
    refine ⟨?_, ?_⟩
    · rw [hwU]
      have h1 : (l₁ ++ [lca]).Nodup := by
        rw [List.nodup_append]
        refine ⟨hnodl₁, List.nodup_singleton _, ?_⟩
        intro a ha hb
        rw [List.mem_singleton] at hb
        exact hlca_nl₁ (hb ▸ ha)
      rw [List.nodup_append]
      refine ⟨h1, by rw [List.nodup_reverse]; exact hnodV', ?_⟩
      intro a ha hb
      rw [List.mem_reverse] at hb
      obtain ⟨haV, hane⟩ := hsubV a hb
      rcases List.mem_append.mp ha with ha₁ | ha₂
      · exact hnotV a ha₁ haV
      · rw [List.mem_singleton] at ha₂
        exact hane ha₂
    · intro z hz
      rw [hwU] at hz
      rcases List.mem_append.mp hz with hz1 | hz2
      · rcases List.mem_append.mp hz1 with hza | hzb
        · exact (hmemU z (by rw [hsplit]; exact List.mem_append.mpr (Or.inl hza))).1
        · rw [List.mem_singleton] at hzb
          subst hzb
          exact (hmemV z hlcaV).1
      · rw [List.mem_reverse] at hz2
        exact (hmemV z (hsubV z hz2).1).1

/-- The neighbour scan preserves the BFS invariant and returns only duplicate-free cycles of basic cells. -/
theorem bfsNbrs_inv (A : Matrix) (u : Cell) : ∀ (vs : List Cell) (st : BfsSt),
    BfsInv A st → u ∈ st.visite → (∀ v ∈ vs, v ∈ cellulesOf A) →
    (∀ st', bfsNbrs u vs st = Sum.inr st' → BfsInv A st' ∧ u ∈ st'.visite) ∧
    (∀ cyc, bfsNbrs u vs st = Sum.inl cyc →
      cyc.Nodup ∧ ∀ z ∈ cyc, z ∈ cellulesOf A) := by
  intro vs
  induction vs with
  | nil =>
    intro st hinv hu _
    refine ⟨?_, ?_⟩
    · intro st' h
      have h2 : Sum.inr st = (Sum.inr st' : List Cell ⊕ BfsSt) := h
      cases h2
      exact ⟨hinv, hu⟩
    · intro cyc h
      simp [bfsNbrs] at h
  | cons v vs ih =>
    intro st hinv hu hvs
    obtain ⟨hwf, hiff, hcell, hq⟩ := hinv
    by_cases hv : v ∈ st.visite
    · by_cases hp : parentGet st.parent u ≠ some v
      · by_cases hval : est_cycle_transport_valide
            (reconstruire_cycle u v st.parent) = true
        · refine ⟨?_, ?_⟩
          · intro st' h
            unfold bfsNbrs at h
            rw [if_pos hv, if_pos hp] at h
            simp only [hval, if_true] at h
            cases h
          · intro cyc h
            unfold bfsNbrs at h
            rw [if_pos hv, if_pos hp] at h
            simp only [hval, if_true] at h
            cases h
            obtain ⟨hnod, hsub⟩ := reconstruire_cycle_nodup st.parent u v hwf
              ((hiff u).mp hu) ((hiff v).mp hv) hval
            exact ⟨hnod, fun z hz => hcell z ((hiff z).mpr (hsub z hz))⟩
        · have hrec := ih st ⟨hwf, hiff, hcell, hq⟩ hu
            (fun w hw => hvs w (by simp [hw]))
          refine ⟨?_, ?_⟩
          · intro st' h
            unfold bfsNbrs at h
            rw [if_pos hv, if_pos hp] at h
            simp only [hval, if_false] at h
            exact hrec.1 st' h
          · intro cyc h
            unfold bfsNbrs at h
            rw [if_pos hv, if_pos hp] at h
            simp only [hval, if_false] at h
            exact hrec.2 cyc h
      · have hrec := ih st ⟨hwf, hiff, hcell, hq⟩ hu
          (fun w hw => hvs w (by simp [hw]))
        refine ⟨?_, ?_⟩
        · intro st' h
          unfold bfsNbrs at h
          rw [if_pos hv, if_neg hp] at h
          exact hrec.1 st' h
        · intro cyc h
          unfold bfsNbrs at h
          rw [if_pos hv, if_neg hp] at h
          exact hrec.2 cyc h
    · have hinv2 : BfsInv A ⟨st.visite ++ [v], (v, some u) :: st.parent,
          st.queue ++ [v]⟩ := by
        refine ⟨⟨?_, ?_, hwf⟩, ?_, ?_, ?_⟩
        · intro w hw
          injection hw with hw
          rw [← hw]
          exact (hiff u).mp hu
        · intro hk
          exact hv ((hiff v).mpr hk)
        · intro x
          simp only [List.mem_append, List.mem_singleton, List.map_cons,
            List.mem_cons]
          rw [hiff x]
          tauto
        · intro x hx
          rcases List.mem_append.mp hx with h' | h'
          · exact hcell x h'
          · rw [List.mem_singleton] at h'
            subst h'
            exact hvs x (by simp)
        · intro x hx
          rcases List.mem_append.mp hx with h' | h'
          · exact List.mem_append.mpr (Or.inl (hq x h'))
          · exact List.mem_append.mpr (Or.inr h')
      have hrec := ih _ hinv2 (List.mem_append.mpr (Or.inl hu))
        (fun w hw => hvs w (by simp [hw]))
      refine ⟨?_, ?_⟩
      · intro st' h
        unfold bfsNbrs at h
        rw [if_neg hv] at h
        exact hrec.1 st' h
      · intro cyc h
        unfold bfsNbrs at h
        rw [if_neg hv] at h
        exact hrec.2 cyc h

/-- The BFS queue loop preserves the invariant and returns only duplicate-free cycles of basic cells. -/
theorem bfsLoop_inv (A : Matrix) : ∀ (fuel : ℕ) (st : BfsSt), BfsInv A st →
    (∀ st', bfsLoop A fuel st = Sum.inr st' → BfsInv A st') ∧
    (∀ cyc, bfsLoop A fuel st = Sum.inl cyc →
      cyc.Nodup ∧ ∀ z ∈ cyc, z ∈ cellulesOf A) := by
  intro fuel
  induction fuel with
  | zero =>
    intro st hinv
    rcases st with ⟨vis, par, q⟩
    refine ⟨?_, ?_⟩
    · intro st' h
      cases q with
      | nil =>
        have h2 : Sum.inr (⟨vis, par, []⟩ : BfsSt) =
            (Sum.inr st' : List Cell ⊕ BfsSt) := h
        cases h2
        exact hinv
      | cons u qs =>
        have h2 : Sum.inr (⟨vis, par, u :: qs⟩ : BfsSt) =
            (Sum.inr st' : List Cell ⊕ BfsSt) := h
        cases h2
        exact hinv
    · intro cyc h
      cases q <;> simp [bfsLoop] at h
  | succ fuel ih =>
    intro st hinv
    rcases st with ⟨vis, par, q⟩
    cases q with
    | nil =>
      refine ⟨?_, ?_⟩
      · intro st' h
        have h2 : Sum.inr (⟨vis, par, []⟩ : BfsSt) =
            (Sum.inr st' : List Cell ⊕ BfsSt) := h
        cases h2
        exact hinv
      · intro cyc h
        simp [bfsLoop] at h
    | cons u qs =>
      obtain ⟨hwf, hiff, hcell, hq⟩ := hinv
      have hstp : BfsInv A ⟨vis, par, qs⟩ :=
        ⟨hwf, hiff, hcell, fun x hx => hq x (by simp [hx])⟩
      have hu : u ∈ vis := hq u (by simp)
      have hadj : ∀ w ∈ adjOf A u, w ∈ cellulesOf A := by
        intro w hw
        unfold adjOf at hw
        rcases List.mem_append.mp hw with h' | h'
        · exact List.mem_of_mem_filter h'
        · exact List.mem_of_mem_filter h'
      have hn := bfsNbrs_inv A u (adjOf A u) ⟨vis, par, qs⟩ hstp hu hadj
      refine ⟨?_, ?_⟩
      · intro st' h
        unfold bfsLoop at h
        rcases hns : bfsNbrs u (adjOf A u) ⟨vis, par, qs⟩ with cyc' | st''
        · rw [hns] at h
          have h2 : (Sum.inl cyc' : List Cell ⊕ BfsSt) = Sum.inr st' := h
          cases h2
        · rw [hns] at h
          have h2 : bfsLoop A fuel st'' = Sum.inr st' := h
          exact (ih st'' (hn.1 st'' hns).1).1 st' h2
      · intro cyc h
        unfold bfsLoop at h
        rcases hns : bfsNbrs u (adjOf A u) ⟨vis, par, qs⟩ with cyc' | st''
        · rw [hns] at h
          have h2 : (Sum.inl cyc' : List Cell ⊕ BfsSt) = Sum.inl cyc := h
          cases h2
          exact hn.2 _ hns
        · rw [hns] at h
          have h2 : bfsLoop A fuel st'' = Sum.inl cyc := h
          exact (ih st'' (hn.1 st'' hns).1).2 cyc h2

/-- The start loop returns only duplicate-free cycles of basic cells. -/
theorem bfsStarts_inv (A : Matrix) : ∀ (ss : List Cell) (st : BfsSt),
    BfsInv A st → (∀ s ∈ ss, s ∈ cellulesOf A) →
    ∀ cyc, bfsStarts A ss st = Sum.inl cyc →
      cyc.Nodup ∧ ∀ z ∈ cyc, z ∈ cellulesOf A := by
  intro ss
  induction ss with
  | nil =>
    intro st _ _ cyc h
    simp [bfsStarts] at h
  | cons s ss ih =>
    intro st hinv hss cyc h
    obtain ⟨hwf, hiff, hcell, hq⟩ := hinv
    unfold bfsStarts at h
    by_cases hs : s ∈ st.visite
    · rw [if_pos hs] at h
      exact ih st ⟨hwf, hiff, hcell, hq⟩ (fun w hw => hss w (by simp [hw])) cyc h
    · rw [if_neg hs] at h
      have hinv2 : BfsInv A ⟨st.visite ++ [s], (s, none) :: st.parent, [s]⟩ := by
        refine ⟨⟨?_, ?_, hwf⟩, ?_, ?_, ?_⟩
        · intro w hw
          cases hw
        · intro hk
          exact hs ((hiff s).mpr hk)
        · intro x
          simp only [List.mem_append, List.mem_singleton, List.map_cons,
            List.mem_cons]
          rw [hiff x]
          tauto
        · intro x hx
          rcases List.mem_append.mp hx with h' | h'
          · exact hcell x h'
          · rw [List.mem_singleton] at h'
            subst h'
            exact hss x (by simp)
        · intro x hx
          rw [List.mem_singleton] at hx
          subst hx
          exact List.mem_append.mpr (Or.inr (by simp))
      have hl := bfsLoop_inv A (2 * (cellulesOf A).length + 1)
        ⟨st.visite ++ [s], (s, none) :: st.parent, [s]⟩ hinv2
      rcases hls : bfsLoop A (2 * (cellulesOf A).length + 1)
          ⟨st.visite ++ [s], (s, none) :: st.parent, [s]⟩ with cyc' | st'
      · rw [hls] at h
        have h2 : (Sum.inl cyc' : List Cell ⊕ BfsSt) = Sum.inl cyc := h
        cases h2
        exact hl.2 _ hls
      · rw [hls] at h
        have h2 : bfsStarts A ss st' = Sum.inl cyc := h
        exact ih st' (hl.1 st' hls) (fun w hw => hss w (by simp [hw])) cyc h2

/-- A cycle reported by `tester_acyclique` repeats no cell and consists of basic cells. -/
theorem tester_acyclique_false_nodup (A : Matrix) (C : List Cell)
    (h : tester_acyclique A = (false, C)) :
    C.Nodup ∧ ∀ z ∈ C, z ∈ cellulesOf A := by
  unfold tester_acyclique at h
  by_cases hc : cellulesOf A = []
  · rw [if_pos hc] at h
    cases h
  · rw [if_neg hc] at h
    rcases hs : bfsStarts A (cellulesOf A) ⟨[], [], []⟩ with cyc | st
    · rw [hs] at h
      have hC : cyc = C := by
        cases h
        rfl
      subst hC
      have hinv0 : BfsInv A ⟨[], [], []⟩ := by
        refine ⟨trivial, ?_, ?_, ?_⟩
        · intro x
          simp
        · intro x hx
          simp at hx
        · intro x hx
          simp at hx
      exact bfsStarts_inv A (cellulesOf A) ⟨[], [], []⟩ hinv0
        (fun w hw => hw) cyc hs
    · rw [hs] at h
      cases h

/-- A left fold of `min` returns its initial value or a value attained in the list. -/
theorem foldl_min_attained (A : Matrix) : ∀ (cs : List Cell) (a : ℚ),
    cs.foldl (fun acc d => min acc (getc A d.1 d.2)) a = a ∨
    ∃ d ∈ cs, cs.foldl (fun acc d => min acc (getc A d.1 d.2)) a =
      getc A d.1 d.2 := by
  intro cs
  induction cs with
  | nil => intro a; exact Or.inl rfl
  | cons c cs ih =>
    intro a
    rw [List.foldl_cons]
    rcases ih (min a (getc A c.1 c.2)) with h | ⟨d, hd, h⟩
    · rw [h]
      rcases min_cases a (getc A c.1 c.2) with ⟨h', -⟩ | ⟨h', -⟩
      · exact Or.inl h'
      · exact Or.inr ⟨c, by simp, h'⟩
    · exact Or.inr ⟨d, by simp [hd], h⟩

/-- The delta of a cycle is attained at some `−`-signed cell. -/
theorem deltaOf_attained (A : Matrix) (C : List Cell) (h : moinsCases C ≠ []) :
    ∃ d ∈ moinsCases C, getc A d.1 d.2 = deltaOf A C := by
  unfold deltaOf
  rcases hm : moinsCases C with _ | ⟨c, cs⟩
  · exact absurd hm h
  · rcases foldl_min_attained A cs (getc A c.1 c.2) with h' | ⟨d, hd, h'⟩
    · exact ⟨c, by simp, h'.symm⟩
    · exact ⟨d, by simp [hd], h'.symm⟩

/-- A fold of cell writes preserves the matrix shape. -/
theorem foldl_setc_shape (f : Matrix → Cell → ℚ) : ∀ (L : List Cell) (B : Matrix),
    (L.foldl (fun M c => setc M c.1 c.2 (f M c)) B).length = B.length ∧
    ∀ k, ((L.foldl (fun M c => setc M c.1 c.2 (f M c)) B).getD k []).length =
      (B.getD k []).length := by
  intro L
  induction L with
  | nil => intro B; exact ⟨rfl, fun k => rfl⟩
  | cons c L ih =>
    intro B
    rw [List.foldl_cons]
    obtain ⟨h1, h2⟩ := ih (setc B c.1 c.2 (f B c))
    refine ⟨by rw [h1, setc_length], fun k => by rw [h2 k, setc_row_length]⟩

/-- A fold of per-cell updates over duplicate-free in-bounds cells acts pointwise: untouched cells keep their value, touched cells receive the update of their original value. -/
theorem foldl_setc_getc (φ : Cell → ℚ → ℚ) : ∀ (L : List Cell) (B : Matrix),
    L.Nodup → (∀ c ∈ L, c.1 < B.length ∧ c.2 < (B.getD c.1 []).length) →
    (∀ x : Cell, x ∉ L →
      getc (L.foldl (fun M c => setc M c.1 c.2 (φ c (getc M c.1 c.2))) B)
        x.1 x.2 = getc B x.1 x.2) ∧
    (∀ c ∈ L,
      getc (L.foldl (fun M c => setc M c.1 c.2 (φ c (getc M c.1 c.2))) B)
        c.1 c.2 = φ c (getc B c.1 c.2)) := by
  intro L
  induction L with
  | nil =>
    intro B _ _
    exact ⟨fun x _ => rfl, fun c hc => absurd hc (List.not_mem_nil c)⟩
  | cons c L ih =>
    intro B hnod hbd
    obtain ⟨hcL, hLnod⟩ := List.nodup_cons.mp hnod
    have hcb := hbd c (by simp)
    have hbd2 : ∀ d ∈ L,
        d.1 < (setc B c.1 c.2 (φ c (getc B c.1 c.2))).length ∧
        d.2 < ((setc B c.1 c.2 (φ c (getc B c.1 c.2))).getD d.1 []).length := by
      intro d hd
      rw [setc_length, setc_row_length]
      exact hbd d (by simp [hd])
    obtain ⟨ihn, ihm⟩ := ih (setc B c.1 c.2 (φ c (getc B c.1 c.2))) hLnod hbd2
    rw [List.foldl_cons]
    constructor
    · intro x hx
      have hxc : x ≠ c := fun e => hx (e ▸ List.mem_cons_self c L)
      rw [ihn x (fun hxL => hx (List.mem_cons.mpr (Or.inr hxL)))]
      exact getc_setc_ne B _ (fun he => hxc (pair_eq_of_parts he.1 he.2).symm)
    · intro d hd
      rcases List.mem_cons.mp hd with rfl | hdL
      · rw [ihn d hcL]
        exact getc_setc_eq B _ hcb.1 hcb.2
      · rw [ihm d hdL]
        rw [getc_setc_ne B _
          (fun he => hcL (by rw [pair_eq_of_parts he.1 he.2]; exact hdL))]

/-- The basic-cell count is the sum over rows of the per-row counts. -/
theorem countBasic_eq_sum (A : Matrix) : countBasic A =
    ((List.range A.length).map fun i =>
      (List.range (A.headD []).length).countP fun j =>
        decide (getc A i j > 0)).sum := by
  unfold countBasic cellulesOf
  rw [length_flatMap']
  refine congrArg List.sum ?_
  refine List.map_congr_left ?_
  intro i _
  rw [length_filterMap_isSome]
  refine List.countP_congr ?_
  intro j _
  rw [@isSome_ite (getc A i j > 0) _ (i, j)]

/-- A same-shape matrix whose positive cells embed into the original's and which zeroes one in-range positive cell has strictly fewer basic cells. -/
theorem countBasic_lt (A B : Matrix) (hn : B.length = A.length)
    (hm : (B.headD []).length = (A.headD []).length)
    (hpt : ∀ i j : ℕ, 0 < getc B i j → 0 < getc A i j)
    (i₀ j₀ : ℕ) (hi₀ : i₀ < A.length) (hj₀ : j₀ < (A.headD []).length)
    (hA₀ : 0 < getc A i₀ j₀) (hB₀ : ¬ 0 < getc B i₀ j₀) :
    countBasic B < countBasic A := by
  rw [countBasic_eq_sum, countBasic_eq_sum, hn, hm]
  refine map_sum_lt _ _ (List.range A.length) ?_ i₀ (List.mem_range.mpr hi₀) ?_
  · intro i _
    refine List.countP_mono_left ?_
    intro j _ hj
    exact decide_eq_true (hpt i j (of_decide_eq_true hj))
  · refine countP_lt _ _ _ ?_ j₀ (List.mem_range.mpr hj₀) ?_ ?_
    · intro j _ hj
      exact decide_eq_true (hpt i₀ j (of_decide_eq_true hj))
    · exact decide_eq_false hB₀
    · exact decide_eq_true hA₀

/-- The structural tolerance `1e-9` is positive. -/
theorem tol9_pos : (0 : ℚ) < tol9 := by norm_num [tol9]

/-- Resolving a duplicate-free basic-cell cycle with delta above the tolerance returns that delta and strictly reduces the basic-cell count: the argmin `−` cell lands within `1e-9` of zero and is snapped to exactly `0`. -/
theorem maximiser_decreases (A : Matrix) (C : List Cell)
    (hnod : C.Nodup) (hsub : ∀ z ∈ C, z ∈ cellulesOf A)
    (h4 : 4 ≤ C.length) (hdelta : tol9 < deltaOf A C) :
    (maximiser_sur_cycle A C).2 = deltaOf A C ∧
    countBasic (maximiser_sur_cycle A C).1 < countBasic A := by
  have hmne : moinsCases C ≠ [] := moinsCases_ne_nil C (by omega)
  have hmax : maximiser_sur_cycle A C =
      ((moinsCases C).foldl
        (fun B c =>
          let w := getc B c.1 c.2 - deltaOf A C
          setc B c.1 c.2 (if |w| < tol9 then 0 else w))
        ((plusCases C).foldl
          (fun B c => setc B c.1 c.2 (getc B c.1 c.2 + deltaOf A C)) A),
       deltaOf A C) := by
    show (if C.length < 4 then (A, 0)
      else if moinsCases C = [] then (A, 0)
      else if deltaOf A C ≤ tol9 then (A, 0)
      else ((moinsCases C).foldl
        (fun B c =>
          let w := getc B c.1 c.2 - deltaOf A C
          setc B c.1 c.2 (if |w| < tol9 then 0 else w))
        ((plusCases C).foldl
          (fun B c => setc B c.1 c.2 (getc B c.1 c.2 + deltaOf A C)) A),
        deltaOf A C)) = _
    rw [if_neg (by omega : ¬C.length < 4), if_neg hmne,
      if_neg (not_le.mpr hdelta)]
  obtain ⟨hnodP, hnodM, hdisj⟩ := plusMoins_nodup C hnod
  have hbdP : ∀ c ∈ plusCases C,
      c.1 < A.length ∧ c.2 < (A.getD c.1 []).length := by
    intro c hc
    have hpos := (cellulesOf_bounds A c (hsub c ((plusMoins_subset C).1 c hc))).2.2
    exact getc_ne_zero_bounds A (ne_of_gt hpos)
  obtain ⟨hPn, hPm⟩ := foldl_setc_getc (fun _ w => w + deltaOf A C)
    (plusCases C) A hnodP hbdP
  have hPn' : ∀ x : Cell, x ∉ plusCases C →
      getc ((plusCases C).foldl
        (fun B c => setc B c.1 c.2 (getc B c.1 c.2 + deltaOf A C)) A)
        x.1 x.2 = getc A x.1 x.2 := hPn
  have hshape1 := foldl_setc_shape (fun M c => getc M c.1 c.2 + deltaOf A C)
    (plusCases C) A
  have hlen1 : ((plusCases C).foldl
      (fun B c => setc B c.1 c.2 (getc B c.1 c.2 + deltaOf A C)) A).length =
      A.length := hshape1.1
  have hrow1 : ∀ k, (((plusCases C).foldl
      (fun B c => setc B c.1 c.2 (getc B c.1 c.2 + deltaOf A C)) A).getD
        k []).length = ((A.getD k []).length) := hshape1.2
  have hbdM : ∀ c ∈ moinsCases C,
      c.1 < ((plusCases C).foldl
        (fun B c => setc B c.1 c.2 (getc B c.1 c.2 + deltaOf A C)) A).length ∧
      c.2 < (((plusCases C).foldl
        (fun B c => setc B c.1 c.2 (getc B c.1 c.2 + deltaOf A C)) A).getD
          c.1 []).length := by
    intro c hc
    rw [hlen1, hrow1 c.1]
    have hpos := (cellulesOf_bounds A c (hsub c ((plusMoins_subset C).2 c hc))).2.2
    exact getc_ne_zero_bounds A (ne_of_gt hpos)
  obtain ⟨hMn, hMm⟩ := foldl_setc_getc
    (fun _ w => if |w - deltaOf A C| < tol9 then 0 else w - deltaOf A C)
    (moinsCases C)
    ((plusCases C).foldl
      (fun B c => setc B c.1 c.2 (getc B c.1 c.2 + deltaOf A C)) A)
    hnodM hbdM
  have hMn' : ∀ x : Cell, x ∉ moinsCases C →
      getc (maximiser_sur_cycle A C).1 x.1 x.2 =
      getc ((plusCases C).foldl
        (fun B c => setc B c.1 c.2 (getc B c.1 c.2 + deltaOf A C)) A)
        x.1 x.2 := by
    intro x hx
    rw [hmax]
    exact hMn x hx
  have hMm' : ∀ c ∈ moinsCases C,
      getc (maximiser_sur_cycle A C).1 c.1 c.2 =
      (if |getc ((plusCases C).foldl
          (fun B c => setc B c.1 c.2 (getc B c.1 c.2 + deltaOf A C)) A)
          c.1 c.2 - deltaOf A C| < tol9 then 0
        else getc ((plusCases C).foldl
          (fun B c => setc B c.1 c.2 (getc B c.1 c.2 + deltaOf A C)) A)
          c.1 c.2 - deltaOf A C) := by
    intro c hc
    rw [hmax]
    exact hMm c hc
  obtain ⟨d, hdM, hdval⟩ := deltaOf_attained A C hmne
  have hdnp : d ∉ plusCases C := fun hp => hdisj d hp hdM
  have hA2d : getc (maximiser_sur_cycle A C).1 d.1 d.2 = 0 := by
    rw [hMm' d hdM, hPn' d hdnp, hdval]
    rw [if_pos (by rw [sub_self, abs_zero]; exact tol9_pos)]
  have hshape2 := foldl_setc_shape
    (fun M c =>
      if |getc M c.1 c.2 - deltaOf A C| < tol9 then 0
      else getc M c.1 c.2 - deltaOf A C)
    (moinsCases C)
    ((plusCases C).foldl
      (fun B c => setc B c.1 c.2 (getc B c.1 c.2 + deltaOf A C)) A)
  have hlen2 : (maximiser_sur_cycle A C).1.length = A.length := by
    rw [hmax]
    rw [show ((moinsCases C).foldl
        (fun B c =>
          let w := getc B c.1 c.2 - deltaOf A C
          setc B c.1 c.2 (if |w| < tol9 then 0 else w))
        ((plusCases C).foldl
          (fun B c => setc B c.1 c.2 (getc B c.1 c.2 + deltaOf A C)) A),
       deltaOf A C).1.length = _ from hshape2.1, hlen1]
  have hrow2 : ∀ k, ((maximiser_sur_cycle A C).1.getD k []).length =
      (A.getD k []).length := by
    intro k
    rw [hmax]
    rw [show (((moinsCases C).foldl
        (fun B c =>
          let w := getc B c.1 c.2 - deltaOf A C
          setc B c.1 c.2 (if |w| < tol9 then 0 else w))
        ((plusCases C).foldl
          (fun B c => setc B c.1 c.2 (getc B c.1 c.2 + deltaOf A C)) A),
       deltaOf A C).1.getD k []).length = _ from hshape2.2 k, hrow1 k]
  refine ⟨by rw [hmax], ?_⟩
  have hdC : d ∈ C := (plusMoins_subset C).2 d hdM
  obtain ⟨hd1, hd2, hdpos⟩ := cellulesOf_bounds A d (hsub d hdC)
  refine countBasic_lt A (maximiser_sur_cycle A C).1 hlen2 ?_ ?_ d.1 d.2 hd1 hd2
    (by exact hdpos) ?_
  · rw [headD_eq_getD_zero, headD_eq_getD_zero, hrow2 0]
  · intro i j h2
    by_cases hmem : ((i, j) : Cell) ∈ C
    · exact (cellulesOf_bounds A (i, j) (hsub (i, j) hmem)).2.2
    · have hnp : ((i, j) : Cell) ∉ plusCases C :=
        fun hp => hmem ((plusMoins_subset C).1 (i, j) hp)
      have hnm : ((i, j) : Cell) ∉ moinsCases C :=
        fun hm => hmem ((plusMoins_subset C).2 (i, j) hm)
      rw [hMn' (i, j) hnm, hPn' (i, j) hnp] at h2
      exact h2
  · rw [hA2d]
    exact lt_irrefl 0

/-- Each pass of the detect-and-resolve loop strictly reduces the basic-cell count: a degenerate cycle has its first cell forced to `0`, a non-degenerate one loses its argmin `−` cell. -/
theorem repairOnce_decreases (A : Matrix)
    (h : (tester_acyclique A).1 = false) :
    countBasic (repairOnce A) < countBasic A := by
  have htest : tester_acyclique A = (false, (tester_acyclique A).2) := by
    rw [← h]
  obtain ⟨hval, h4⟩ := tester_acyclique_false_valid A _ htest
  obtain ⟨hnod, hsub⟩ := tester_acyclique_false_nodup A _ htest
  rcases le_or_lt (deltaOf A (tester_acyclique A).2) tol9 with hle | hlt
  · obtain ⟨c, cs, hcons⟩ : ∃ c cs, (tester_acyclique A).2 = c :: cs := by
      rcases hCc : (tester_acyclique A).2 with _ | ⟨c, cs⟩
      · rw [hCc] at h4
        simp at h4
      · exact ⟨c, cs, rfl⟩
    have hmax : maximiser_sur_cycle A (tester_acyclique A).2 = (A, 0) := by
      unfold maximiser_sur_cycle
      rw [if_neg (by omega : ¬(tester_acyclique A).2.length < 4),
        if_neg (moinsCases_ne_nil _ (by omega))]
      show (if deltaOf A (tester_acyclique A).2 ≤ tol9 then (A, 0) else _) = _
      rw [if_pos hle]
    have hrep : repairOnce A = setc A c.1 c.2 0 := by
      unfold repairOnce
      rw [htest]
      simp only [Bool.false_eq_true, if_false, hmax]
      rw [if_pos (le_of_lt tol9_pos), hcons]
    have hcC : c ∈ (tester_acyclique A).2 := by
      rw [hcons]
      exact List.mem_cons_self _ _
    obtain ⟨hc1, hc2, hcpos⟩ := cellulesOf_bounds A c (hsub c hcC)
    rw [hrep]
    refine countBasic_lt A (setc A c.1 c.2 0) (setc_length ..) ?_ ?_
      c.1 c.2 hc1 hc2 hcpos ?_
    · rw [headD_eq_getD_zero, headD_eq_getD_zero, setc_row_length]
    · intro i j h2
      by_cases he : c.1 = i ∧ c.2 = j
      · rw [← he.1, ← he.2, getc_setc_zero] at h2
        exact absurd h2 (lt_irrefl 0)
      · rw [getc_setc_ne A _ he] at h2
        exact h2
    · rw [getc_setc_zero]
      exact lt_irrefl 0
  · have hdec := maximiser_decreases A (tester_acyclique A).2 hnod hsub h4 hlt
    have hrep : repairOnce A = (maximiser_sur_cycle A (tester_acyclique A).2).1 := by
      unfold repairOnce
      rw [htest]
      simp only [Bool.false_eq_true, if_false]
      have hgt : tol9 < (maximiser_sur_cycle A (tester_acyclique A).2).2 := by
        rw [hdec.1]
        exact hlt
      rw [if_neg (not_le.mpr hgt)]
    rw [hrep]
    exact hdec.2

/-- With fuel exceeding the basic-cell count the repair loop reaches an acyclic allocation: the source's inner `while True` loop terminates. -/
theorem repairAcyclic_acyclic : ∀ (fuel : ℕ) (A : Matrix),
    countBasic A < fuel →
    (tester_acyclique (repairAcyclic fuel A)).1 = true := by
  intro fuel
  induction fuel with
  | zero => intro A h; omega
  | succ fuel ih =>
    intro A h
    unfold repairAcyclic
    by_cases ht : (tester_acyclique A).1 = true
    · rw [if_pos ht]
      exact ht
    · rw [if_neg ht]
      have hdec := repairOnce_decreases A (Bool.not_eq_true _ ▸ ht)
      exact ih (repairOnce A) (by omega)

/-- Beyond the sufficient fuel the repair loop's result is stable, so the fueled model agrees with the source's unbounded loop. -/
theorem repairAcyclic_fuel_stable : ∀ (fuel : ℕ) (A : Matrix),
    countBasic A < fuel → ∀ extra : ℕ,
    repairAcyclic (fuel + extra) A = repairAcyclic fuel A := by
  intro fuel
  induction fuel with
  | zero => intro A h; omega
  | succ fuel ih =>
    intro A h extra
    have he : fuel + 1 + extra = (fuel + extra) + 1 := by omega
    rw [he]
    show (if (tester_acyclique A).1 then A
      else repairAcyclic (fuel + extra) (repairOnce A)) =
      (if (tester_acyclique A).1 then A
        else repairAcyclic fuel (repairOnce A))
    by_cases ht : (tester_acyclique A).1 = true
    · rw [if_pos ht, if_pos ht]
    · rw [if_neg ht, if_neg ht]
      have hdec := repairOnce_decreases A (Bool.not_eq_true _ ▸ ht)
      exact ih (repairOnce A) (by omega) extra

/-- The iteration counter returned by the solver loop rises by at most the
remaining budget. -/
theorem solveLoop_nb_le (costs : Matrix) (supplies demands : List ℚ) (n : ℕ) :
    ∀ (rem : ℕ) (A : Matrix) (nb : ℕ),
    (solveLoop costs supplies demands n rem A nb).2 ≤ nb + rem := by
  intro rem
  induction rem with
  | zero =>
    intro A nb
    show nb ≤ nb + 0
    omega
  | succ rem ih =>
    intro A nb
    simp only [solveLoop]
    rcases hs : solveStep costs supplies demands n A with A2 | A3
    · show nb + 1 ≤ nb + (rem + 1)
      omega
    · show (solveLoop costs supplies demands n rem A3 (nb + 1)).2 ≤
        nb + (rem + 1)
      exact le_trans (ih A3 (nb + 1)) (by omega)

/-- C3: `methode_marche_pied` terminates on every input.  The outer loop
performs at most `max_iterations = 1000` iterations (the returned iteration
count never exceeds the cap), and the inner detect-and-resolve loop of each
iteration (repeated `tester_acyclique` / `maximiser_sur_cycle`, with the first
cell of the cycle forced to zero on a degenerate delta) always terminates:
each pass strictly decreases the number of basic cells, so fuel
`countBasic A + 1` reaches an acyclic allocation and any larger fuel gives the
same result as the source's unbounded loop. -/
theorem methode_marche_pied_terminates :
    (∀ (costs : Matrix) (supplies demands : List ℚ) (A0 : Matrix),
      (methode_marche_pied costs supplies demands A0).2.2 ≤ 1000) ∧
    (∀ A : Matrix,
      (tester_acyclique (repairAcyclic (countBasic A + 1) A)).1 = true) ∧
    (∀ (A : Matrix) (extra : ℕ),
      repairAcyclic (countBasic A + 1 + extra) A =
        repairAcyclic (countBasic A + 1) A) := by
  refine ⟨?_, ?_, ?_⟩
  · intro costs supplies demands A0
    simp only [methode_marche_pied]
    exact le_trans (solveLoop_nb_le costs supplies demands A0.length 1000 A0 0)
      (by omega)
  · intro A
    exact repairAcyclic_acyclic (countBasic A + 1) A (by omega)
  · intro A extra
    exact repairAcyclic_fuel_stable (countBasic A + 1) A (by omega) extra

/-- C4 (amended): whenever the dual system `u[i] + v[j] = cost[i][j]` over
the basic cells admits a solution with `u[0] = 0` — guaranteed in particular
when the basic-cell graph is a forest, and violated only on cyclic bases (see
the counterexample) — `calculer_potentiels` returns `u` of length `n` and `v`
of length `m` with `u[0] = 0`, such that `u[i] + v[j] = cost[i][j]` for every
basic cell whose row node and column node are reachable from supply node 0
through basic cells, and every potential not reached by the propagation is
`0`. -/
theorem calculer_potentiels_correct (costs A : Matrix) (ustar vstar : ℕ → ℚ)
    (h0 : ustar 0 = 0)
    (hcons : ∀ c ∈ cellulesOf A, ustar c.1 + vstar c.2 = getc costs c.1 c.2)
    (hn : 0 < A.length) :
    (calculer_potentiels costs A).1.length = A.length ∧
    (calculer_potentiels costs A).2.length = (A.headD []).length ∧
    (calculer_potentiels costs A).1.getD 0 0 = 0 ∧
    (∀ c ∈ cellulesOf A, PotReach (cellulesOf A) (TNode.P c.1) →
      PotReach (cellulesOf A) (TNode.C c.2) →
      (calculer_potentiels costs A).1.getD c.1 0 +
        (calculer_potentiels costs A).2.getD c.2 0 = getc costs c.1 c.2) ∧
    (∀ i < A.length, ¬PotReach (cellulesOf A) (TNode.P i) →
      (calculer_potentiels costs A).1.getD i 0 = 0) ∧
    (∀ j < (A.headD []).length, ¬PotReach (cellulesOf A) (TNode.C j) →
      (calculer_potentiels costs A).2.getD j 0 = 0) := by
  by_cases har : cellulesOf A = []
  · have hcalc : calculer_potentiels costs A =
        (List.replicate A.length 0, List.replicate (A.headD []).length 0) := by
      simp only [calculer_potentiels]
      rw [if_pos har]
    rw [hcalc]
    refine ⟨by simp, by simp, getD_replicate' _ _ _ _ hn, ?_, ?_, ?_⟩
    · intro c hc
      rw [har] at hc
      cases hc
    · intro i hi _
      exact getD_replicate' _ _ _ _ hi
    · intro j hj _
      exact getD_replicate' _ _ _ _ hj
  · have hb1 : ∀ c ∈ cellulesOf A, c.1 < A.length :=
      fun c hc => (cellulesOf_bounds A c hc).1
    have hb2 : ∀ c ∈ cellulesOf A, c.2 < (A.headD []).length :=
      fun c hc => (cellulesOf_bounds A c hc).2.1
    set u0 : List (Option ℚ) :=
      (List.replicate A.length (none : Option ℚ)).set 0 (some 0) with hu0def
    set st1 := initFold costs (cellulesOf A) u0
      (List.replicate (A.headD []).length (none : Option ℚ), []) with hst1def
    set UV := potLoop costs (cellulesOf A)
      ((cellulesOf A).length + 2 * (A.length + (A.headD []).length) + 2)
      st1.2 u0 st1.1 with hUVdef
    have hcalc : calculer_potentiels costs A =
        (UV.1.map fun o => o.getD 0, UV.2.map fun o => o.getD 0) := by
      simp only [calculer_potentiels]
      rw [if_neg har, hUVdef, hst1def, hu0def]
    have hu0len : u0.length = A.length := by
      rw [hu0def, List.length_set, List.length_replicate]
    have hu0get : u0.getD 0 none = some 0 := by
      rw [hu0def]
      exact getD_set_eq _ _ _ _ (by rw [List.length_replicate]; exact hn)
    have hu0ne : ∀ i, i ≠ 0 → u0.getD i none = none := by
      intro i hi
      rw [hu0def, getD_set_ne _ _ _ (fun h => hi h.symm), getD_replicate_none]
    have hsome : (u0.getD 0 none).isSome := by rw [hu0get]; rfl
    have hbv : ∀ c ∈ cellulesOf A,
        c.2 < (List.replicate (A.headD []).length (none : Option ℚ)).length := by
      intro c hc
      rw [List.length_replicate]
      exact hb2 c hc
    have hst1len : st1.1.length = (A.headD []).length := by
      rw [hst1def, initFold_length, List.length_replicate]
    have hinv0 : PotInv (cellulesOf A) ustar vstar A.length
        (A.headD []).length u0 st1.1 st1.2 := by
      refine ⟨hu0len, hst1len, hu0get, ?_, ?_, ?_, ?_, ?_, ?_⟩
      · intro i w hw
        by_cases hi : i = 0
        · subst hi
          rw [hu0get] at hw
          injection hw with h
          exact ⟨by rw [← h, h0], PotReach.root⟩
        · rw [hu0ne i hi] at hw
          cases hw
      · intro j w hw
        rw [hst1def] at hw
        refine initFold_val costs u0
          (fun j w => w = vstar j ∧ PotReach (cellulesOf A) (TNode.C j))
          (cellulesOf A) _ ?_ ?_ j w hw
        · intro j' w' hw'
          rw [getD_replicate_none] at hw'
          cases hw'
        · intro c hc hc1
          have hcell : ((0, c.2) : Cell) ∈ cellulesOf A := by
            have : c = (0, c.2) := by
              rcases c with ⟨c1, c2⟩
              simp only at hc1
              rw [hc1]
            exact this ▸ hc
          constructor
          · rw [hu0get]
            simp only [Option.getD_some]
            have hcc := hcons c hc
            rw [hc1, h0] at hcc
            linarith
          · exact PotReach.toC PotReach.root hcell
      · intro j hj
        rw [hst1def] at hj ⊢
        obtain ⟨j', hj', hass⟩ := initFold_queue costs u0 (cellulesOf A) _
          hbv (fun x hx => absurd hx (List.not_mem_nil x)) _ hj
        have : j = j' := by injection hj' with h
        rw [this]
        exact hass
      · intro i hi
        rw [hst1def] at hi
        obtain ⟨j', hj', -⟩ := initFold_queue costs u0 (cellulesOf A) _
          hbv (fun x hx => absurd hx (List.not_mem_nil x)) _ hi
        cases hj'
      · intro i hi
        by_cases hi0 : i = 0
        · subst hi0
          refine Or.inr fun c hc hc1 => ?_
          rw [hst1def]
          exact initFold_closure costs u0 hsome (cellulesOf A) _ c hc hc1
            (hbv c hc)
        · exact absurd (hu0ne i hi0) hi
      · intro j hj
        rw [hst1def] at hj ⊢
        refine Or.inl (initFold_assigned_queued costs u0 (cellulesOf A) _
          ?_ j hj)
        intro j' hj'
        rw [getD_replicate_none] at hj'
        exact absurd rfl hj'
    have hmeas : st1.2.length + countNone u0 + countNone st1.1 ≤
        (cellulesOf A).length + 2 * (A.length + (A.headD []).length) + 2 := by
      have h1 : st1.2.length ≤ 0 + (cellulesOf A).length := by
        rw [hst1def]
        exact initFold_queue_len costs u0 (cellulesOf A) _
      have h2 : countNone u0 ≤ A.length := hu0len ▸ countNone_le_length u0
      have h3 : countNone st1.1 ≤ (A.headD []).length :=
        hst1len ▸ countNone_le_length st1.1
      omega
    have hfin : PotInv (cellulesOf A) ustar vstar A.length
        (A.headD []).length UV.1 UV.2 [] := by
      rw [hUVdef]
      exact potLoop_final costs (cellulesOf A) ustar vstar A.length
        (A.headD []).length hb1 hb2 hcons _ st1.2 u0 st1.1 hinv0 hmeas
    have hcomp := potInv_complete (cellulesOf A) ustar vstar A.length
      (A.headD []).length UV.1 UV.2 hfin
    obtain ⟨hflu, hflv, hfu0, hfuval, hfvval, -, -, -, -⟩ := hfin
    rw [hcalc]
    refine ⟨by simp [hflu], by simp [hflv], ?_, ?_, ?_, ?_⟩
    · show (UV.1.map fun o => o.getD 0).getD 0 0 = 0
      rw [getD_map_optD, hfu0]
      rfl
    · intro c hc hrp hrc
      have hup : UV.1.getD c.1 none ≠ none :=
        (hcomp (TNode.P c.1) hrp).1 c.1 rfl
      have hvp : UV.2.getD c.2 none ≠ none :=
        (hcomp (TNode.C c.2) hrc).2 c.2 rfl
      obtain ⟨wu, hwu⟩ : ∃ w, UV.1.getD c.1 none = some w := by
        cases h : UV.1.getD c.1 none with
        | none => exact absurd h hup
        | some w => exact ⟨w, rfl⟩
      obtain ⟨wv, hwv⟩ : ∃ w, UV.2.getD c.2 none = some w := by
        cases h : UV.2.getD c.2 none with
        | none => exact absurd h hvp
        | some w => exact ⟨w, rfl⟩
      show (UV.1.map fun o => o.getD 0).getD c.1 0 +
          (UV.2.map fun o => o.getD 0).getD c.2 0 = getc costs c.1 c.2
      rw [getD_map_optD, getD_map_optD, hwu, hwv]
      simp only [Option.getD_some]
      rw [(hfuval c.1 wu hwu).1, (hfvval c.2 wv hwv).1]
      exact hcons c hc
    · intro i hi hnr
      show (UV.1.map fun o => o.getD 0).getD i 0 = 0
      rw [getD_map_optD]
      cases h : UV.1.getD i none with
      | none => rfl
      | some w => exact absurd (hfuval i w h).2 hnr
    · intro j hj hnr
      show (UV.2.map fun o => o.getD 0).getD j 0 = 0
      rw [getD_map_optD]
      cases h : UV.2.getD j none with
      | none => rfl
      | some w => exact absurd (hfvval j w h).2 hnr

/-- Witness for `calculer_potentiels_correct` at the 1×1 instance
`costs = [[0]]`, `allocation = [[1]]` with the zero dual solution. -/
theorem calculer_potentiels_correct_witness :
    ((fun _ : ℕ => (0 : ℚ)) 0 = 0 ∧
     (∀ c ∈ cellulesOf [[1]], (fun _ : ℕ => (0 : ℚ)) c.1 +
        (fun _ : ℕ => (0 : ℚ)) c.2 = getc [[0]] c.1 c.2) ∧
     0 < ([[(1 : ℚ)]] : Matrix).length) ∧
    ((calculer_potentiels [[0]] [[1]]).1.length = ([[(1 : ℚ)]] : Matrix).length ∧
    (calculer_potentiels [[0]] [[1]]).2.length =
      (([[(1 : ℚ)]] : Matrix).headD []).length ∧
    (calculer_potentiels [[0]] [[1]]).1.getD 0 0 = 0 ∧
    (∀ c ∈ cellulesOf [[1]], PotReach (cellulesOf [[1]]) (TNode.P c.1) →
      PotReach (cellulesOf [[1]]) (TNode.C c.2) →
      (calculer_potentiels [[0]] [[1]]).1.getD c.1 0 +
        (calculer_potentiels [[0]] [[1]]).2.getD c.2 0 = getc [[0]] c.1 c.2) ∧
    (∀ i < ([[(1 : ℚ)]] : Matrix).length,
      ¬PotReach (cellulesOf [[1]]) (TNode.P i) →
      (calculer_potentiels [[0]] [[1]]).1.getD i 0 = 0) ∧
    (∀ j < (([[(1 : ℚ)]] : Matrix).headD []).length,
      ¬PotReach (cellulesOf [[1]]) (TNode.C j) →
      (calculer_potentiels [[0]] [[1]]).2.getD j 0 = 0)) := by
  have hcell : cellulesOf [[(1 : ℚ)]] = [(0, 0)] := by with_unfolding_all rfl
  have hcons : ∀ c ∈ cellulesOf [[(1 : ℚ)]], (fun _ : ℕ => (0 : ℚ)) c.1 +
      (fun _ : ℕ => (0 : ℚ)) c.2 = getc [[0]] c.1 c.2 := by
    intro c hc
    rw [hcell] at hc
    rw [List.mem_singleton] at hc
    subst hc
    show (0 : ℚ) + 0 = getc [[0]] 0 0
    rw [show getc [[(0 : ℚ)]] 0 0 = 0 from rfl]
    norm_num
  exact ⟨⟨rfl, hcons, by norm_num⟩,
    calculer_potentiels_correct [[0]] [[1]] (fun _ => 0) (fun _ => 0) rfl
      hcons (by norm_num)⟩

/-- C10: `methode_marche_pied` never modifies its arguments.  In the heap
model of Python's call-by-object-reference, every pre-existing heap object —
in particular the cost-matrix rows, the supply and demand vectors and the rows
of `allocation_initiale` — is unchanged by the call: the solver writes only
through the fresh row objects (references `h.length, h.length+1, …`) allocated
for its row-by-row copy, and those fresh references are what it returns. -/
theorem methode_marche_pied_frame (h : Heap) (costsRefs : List ℕ)
    (suppliesRef demandsRef : ℕ) (allocInitRefs : List ℕ) :
    ((methode_marche_pied_heap h costsRefs suppliesRef demandsRef
        allocInitRefs).1).take h.length = h ∧
    (methode_marche_pied_heap h costsRefs suppliesRef demandsRef
        allocInitRefs).2.1 =
      (List.range allocInitRefs.length).map (h.length + ·) := by
  unfold methode_marche_pied_heap writeMat
  refine ⟨?_, by simp [readMat]⟩
  rw [foldl_set_take]
  · exact List.take_left h _
  · intro p hp
    rcases p with ⟨r, row⟩
    have hr : r ∈ (List.range (readMat h allocInitRefs).length).map
        (h.length + ·) := (List.of_mem_zip hp).1
    simp only [List.mem_map, List.mem_range] at hr
    obtain ⟨k, -, hk⟩ := hr
    omega

end StepStone
